import Mathlib

/-!
# Buffer pool manager and LRU-K replacer (BusTub, spring 2023 student tree)

A shallow embedding of `src/buffer/lru_k_replacer.cpp` and
`src/buffer/buffer_pool_manager.cpp`, followed by the theorems that settle the
claims of the specification.

Conventions of the embedding.

* `std::unordered_map` is an association list with unique keys.  The list order
  is the iteration order of the map, which C++ leaves unspecified: new keys are
  put in front, and the reachability relations below contain a step that
  permutes the node store, so that every universally quantified theorem holds
  for every iteration order.
* `size_t` is `Nat` reduced modulo `2 ^ 64` at every arithmetic operation,
  `page_id_t` (`int32_t`, held in a `std::atomic`) is `Int` wrapped to 32 bits
  on increment, `pin_count_` (`int`) is `Int`.  `frame_id_t` (`int32_t`) is
  `Nat`: a negative frame id is above every capacity once cast to `size_t`, and
  the theorems that range over all pool sizes take the size below `2 ^ 31`,
  where every frame id fits.
* A function whose C++ body can reach undefined behaviour or can fail to return
  yields an `Option`; `none` stands for "no defined result".
* A frame pointer `Page *` into `pages_` is the index of the frame.
-/

namespace bustub

/-! ## Association lists standing for `std::unordered_map` -/

namespace UMap

/-- The lookup `m.find(key)`: the mapped value, or `none` for `m.end()`. -/
def find {κ ν : Type} [DecidableEq κ] : List (κ × ν) → κ → Option ν
  | [], _ => none
  | (a, v) :: m, key => if a = key then some v else find m key

/-- The removal `m.erase(key)`. -/
def erase {κ ν : Type} [DecidableEq κ] : List (κ × ν) → κ → List (κ × ν)
  | [], _ => []
  | (a, v) :: m, key => if a = key then erase m key else (a, v) :: erase m key

/-- Overwrites the value stored under a key that is present. -/
def replace {κ ν : Type} [DecidableEq κ] : List (κ × ν) → κ → ν → List (κ × ν)
  | [], _, _ => []
  | (a, v) :: m, key, w =>
    if a = key then (a, w) :: replace m key w else (a, v) :: replace m key w

/-- The insertion `m.emplace(key, v)` / `m.insert({key, v})`: nothing happens
when the key is already present. -/
def emplace {κ ν : Type} [DecidableEq κ] (m : List (κ × ν)) (key : κ) (v : ν) :
    List (κ × ν) :=
  match find m key with
  | some _ => m
  | none => (key, v) :: m

/-- The assignment `m[key] = v`: overwrite, or insert when absent. -/
def assign {κ ν : Type} [DecidableEq κ] (m : List (κ × ν)) (key : κ) (v : ν) :
    List (κ × ν) :=
  match find m key with
  | some _ => replace m key v
  | none => (key, v) :: m

end UMap

/-! ## The LRU-K replacer (`lru_k_replacer.cpp`) -/

/-- Number of values of `size_t`. -/
def SIZE_MOD : Nat := 2 ^ 64

/-- The constant `std::numeric_limits<size_t>::max()`. -/
def SIZE_MAX : Nat := 2 ^ 64 - 1

/-- The constant `std::numeric_limits<size_t>::infinity()`.  `size_t` has no
infinity, and for such a type the C++ standard library returns `size_t()`,
which is zero. -/
def SIZE_INFINITY : Nat := 0

/-- Record `LRUKNode`: the access history (oldest first, never trimmed by the
source), the stored distance and the evictable flag. -/
structure LRUKNode where
  history_ : List Nat
  kDistance : Nat
  is_evictable_ : Bool
  deriving DecidableEq, Repr

/-- Modelled from the spec: the declaration of `LRUKNode` (lru_k_replacer.h) is
not in src/, so the node that `node_store_[frame_id]` creates for an unknown
key follows the data model: no access yet, hence fewer than K accesses and the
distance the source uses for "infinite", and not evictable (the flag is
"mutated only by SetEvictable").  This is also what value-initialisation
gives. -/
def LRUKNode.fresh : LRUKNode :=
  { history_ := [], kDistance := SIZE_INFINITY, is_evictable_ := false }

/-- State of `LRUKReplacer`. -/
structure LRUKReplacer where
  node_store_ : List (Nat × LRUKNode)
  current_timestamp_ : Nat
  curr_size_ : Nat
  replacer_size_ : Nat
  k_ : Nat
  deriving DecidableEq, Repr

/-- Constructor `LRUKReplacer(num_frames, k)`. -/
def LRUKReplacer.new (num_frames k : Nat) : LRUKReplacer :=
  { node_store_ := [], current_timestamp_ := 0, curr_size_ := 0,
    replacer_size_ := num_frames, k_ := k }

/-- Local variables of the loop of `Evict`; `frame_id` is the out-parameter
`*frame_id`, `none` while the loop has not written to it. -/
structure EvictScan where
  isInfinity : Bool
  kMax : Nat
  earlistTimestamp : Nat
  frame_id : Option Nat
  deriving DecidableEq, Repr

/-- Values of the locals of `Evict` before the loop. -/
def EvictScan.start : EvictScan :=
  { isInfinity := false, kMax := 0, earlistTimestamp := SIZE_MAX, frame_id := none }

/-- One iteration of the loop of `Evict`.  `history_.back()` is evaluated only
when the distance equals the "infinity" constant; on an empty history it is
undefined (`none`). -/
def Evict.visit (acc : EvictScan) (node : Nat × LRUKNode) : Option EvictScan :=
  if node.2.is_evictable_ = false then some acc
  else
    let other : EvictScan :=
      if acc.isInfinity = false ∧ node.2.kDistance > acc.kMax then
        { acc with kMax := node.2.kDistance, frame_id := some node.1 }
      else acc
    if node.2.kDistance = SIZE_INFINITY then
      match node.2.history_.getLast? with
      | none => none
      | some back =>
        if acc.earlistTimestamp > back then
          some { isInfinity := true, kMax := node.2.kDistance,
                 earlistTimestamp := back, frame_id := some node.1 }
        else some other
    else some other

/-- The loop `for (auto node : node_store_)` of `Evict`. -/
def Evict.scan : List (Nat × LRUKNode) → EvictScan → Option EvictScan
  | [], acc => some acc
  | node :: rest, acc =>
    match Evict.visit acc node with
    | none => none
    | some acc' => Evict.scan rest acc'

/-- Method `LRUKReplacer::Evict`.  The result is `none` when the call has
undefined behaviour, and otherwise the frame written to `*frame_id` on `true`
(`none` for the return value `false`) with the new state. -/
def LRUKReplacer.Evict (r : LRUKReplacer) : Option (Option Nat × LRUKReplacer) :=
  match Evict.scan r.node_store_ EvictScan.start with
  | none => none
  | some acc =>
    if acc.isInfinity = true ∨ acc.kMax > 0 then
      match acc.frame_id with
      | none => none
      | some f =>
        some (some f,
          { r with curr_size_ := (r.curr_size_ + SIZE_MOD - 1) % SIZE_MOD,
                   node_store_ := UMap.erase r.node_store_ f })
    else some (none, r)

/-- Method `LRUKReplacer::RecordAccess`.  For a frame id above `replacer_size_`
the source unlocks a latch it does not hold, which is undefined (`none`); so is
the dereference of `history_.end()` when `k_` is zero. -/
def LRUKReplacer.RecordAccess (r : LRUKReplacer) (frame_id : Nat) : Option LRUKReplacer :=
  if frame_id > r.replacer_size_ then none
  else
    match UMap.find r.node_store_ frame_id with
    | none =>
      some { r with
        node_store_ :=
          (frame_id, { history_ := [r.current_timestamp_], kDistance := SIZE_INFINITY,
                       is_evictable_ := false }) :: r.node_store_,
        current_timestamp_ := (r.current_timestamp_ + 1) % SIZE_MOD }
    | some node =>
      let history := node.history_ ++ [r.current_timestamp_]
      if history.length ≥ r.k_ then
        match history[history.length - r.k_]? with
        | none => none
        | some t =>
          some { r with
            node_store_ := UMap.replace r.node_store_ frame_id
              { node with history_ := history,
                          kDistance := (r.current_timestamp_ + SIZE_MOD - t) % SIZE_MOD },
            current_timestamp_ := (r.current_timestamp_ + 1) % SIZE_MOD }
      else
        some { r with
          node_store_ := UMap.replace r.node_store_ frame_id { node with history_ := history },
          current_timestamp_ := (r.current_timestamp_ + 1) % SIZE_MOD }

/-- The access `node_store_[frame_id]`: a missing node is created first. -/
def LRUKReplacer.touch (store : List (Nat × LRUKNode)) (frame_id : Nat) :
    List (Nat × LRUKNode) × LRUKNode :=
  match UMap.find store frame_id with
  | some node => (store, node)
  | none => ((frame_id, LRUKNode.fresh) :: store, LRUKNode.fresh)

/-- Method `LRUKReplacer::SetEvictable`. -/
def LRUKReplacer.SetEvictable (r : LRUKReplacer) (frame_id : Nat) (set_evictable : Bool) :
    LRUKReplacer :=
  if frame_id > r.replacer_size_ then r
  else
    let (store, node) := LRUKReplacer.touch r.node_store_ frame_id
    let size :=
      if node.is_evictable_ = true ∧ set_evictable = false then
        (r.curr_size_ + SIZE_MOD - 1) % SIZE_MOD
      else if node.is_evictable_ = false ∧ set_evictable = true then
        (r.curr_size_ + 1) % SIZE_MOD
      else r.curr_size_
    { r with
      node_store_ := UMap.replace store frame_id { node with is_evictable_ := set_evictable },
      curr_size_ := size }

/-- Method `LRUKReplacer::Remove`. -/
def LRUKReplacer.Remove (r : LRUKReplacer) (frame_id : Nat) : LRUKReplacer :=
  if frame_id > r.replacer_size_ then r
  else
    match UMap.find r.node_store_ frame_id with
    | none => r
    | some node =>
      if node.is_evictable_ = true then
        { r with node_store_ := UMap.erase r.node_store_ frame_id,
                 curr_size_ := (r.curr_size_ + SIZE_MOD - 1) % SIZE_MOD }
      else r

/-- Method `LRUKReplacer::Size`. -/
def LRUKReplacer.Size (r : LRUKReplacer) : Nat := r.curr_size_

/-! ## The buffer pool manager (`buffer_pool_manager.cpp`) -/

/-- The constant `INVALID_PAGE_ID` of the upstream configuration header. -/
def INVALID_PAGE_ID : Int := -1

/-- Two's-complement wrap of a 32-bit signed integer (`page_id_t`). -/
def wrap32 (x : Int) : Int := (x + 2 ^ 31) % 2 ^ 32 - 2 ^ 31

/-- Frame `Page`: payload bytes and metadata. -/
structure Page where
  data_ : List Nat
  page_id_ : Int
  pin_count_ : Int
  is_dirty_ : Bool
  deriving DecidableEq, Repr

/-- Modelled from the spec: the class `Page` (storage/page/page.h) is not in
src/.  `ResetMemory` zeroes the payload ("reset the frame's buffer",
"initialize its buffer to zero") and leaves the metadata alone; the payload has
`page_size` bytes. -/
def Page.ResetMemory (page_size : Nat) (page : Page) : Page :=
  { page with data_ := List.replicate page_size 0 }

/-- Modelled from the spec: a frame as constructed by `new Page[pool_size_]`:
zero payload, invalid page id ("or invalid if free"), no pin, clean. -/
def Page.fresh (page_size : Nat) : Page :=
  { data_ := List.replicate page_size 0, page_id_ := INVALID_PAGE_ID, pin_count_ := 0,
    is_dirty_ := false }

/-- Modelled from the spec: the disk manager (storage/disk/disk_manager.h) is
not in src/; it is "a map from page id to bytes". -/
structure DiskManager where
  pages : List (Int × List Nat)
  deriving DecidableEq, Repr

/-- Modelled from the spec: `WritePage(page_id, buffer)` persists the buffer
under the page id. -/
def DiskManager.WritePage (d : DiskManager) (page_id : Int) (data : List Nat) : DiskManager :=
  { pages := UMap.assign d.pages page_id data }

/-- Modelled from the spec: `ReadPage(page_id, buffer)` fills the buffer with
the page bytes; for a page that was never written the buffer is left as it
is. -/
def DiskManager.ReadPage (d : DiskManager) (page_id : Int) (buffer : List Nat) : List Nat :=
  match UMap.find d.pages page_id with
  | some data => data
  | none => buffer

/-- State of `BufferPoolManager`.  `latch_` is true while the pool latch is
held; `page_size_` stands for the constant `BUSTUB_PAGE_SIZE`. -/
structure BufferPoolManager where
  pool_size_ : Nat
  page_size_ : Nat
  pages_ : List Page
  replacer_ : LRUKReplacer
  free_list_ : List Nat
  page_table_ : List (Int × Nat)
  next_page_id_ : Int
  disk_manager_ : DiskManager
  latch_ : Bool
  deriving DecidableEq, Repr

/-- Constructor `BufferPoolManager(pool_size, disk_manager, replacer_k)` over an
empty disk. -/
def BufferPoolManager.new (pool_size page_size replacer_k : Nat) : BufferPoolManager :=
  { pool_size_ := pool_size, page_size_ := page_size,
    pages_ := List.replicate pool_size (Page.fresh page_size),
    replacer_ := LRUKReplacer.new pool_size replacer_k,
    free_list_ := List.range pool_size,
    page_table_ := [], next_page_id_ := 0, disk_manager_ := { pages := [] },
    latch_ := false }

/-- The tail shared by every acquisition path of `NewPage` and `FetchPage`:
`replacer_->SetEvictable(frameId, false); replacer_->RecordAccess(frameId);`. -/
def BufferPoolManager.pinInReplacer (r : LRUKReplacer) (frameId : Nat) : Option LRUKReplacer :=
  (r.SetEvictable frameId false).RecordAccess frameId

/-- Method `BufferPoolManager::NewPage`.  The result holds the new page id
(`*page_id`) and the frame returned, or `none` for `nullptr`. -/
def BufferPoolManager.NewPage (s : BufferPoolManager) :
    Option (Option (Int × Nat) × BufferPoolManager) :=
  if s.latch_ = true then none
  else
    match s.free_list_ with
    | frameId :: rest =>
      let pageId := s.next_page_id_
      match s.pages_[frameId]? with
      | none => none
      | some page =>
        match BufferPoolManager.pinInReplacer s.replacer_ frameId with
        | none => none
        | some replacer =>
          some (some (pageId, frameId),
            { s with
              free_list_ := rest,
              next_page_id_ := wrap32 (pageId + 1),
              page_table_ := UMap.emplace s.page_table_ pageId frameId,
              pages_ := s.pages_.set frameId
                { Page.ResetMemory s.page_size_ page with
                  page_id_ := pageId, pin_count_ := page.pin_count_ + 1 },
              replacer_ := replacer })
    | [] =>
      match s.replacer_.Evict with
      | none => none
      | some (none, _) => some (none, s)
      | some (some frameId, evicted) =>
        match s.pages_[frameId]? with
        | none => none
        | some page =>
          let disk :=
            if page.is_dirty_ = true then s.disk_manager_.WritePage page.page_id_ page.data_
            else s.disk_manager_
          let pageId := s.next_page_id_
          match BufferPoolManager.pinInReplacer evicted frameId with
          | none => none
          | some replacer =>
            some (some (pageId, frameId),
              { s with
                disk_manager_ := disk,
                next_page_id_ := wrap32 (pageId + 1),
                page_table_ := UMap.assign (UMap.erase s.page_table_ page.page_id_) pageId frameId,
                pages_ := s.pages_.set frameId
                  { Page.ResetMemory s.page_size_ page with
                    page_id_ := pageId, pin_count_ := page.pin_count_ + 1 },
                replacer_ := replacer })

/-- Method `BufferPoolManager::FetchPage`; the result is the frame returned, or
`none` for `nullptr`. -/
def BufferPoolManager.FetchPage (s : BufferPoolManager) (page_id : Int) :
    Option (Option Nat × BufferPoolManager) :=
  if s.latch_ = true then none
  else
    match UMap.find s.page_table_ page_id with
    | some frameId =>
      match s.replacer_.RecordAccess frameId with
      | none => none
      | some replacer => some (some frameId, { s with replacer_ := replacer })
    | none =>
      match s.free_list_ with
      | frameId :: rest =>
        match s.pages_[frameId]? with
        | none => none
        | some page =>
          match BufferPoolManager.pinInReplacer s.replacer_ frameId with
          | none => none
          | some replacer =>
            some (some frameId,
              { s with
                free_list_ := rest,
                page_table_ := UMap.emplace s.page_table_ page_id frameId,
                pages_ := s.pages_.set frameId
                  { data_ := s.disk_manager_.ReadPage page_id (List.replicate s.page_size_ 0),
                    page_id_ := page_id, pin_count_ := page.pin_count_ + 1,
                    is_dirty_ := page.is_dirty_ },
                replacer_ := replacer })
      | [] =>
        match s.replacer_.Evict with
        | none => none
        | some (none, _) => some (none, s)
        | some (some frameId, evicted) =>
          match s.pages_[frameId]? with
          | none => none
          | some page =>
            let disk :=
              if page.is_dirty_ = true then s.disk_manager_.WritePage page.page_id_ page.data_
              else s.disk_manager_
            match BufferPoolManager.pinInReplacer evicted frameId with
            | none => none
            | some replacer =>
              some (some frameId,
                { s with
                  disk_manager_ := disk,
                  -- `page_id_` already holds `page_id` when the source erases it
                  page_table_ := UMap.emplace (UMap.erase s.page_table_ page_id) page_id frameId,
                  pages_ := s.pages_.set frameId
                    { data_ := disk.ReadPage page_id (List.replicate s.page_size_ 0),
                      page_id_ := page_id, pin_count_ := page.pin_count_ + 1,
                      is_dirty_ := page.is_dirty_ },
                  replacer_ := replacer })

/-- Method `BufferPoolManager::UnpinPage`.  The inner `Option Bool` is the
local `result`: `none` when the function returns it without having assigned
it. -/
def BufferPoolManager.UnpinPage (s : BufferPoolManager) (page_id : Int) (is_dirty : Bool) :
    Option (Option Bool × BufferPoolManager) :=
  if s.latch_ = true then none
  else
    match UMap.find s.page_table_ page_id with
    | none => some (some false, s)
    | some frameId =>
      match s.pages_[frameId]? with
      | none => none
      | some page =>
        let dirty := page.is_dirty_ || is_dirty
        if page.pin_count_ = 0 then
          some (some false,
            { s with pages_ := s.pages_.set frameId { page with is_dirty_ := dirty } })
        else if page.pin_count_ - 1 = 0 then
          some (some true,
            { s with
              pages_ := s.pages_.set frameId
                { page with is_dirty_ := dirty, pin_count_ := page.pin_count_ - 1 },
              replacer_ := s.replacer_.SetEvictable frameId true })
        else
          some (none,
            { s with
              pages_ := s.pages_.set frameId
                { page with is_dirty_ := dirty, pin_count_ := page.pin_count_ - 1 } })

/-- Method `BufferPoolManager::FlushPage`. -/
def BufferPoolManager.FlushPage (s : BufferPoolManager) (page_id : Int) :
    Option (Bool × BufferPoolManager) :=
  if s.latch_ = true then none
  else
    match UMap.find s.page_table_ page_id with
    | none => some (false, s)
    | some frameId =>
      match s.pages_[frameId]? with
      | none => none
      | some page =>
        some (true,
          { s with
            disk_manager_ := s.disk_manager_.WritePage page_id page.data_,
            pages_ := s.pages_.set frameId { page with is_dirty_ := false } })

/-- The loop `for (auto page : page_table_)` of `FlushAllPages`, threading the
frames and the disk. -/
def FlushAllPages.loop :
    List (Int × Nat) → List Page → DiskManager → Option (List Page × DiskManager)
  | [], pages, disk => some (pages, disk)
  | (_, frameId) :: rest, pages, disk =>
    match pages[frameId]? with
    | none => none
    | some page =>
      FlushAllPages.loop rest (pages.set frameId { page with is_dirty_ := false })
        (disk.WritePage page.page_id_ page.data_)

/-- Method `BufferPoolManager::FlushAllPages`: the latch is taken and never
released. -/
def BufferPoolManager.FlushAllPages (s : BufferPoolManager) : Option BufferPoolManager :=
  if s.latch_ = true then none
  else
    match FlushAllPages.loop s.page_table_ s.pages_ s.disk_manager_ with
    | none => none
    | some (pages, disk) =>
      some { s with pages_ := pages, disk_manager_ := disk, latch_ := true }

/-- Method `BufferPoolManager::DeletePage`.  `DeallocatePage` does nothing
(modelled from the spec: the identifier is disposed of and "is not
reused"). -/
def BufferPoolManager.DeletePage (s : BufferPoolManager) (page_id : Int) :
    Option (Bool × BufferPoolManager) :=
  if s.latch_ = true then none
  else
    match UMap.find s.page_table_ page_id with
    | none => some (true, s)
    | some frameId =>
      match s.pages_[frameId]? with
      | none => none
      | some page =>
        if page.pin_count_ > 0 then some (false, s)
        else
          some (true,
            { s with
              page_table_ := UMap.erase s.page_table_ page_id,
              replacer_ := s.replacer_.Remove frameId,
              free_list_ := s.free_list_ ++ [frameId],
              pages_ := s.pages_.set frameId (Page.ResetMemory s.page_size_ page) })

/-! ## Call sequences and reachable states -/

/-- The calls a client of the replacer can make. -/
inductive ReplacerCall where
  | RecordAccess (frame_id : Nat)
  | SetEvictable (frame_id : Nat) (set_evictable : Bool)
  | Remove (frame_id : Nat)
  | Evict
  deriving DecidableEq, Repr

/-- The state after one replacer call, when the call has a defined result. -/
def LRUKReplacer.call (r : LRUKReplacer) : ReplacerCall → Option LRUKReplacer
  | .RecordAccess f => r.RecordAccess f
  | .SetEvictable f b => some (r.SetEvictable f b)
  | .Remove f => some (r.Remove f)
  | .Evict => (r.Evict).map Prod.snd

/-- The state after a sequence of replacer calls. -/
def LRUKReplacer.run : List ReplacerCall → LRUKReplacer → Option LRUKReplacer
  | [], r => some r
  | c :: cs, r =>
    match r.call c with
    | none => none
    | some r' => LRUKReplacer.run cs r'

/-- Replacer states reachable from a freshly constructed replacer in a given
number of calls; `rehash` lets the node store take any iteration order. -/
inductive LRUKReplacer.Reachable (num_frames k : Nat) : Nat → LRUKReplacer → Prop where
  | fresh : LRUKReplacer.Reachable num_frames k 0 (LRUKReplacer.new num_frames k)
  | call {n : Nat} {r r' : LRUKReplacer} (c : ReplacerCall) :
      LRUKReplacer.Reachable num_frames k n r → r.call c = some r' →
      LRUKReplacer.Reachable num_frames k (n + 1) r'
  | rehash {n : Nat} {r : LRUKReplacer} (store : List (Nat × LRUKNode)) :
      LRUKReplacer.Reachable num_frames k n r → store.Perm r.node_store_ →
      LRUKReplacer.Reachable num_frames k n { r with node_store_ := store }

/-- The public operations of the pool that the reachability claims range
over.  `FlushAllPages` is not among them: it returns with the latch held, and
no operation returns after it. -/
inductive PoolCall where
  | NewPage
  | FetchPage (page_id : Int)
  | UnpinPage (page_id : Int) (is_dirty : Bool)
  | FlushPage (page_id : Int)
  | DeletePage (page_id : Int)
  deriving DecidableEq, Repr

/-- The state after one pool call, when the call returns. -/
def BufferPoolManager.call (s : BufferPoolManager) : PoolCall → Option BufferPoolManager
  | .NewPage => (s.NewPage).map Prod.snd
  | .FetchPage p => (s.FetchPage p).map Prod.snd
  | .UnpinPage p d => (s.UnpinPage p d).map Prod.snd
  | .FlushPage p => (s.FlushPage p).map Prod.snd
  | .DeletePage p => (s.DeletePage p).map Prod.snd

/-- The state after a sequence of pool calls. -/
def BufferPoolManager.run : List PoolCall → BufferPoolManager → Option BufferPoolManager
  | [], s => some s
  | c :: cs, s =>
    match s.call c with
    | none => none
    | some s' => BufferPoolManager.run cs s'

/-- Pool states reachable from a freshly constructed pool in a given number of
calls; `rehash` lets the replacer's node store take any iteration order. -/
inductive BufferPoolManager.Reachable (pool_size page_size k : Nat) :
    Nat → BufferPoolManager → Prop where
  | fresh : BufferPoolManager.Reachable pool_size page_size k 0
      (BufferPoolManager.new pool_size page_size k)
  | call {n : Nat} {s s' : BufferPoolManager} (c : PoolCall) :
      BufferPoolManager.Reachable pool_size page_size k n s → s.call c = some s' →
      BufferPoolManager.Reachable pool_size page_size k (n + 1) s'
  | rehash {n : Nat} {s : BufferPoolManager} (store : List (Nat × LRUKNode)) :
      BufferPoolManager.Reachable pool_size page_size k n s →
      store.Perm s.replacer_.node_store_ →
      BufferPoolManager.Reachable pool_size page_size k n
        { s with replacer_ := { s.replacer_ with node_store_ := store } }

/-! ## Drivers for the scenarios of the specification -/

/-- A client writes bytes into a frame through the `Page *` it was given
(`Page::GetData`); the pool itself is not involved. -/
def BufferPoolManager.WriteData (s : BufferPoolManager) (frame : Nat) (data : List Nat) :
    BufferPoolManager :=
  match s.pages_[frame]? with
  | none => s
  | some page => { s with pages_ := s.pages_.set frame { page with data_ := data } }

/-- Calls `NewPage` the given number of times without unpinning anything and
collects the page ids returned; `none` as soon as a call is undefined or
returns null. -/
def BufferPoolManager.NewPages : Nat → BufferPoolManager → Option (List Int × BufferPoolManager)
  | 0, s => some ([], s)
  | m + 1, s =>
    match s.NewPage with
    | some (some (page_id, _), s') =>
      match BufferPoolManager.NewPages m s' with
      | some (ids, s'') => some (page_id :: ids, s'')
      | none => none
    | _ => none

end bustub

namespace bustub

/-! ## Well-formedness of replacer states -/

/-- Whether an entry of the node store is marked evictable. -/
def isEvictable (e : Nat × LRUKNode) : Bool := e.2.is_evictable_

/-- The invariant of the replacer, for a state reached in at most `n` calls:
unique keys, a clock that has not wrapped, `curr_size_` counting the evictable
nodes, histories made of past and pairwise different timestamps, and the
stored distance being the "infinity" constant exactly on the nodes with fewer
than `k_` accesses. -/
structure LRUKReplacer.WF (n : Nat) (r : LRUKReplacer) : Prop where
  keys : (r.node_store_.map Prod.fst).Nodup
  clock : r.current_timestamp_ ≤ n
  count : r.node_store_.length ≤ n
  size : r.curr_size_ = r.node_store_.countP isEvictable
  past : ∀ e ∈ r.node_store_, ∀ t ∈ e.2.history_, t < r.current_timestamp_
  apart : ∀ e ∈ r.node_store_, ∀ e' ∈ r.node_store_, e.1 ≠ e'.1 →
    ∀ t ∈ e.2.history_, t ∉ e'.2.history_
  inf : ∀ e ∈ r.node_store_, e.2.history_.length < r.k_ → e.2.kDistance = SIZE_INFINITY
  fin : 2 ≤ r.k_ → ∀ e ∈ r.node_store_, r.k_ ≤ e.2.history_.length →
    e.2.kDistance ≠ SIZE_INFINITY
  kpos : 1 ≤ r.k_

/-- The locals of `Evict` are consistent with the part of the store already
visited: until a node with "infinite" distance has been taken the earliest
timestamp is still `SIZE_MAX`; afterwards the candidate is an evictable node
of "infinite" distance whose last access is the earliest among those seen. -/
def EvictScan.Tracks (seen : List (Nat × LRUKNode)) (acc : EvictScan) : Prop :=
  (acc.isInfinity = false →
    acc.earlistTimestamp = SIZE_MAX ∧
    ∀ e ∈ seen, e.2.is_evictable_ = true → e.2.kDistance ≠ SIZE_INFINITY) ∧
  (acc.isInfinity = true →
    (∃ e ∈ seen, e.2.is_evictable_ = true ∧ e.2.kDistance = SIZE_INFINITY ∧
      acc.frame_id = some e.1 ∧ e.2.history_.getLast? = some acc.earlistTimestamp) ∧
    ∀ e ∈ seen, e.2.is_evictable_ = true → e.2.kDistance = SIZE_INFINITY →
      ∀ b, e.2.history_.getLast? = some b → acc.earlistTimestamp ≤ b)

/-- The loop of `Evict` has found a victim. -/
def EvictScan.hit (acc : EvictScan) : Prop := acc.isInfinity = true ∨ acc.kMax > 0

/-! ## Well-formedness of pool states -/

/-- The invariant of the pool, for a state reached in at most `n` calls: the
latch is free, the replacer is well formed and sized like the pool, every
frame id in use is below the pool size, every node of the replacer has a
history, a pinned resident frame has a node, and no pin count is negative. -/
structure BufferPoolManager.WF (n : Nat) (s : BufferPoolManager) : Prop where
  latch : s.latch_ = false
  replacer : s.replacer_.WF (2 * n)
  capacity : s.replacer_.replacer_size_ = s.pool_size_
  frames : s.pages_.length = s.pool_size_
  free : ∀ f ∈ s.free_list_, f < s.pool_size_
  table : ∀ p f, UMap.find s.page_table_ p = some f → f < s.pool_size_
  nodes : ∀ f nd, UMap.find s.replacer_.node_store_ f = some nd →
    f < s.pool_size_ ∧ nd.history_ ≠ []
  pinned : ∀ p f pg, UMap.find s.page_table_ p = some f → s.pages_[f]? = some pg →
    1 ≤ pg.pin_count_ → (UMap.find s.replacer_.node_store_ f).isSome = true
  pins : ∀ pg ∈ s.pages_, 0 ≤ pg.pin_count_

/-! ## Pools being filled from the free list -/

/-- A pool whose frames `1 .. j - 1` hold the pinned pages `1 .. j - 1`, whose
frames from `j` on are still on the free list, and where page 0 sits in frame
0; the frame `page0`, the replacer node `node0` of frame 0 and the disk are
whatever the scenario has made of them. -/
structure BufferPoolManager.Filling (n : Nat) (page0 : Page) (node0 : LRUKNode)
    (disk : DiskManager) (j : Nat) (s : BufferPoolManager) : Prop where
  latch : s.latch_ = false
  size : s.pool_size_ = n
  frames : s.pages_.length = n
  capacity : s.replacer_.replacer_size_ = n
  kpos : 1 ≤ s.replacer_.k_
  bound : j ≤ n ∧ n < 2 ^ 31
  free : s.free_list_ = List.range' j (n - j)
  next : s.next_page_id_ = (j : Int)
  table : ∀ i : Nat, 1 ≤ i → i < j → UMap.find s.page_table_ (i : Int) = some i
  absent : ∀ p : Int, (j : Int) ≤ p → UMap.find s.page_table_ p = none
  table0 : UMap.find s.page_table_ 0 = some 0
  pinned : ∀ i : Nat, 1 ≤ i → i < j →
    ∃ pg, s.pages_[i]? = some pg ∧ pg.pin_count_ = 1 ∧ pg.page_id_ = (i : Int) ∧
      pg.is_dirty_ = false ∧ pg.data_ = List.replicate s.page_size_ 0
  unused : ∀ i : Nat, j ≤ i → i < n →
    ∃ pg, s.pages_[i]? = some pg ∧ pg.pin_count_ = 0 ∧ pg.is_dirty_ = false
  frame0 : s.pages_[0]? = some page0
  node0 : UMap.find s.replacer_.node_store_ 0 = some node0
  nodes : ∀ g nd, g ≠ 0 → UMap.find s.replacer_.node_store_ g = some nd →
    nd.is_evictable_ = false
  disk : s.disk_manager_ = disk

end bustub

namespace bustub

/-! ## The basic page guard (`page_guard.cpp`) -/

/-- Class `BasicPageGuard`: `bpm_` tells whether the guard points to the pool
(false for `nullptr`), `page_` is the frame it points to (`none` for
`nullptr`), `is_dirty_` is the dirty intent. -/
structure BasicPageGuard where
  bpm_ : Bool
  page_ : Option Nat
  is_dirty_ : Bool
  deriving DecidableEq, Repr

/-- Method `BasicPageGuard::Drop`: the pin count of the frame is decremented
through the pointer, `DeletePage` is called on the page id found in the frame,
and the guard is emptied.  Dereferencing a null `page_` or `bpm_` is undefined
(`none`). -/
def BasicPageGuard.Drop (g : BasicPageGuard) (s : BufferPoolManager) :
    Option (BasicPageGuard × BufferPoolManager) :=
  match g.page_ with
  | none => none
  | some frame =>
    match s.pages_[frame]? with
    | none => none
    | some page =>
      if g.bpm_ = false then none
      else
        match BufferPoolManager.DeletePage
            { s with pages_ := s.pages_.set frame { page with pin_count_ := page.pin_count_ - 1 } }
            page.page_id_ with
        | none => none
        | some (_, s') => some ({ bpm_ := false, page_ := none, is_dirty_ := false }, s')

end bustub

namespace bustub

/-! ## Counting the evictable nodes -/

/-- The part of the replacer invariant that concerns `Size()`, for a state
reached in at most `n` calls, whatever `k_` is: unique keys within the bound of
the frame-id check, and `curr_size_` counting the evictable nodes. -/
structure LRUKReplacer.Counted (n : Nat) (r : LRUKReplacer) : Prop where
  keys : (r.node_store_.map Prod.fst).Nodup
  count : r.node_store_.length ≤ n
  size : r.curr_size_ = r.node_store_.countP isEvictable
  bound : ∀ e ∈ r.node_store_, e.1 ≤ r.replacer_size_

end bustub

namespace bustub

/-! ## Evictable frames are not pinned -/

/-- Every frame that the replacer marks evictable is a frame of the pool with
pin count zero. -/
def BufferPoolManager.EvictableUnpinned (s : BufferPoolManager) : Prop :=
  ∀ f nd, UMap.find s.replacer_.node_store_ f = some nd → nd.is_evictable_ = true →
    ∃ pg, s.pages_[f]? = some pg ∧ pg.pin_count_ = 0

end bustub

namespace bustub

/-! ## Facts about the association lists -/

namespace UMap

variable {κ ν : Type} [DecidableEq κ]

theorem find_some_mem {m : List (κ × ν)} {key : κ} {v : ν} (h : find m key = some v) :
    (key, v) ∈ m := by
  induction m with
  | nil => simp [find] at h
  | cons e m ih =>
    obtain ⟨a, w⟩ := e
    by_cases hk : a = key
    · simp [find, hk] at h
      simp [hk, h]
    · simp [find, hk] at h
      exact List.mem_cons_of_mem _ (ih h)

theorem find_none_iff {m : List (κ × ν)} {key : κ} :
    find m key = none ↔ ∀ e ∈ m, e.1 ≠ key := by
  induction m with
  | nil => simp [find]
  | cons e m ih =>
    obtain ⟨a, w⟩ := e
    by_cases hk : a = key
    · simp [find, hk]
    · simp [find, hk, ih]

theorem find_of_mem {m : List (κ × ν)} {key : κ} {v : ν}
    (hnd : (m.map Prod.fst).Nodup) (h : (key, v) ∈ m) : find m key = some v := by
  induction m with
  | nil => simp at h
  | cons e m ih =>
    obtain ⟨a, w⟩ := e
    simp only [List.map_cons, List.nodup_cons] at hnd
    rcases List.mem_cons.1 h with h | h
    · cases h
      simp [find]
    · have hne : a ≠ key := by
        intro hk
        exact hnd.1 (hk ▸ List.mem_map_of_mem Prod.fst h)
      simp [find, hne, ih hnd.2 h]

theorem find_isSome_iff {m : List (κ × ν)} {key : κ} :
    (find m key).isSome ↔ key ∈ m.map Prod.fst := by
  induction m with
  | nil => simp [find]
  | cons e m ih =>
    obtain ⟨a, w⟩ := e
    by_cases hk : a = key
    · simp [find, hk]
    · simp only [find, hk, if_false, ih, List.map_cons, List.mem_cons]
      constructor
      · intro h; exact Or.inr h
      · rintro (h | h)
        · exact absurd h.symm hk
        · exact h

theorem mem_erase {m : List (κ × ν)} {key : κ} {e : κ × ν} :
    e ∈ erase m key ↔ e ∈ m ∧ e.1 ≠ key := by
  induction m with
  | nil => simp [erase]
  | cons x m ih =>
    obtain ⟨a, w⟩ := x
    by_cases hk : a = key
    · simp only [erase, hk, if_true, ih, List.mem_cons]
      constructor
      · rintro ⟨h1, h2⟩; exact ⟨Or.inr h1, h2⟩
      · rintro ⟨h1 | h1, h2⟩
        · subst h1; exact absurd rfl h2
        · exact ⟨h1, h2⟩
    · simp only [erase, hk, if_false, List.mem_cons, ih]
      constructor
      · rintro (h | ⟨h1, h2⟩)
        · subst h; exact ⟨Or.inl rfl, hk⟩
        · exact ⟨Or.inr h1, h2⟩
      · rintro ⟨h1 | h1, h2⟩
        · exact Or.inl h1
        · exact Or.inr ⟨h1, h2⟩

theorem erase_sublist (m : List (κ × ν)) (key : κ) : (erase m key).Sublist m := by
  induction m with
  | nil => simp [erase]
  | cons x m ih =>
    obtain ⟨a, w⟩ := x
    by_cases hk : a = key
    · simp only [erase, hk, if_true]
      exact List.Sublist.cons _ ih
    · simp only [erase, hk, if_false]
      exact List.Sublist.cons₂ _ ih

theorem erase_keys_nodup {m : List (κ × ν)} (key : κ) (h : (m.map Prod.fst).Nodup) :
    ((erase m key).map Prod.fst).Nodup :=
  List.Nodup.sublist ((erase_sublist m key).map Prod.fst) h

theorem erase_of_find_none {m : List (κ × ν)} {key : κ} (h : find m key = none) :
    erase m key = m := by
  induction m with
  | nil => simp [erase]
  | cons x m ih =>
    obtain ⟨a, w⟩ := x
    by_cases hk : a = key
    · simp [find, hk] at h
    · simp only [find, hk, if_false] at h
      simp [erase, hk, ih h]

theorem find_erase_self (m : List (κ × ν)) (key : κ) : find (erase m key) key = none := by
  rw [find_none_iff]
  intro e he
  exact (mem_erase.1 he).2

theorem find_erase_ne {m : List (κ × ν)} {key key' : κ} (h : key' ≠ key) :
    find (erase m key) key' = find m key' := by
  induction m with
  | nil => simp [erase, find]
  | cons x m ih =>
    obtain ⟨a, w⟩ := x
    by_cases hk : a = key
    · have hne : ¬ a = key' := by rw [hk]; exact fun h' => h h'.symm
      simp only [erase, find, hk, if_true, ih]
      rw [if_neg (hk ▸ hne)]
    · by_cases hk' : a = key'
      · subst hk'
        simp only [erase, find, hk, if_true, if_false]
      · simp only [erase, find, hk, hk', if_false, ih]

theorem replace_keys (m : List (κ × ν)) (key : κ) (w : ν) :
    (replace m key w).map Prod.fst = m.map Prod.fst := by
  induction m with
  | nil => simp [replace]
  | cons x m ih =>
    obtain ⟨a, v⟩ := x
    by_cases hk : a = key <;> simp [replace, hk, ih]

theorem replace_length (m : List (κ × ν)) (key : κ) (w : ν) :
    (replace m key w).length = m.length := by
  have := congrArg List.length (replace_keys m key w)
  simpa using this

theorem mem_replace {m : List (κ × ν)} {key : κ} {w : ν} {e : κ × ν}
    (h : e ∈ replace m key w) : e = (key, w) ∨ (e ∈ m ∧ e.1 ≠ key) := by
  induction m with
  | nil => simp [replace] at h
  | cons x m ih =>
    obtain ⟨a, v⟩ := x
    by_cases hk : a = key
    · simp only [replace, hk, if_true, List.mem_cons] at h
      rcases h with h | h
      · exact Or.inl h
      · rcases ih h with h | h
        · exact Or.inl h
        · exact Or.inr ⟨List.mem_cons_of_mem _ h.1, h.2⟩
    · simp only [replace, hk, if_false, List.mem_cons] at h
      rcases h with h | h
      · subst h; exact Or.inr ⟨List.mem_cons_self _ _, hk⟩
      · rcases ih h with h | h
        · exact Or.inl h
        · exact Or.inr ⟨List.mem_cons_of_mem _ h.1, h.2⟩

theorem mem_replace_of_ne {m : List (κ × ν)} {key : κ} {w : ν} {e : κ × ν}
    (h : e ∈ m) (hne : e.1 ≠ key) : e ∈ replace m key w := by
  induction m with
  | nil => simp at h
  | cons x m ih =>
    obtain ⟨a, v⟩ := x
    rcases List.mem_cons.1 h with h | h
    · subst h
      simp only [] at hne
      simp [replace, hne]
    · by_cases hk : a = key
      · simp only [replace, hk, if_true]
        exact List.mem_cons_of_mem _ (ih h)
      · simp only [replace, hk, if_false]
        exact List.mem_cons_of_mem _ (ih h)

theorem mem_replace_self {m : List (κ × ν)} {key : κ} {w : ν}
    (h : key ∈ m.map Prod.fst) : (key, w) ∈ replace m key w := by
  induction m with
  | nil => simp at h
  | cons x m ih =>
    obtain ⟨a, v⟩ := x
    by_cases hk : a = key
    · simp [replace, hk]
    · simp only [replace, hk, if_false]
      simp only [List.map_cons, List.mem_cons] at h
      rcases h with h | h
      · exact absurd h.symm hk
      · exact List.mem_cons_of_mem _ (ih h)

theorem find_replace_self {m : List (κ × ν)} {key : κ} {w : ν}
    (h : key ∈ m.map Prod.fst) : find (replace m key w) key = some w := by
  induction m with
  | nil => simp at h
  | cons x m ih =>
    obtain ⟨a, v⟩ := x
    by_cases hk : a = key
    · simp [replace, find, hk]
    · simp only [List.map_cons, List.mem_cons] at h
      rcases h with h | h
      · exact absurd h.symm hk
      · simp [replace, find, hk, ih h]

theorem find_replace_ne {m : List (κ × ν)} {key key' : κ} {w : ν} (h : key' ≠ key) :
    find (replace m key w) key' = find m key' := by
  induction m with
  | nil => simp [replace, find]
  | cons x m ih =>
    obtain ⟨a, v⟩ := x
    by_cases hk : a = key
    · have hne : ¬ a = key' := by rw [hk]; exact fun h' => h h'.symm
      simp only [replace, find, hk, if_true, ih]
      rw [if_neg (hk ▸ hne), if_neg (hk ▸ hne)]
    · by_cases hk' : a = key'
      · subst hk'
        simp only [replace, find, hk, if_true, if_false]
      · simp only [replace, find, hk, hk', if_false, ih]

theorem countP_replace {m : List (κ × ν)} {key : κ} {v w : ν} (p : κ × ν → Bool)
    (hnd : (m.map Prod.fst).Nodup) (h : find m key = some v) :
    (replace m key w).countP p + (if p (key, v) then 1 else 0)
      = m.countP p + (if p (key, w) then 1 else 0) := by
  induction m with
  | nil => simp [find] at h
  | cons x m ih =>
    obtain ⟨a, u⟩ := x
    simp only [List.map_cons, List.nodup_cons] at hnd
    by_cases hk : a = key
    · subst hk
      simp only [find, if_true, Option.some.injEq] at h
      subst h
      have hnone : find m a = none := by
        rw [find_none_iff]
        intro e he hea
        exact hnd.1 (hea ▸ List.mem_map_of_mem Prod.fst he)
      have hrep : replace m a w = m := by
        clear ih hnd
        induction m with
        | nil => simp [replace]
        | cons y m ih2 =>
          obtain ⟨b, z⟩ := y
          by_cases hb : b = a
          · simp [find, hb] at hnone
          · simp only [find, hb, if_false] at hnone
            simp [replace, hb, ih2 hnone]
      simp only [replace, if_true, hrep, List.countP_cons]
      omega
    · simp only [find, hk, if_false] at h
      have := ih hnd.2 h
      simp only [replace, hk, if_false, List.countP_cons]
      omega

theorem countP_erase {m : List (κ × ν)} {key : κ} {v : ν} (p : κ × ν → Bool)
    (hnd : (m.map Prod.fst).Nodup) (h : find m key = some v) :
    (erase m key).countP p + (if p (key, v) then 1 else 0) = m.countP p := by
  induction m with
  | nil => simp [find] at h
  | cons x m ih =>
    obtain ⟨a, u⟩ := x
    simp only [List.map_cons, List.nodup_cons] at hnd
    by_cases hk : a = key
    · subst hk
      simp only [find, if_true, Option.some.injEq] at h
      subst h
      have hnone : find m a = none := by
        rw [find_none_iff]
        intro e he hea
        exact hnd.1 (hea ▸ List.mem_map_of_mem Prod.fst he)
      simp only [erase, if_true, erase_of_find_none hnone, List.countP_cons]
    · simp only [find, hk, if_false] at h
      have := ih hnd.2 h
      simp only [erase, hk, if_false, List.countP_cons]
      omega

theorem erase_length_le (m : List (κ × ν)) (key : κ) : (erase m key).length ≤ m.length :=
  (erase_sublist m key).length_le

end UMap

end bustub

namespace bustub

namespace UMap

variable {κ ν : Type} [DecidableEq κ]

theorem replace_of_find_none {m : List (κ × ν)} {key : κ} {w : ν} (h : find m key = none) :
    replace m key w = m := by
  induction m with
  | nil => simp [replace]
  | cons y m ih =>
    obtain ⟨b, z⟩ := y
    by_cases hb : b = key
    · simp [find, hb] at h
    · simp only [find, hb, if_false] at h
      simp [replace, hb, ih h]

theorem not_mem_keys_of_find_none {m : List (κ × ν)} {key : κ} (h : find m key = none) :
    key ∉ m.map Prod.fst := by
  intro hmem
  have := find_isSome_iff.2 hmem
  rw [h] at this
  cases this

theorem mem_keys_of_find_some {m : List (κ × ν)} {key : κ} {v : ν} (h : find m key = some v) :
    key ∈ m.map Prod.fst :=
  List.mem_map_of_mem Prod.fst (find_some_mem h)

end UMap

/-! ## Arithmetic of `size_t` below the wrap-around -/

theorem size_succ_mod {x : Nat} (h : x < SIZE_MAX) : (x + 1) % SIZE_MOD = x + 1 := by
  unfold SIZE_MAX at h
  unfold SIZE_MOD
  omega

theorem size_pred_mod {x : Nat} (h1 : 1 ≤ x) (h : x ≤ SIZE_MAX) :
    (x + SIZE_MOD - 1) % SIZE_MOD = x - 1 := by
  unfold SIZE_MAX at h
  unfold SIZE_MOD
  omega

theorem size_sub_mod {x t : Nat} (ht : t ≤ x) (h : x ≤ SIZE_MAX) :
    (x + SIZE_MOD - t) % SIZE_MOD = x - t := by
  unfold SIZE_MAX at h
  unfold SIZE_MOD
  omega

end bustub

namespace bustub

/-! ## The loop of `Evict` -/

theorem Evict.visit_skip {acc : EvictScan} {e : Nat × LRUKNode}
    (h : e.2.is_evictable_ = false) : Evict.visit acc e = some acc := by
  simp [Evict.visit, h]

theorem Evict.visit_inf_undef {acc : EvictScan} {e : Nat × LRUKNode}
    (hev : e.2.is_evictable_ = true) (hk : e.2.kDistance = SIZE_INFINITY)
    (hl : e.2.history_.getLast? = none) : Evict.visit acc e = none := by
  simp [Evict.visit, hev, hk, hl]

theorem Evict.visit_inf_take {acc : EvictScan} {e : Nat × LRUKNode} {b : Nat}
    (hev : e.2.is_evictable_ = true) (hk : e.2.kDistance = SIZE_INFINITY)
    (hl : e.2.history_.getLast? = some b) (hb : acc.earlistTimestamp > b) :
    Evict.visit acc e = some { isInfinity := true, kMax := SIZE_INFINITY,
                               earlistTimestamp := b, frame_id := some e.1 } := by
  simp [Evict.visit, hev, hk, hl, hb]

theorem Evict.visit_inf_keep {acc : EvictScan} {e : Nat × LRUKNode} {b : Nat}
    (hev : e.2.is_evictable_ = true) (hk : e.2.kDistance = SIZE_INFINITY)
    (hl : e.2.history_.getLast? = some b) (hb : ¬ acc.earlistTimestamp > b) :
    Evict.visit acc e = some acc := by
  simp [Evict.visit, hev, hk, hl, hb, SIZE_INFINITY]

theorem Evict.visit_fin_take {acc : EvictScan} {e : Nat × LRUKNode}
    (hev : e.2.is_evictable_ = true) (hk : e.2.kDistance ≠ SIZE_INFINITY)
    (hi : acc.isInfinity = false) (hm : e.2.kDistance > acc.kMax) :
    Evict.visit acc e = some { acc with kMax := e.2.kDistance, frame_id := some e.1 } := by
  simp [Evict.visit, hev, hk, hi, hm]

theorem Evict.visit_fin_keep {acc : EvictScan} {e : Nat × LRUKNode}
    (hev : e.2.is_evictable_ = true) (hk : e.2.kDistance ≠ SIZE_INFINITY)
    (hm : ¬ (acc.isInfinity = false ∧ e.2.kDistance > acc.kMax)) :
    Evict.visit acc e = some acc := by
  simp only [Evict.visit, hev, hk, if_false, if_neg hm]
  simp

/-- The six ways an iteration of the loop can go. -/
theorem Evict.visit_cases (acc : EvictScan) (e : Nat × LRUKNode) :
    (e.2.is_evictable_ = false ∧ Evict.visit acc e = some acc) ∨
    (e.2.is_evictable_ = true ∧ e.2.kDistance = SIZE_INFINITY ∧
      e.2.history_.getLast? = none ∧ Evict.visit acc e = none) ∨
    (∃ b, e.2.is_evictable_ = true ∧ e.2.kDistance = SIZE_INFINITY ∧
      e.2.history_.getLast? = some b ∧ acc.earlistTimestamp > b ∧
      Evict.visit acc e = some { isInfinity := true, kMax := SIZE_INFINITY,
                                 earlistTimestamp := b, frame_id := some e.1 }) ∨
    (∃ b, e.2.is_evictable_ = true ∧ e.2.kDistance = SIZE_INFINITY ∧
      e.2.history_.getLast? = some b ∧ ¬ acc.earlistTimestamp > b ∧
      Evict.visit acc e = some acc) ∨
    (e.2.is_evictable_ = true ∧ e.2.kDistance ≠ SIZE_INFINITY ∧ acc.isInfinity = false ∧
      e.2.kDistance > acc.kMax ∧
      Evict.visit acc e = some { acc with kMax := e.2.kDistance, frame_id := some e.1 }) ∨
    (e.2.is_evictable_ = true ∧ e.2.kDistance ≠ SIZE_INFINITY ∧
      ¬ (acc.isInfinity = false ∧ e.2.kDistance > acc.kMax) ∧
      Evict.visit acc e = some acc) := by
  cases hev : e.2.is_evictable_ with
  | false => exact Or.inl ⟨rfl, Evict.visit_skip hev⟩
  | true =>
    right
    by_cases hk : e.2.kDistance = SIZE_INFINITY
    · cases hl : e.2.history_.getLast? with
      | none => exact Or.inl ⟨rfl, hk, rfl, Evict.visit_inf_undef hev hk hl⟩
      | some b =>
        by_cases hb : acc.earlistTimestamp > b
        · exact Or.inr (Or.inl ⟨b, rfl, hk, rfl, hb, Evict.visit_inf_take hev hk hl hb⟩)
        · exact Or.inr (Or.inr (Or.inl ⟨b, rfl, hk, rfl, hb, Evict.visit_inf_keep hev hk hl hb⟩))
    · by_cases hm : acc.isInfinity = false ∧ e.2.kDistance > acc.kMax
      · exact Or.inr (Or.inr (Or.inr (Or.inl
          ⟨rfl, hk, hm.1, hm.2, Evict.visit_fin_take hev hk hm.1 hm.2⟩)))
      · exact Or.inr (Or.inr (Or.inr (Or.inr ⟨rfl, hk, hm, Evict.visit_fin_keep hev hk hm⟩)))

theorem Evict.visit_frame {acc acc' : EvictScan} {e : Nat × LRUKNode}
    (h : Evict.visit acc e = some acc') :
    acc' = acc ∨ (e.2.is_evictable_ = true ∧ acc'.frame_id = some e.1) := by
  rcases Evict.visit_cases acc e with ⟨_, hv⟩ | ⟨_, _, _, hv⟩ | ⟨b, hev, _, _, _, hv⟩ |
    ⟨b, _, _, _, _, hv⟩ | ⟨hev, _, _, _, hv⟩ | ⟨_, _, _, hv⟩ <;>
    rw [hv] at h <;> cases h <;> first
      | exact Or.inl rfl
      | exact Or.inr ⟨hev, rfl⟩

theorem Evict.scan_frame {l : List (Nat × LRUKNode)} {acc acc' : EvictScan}
    (h : Evict.scan l acc = some acc') :
    acc' = acc ∨ ∃ e ∈ l, e.2.is_evictable_ = true ∧ acc'.frame_id = some e.1 := by
  induction l generalizing acc with
  | nil =>
    simp only [Evict.scan, Option.some.injEq] at h
    exact Or.inl h.symm
  | cons x l ih =>
    simp only [Evict.scan] at h
    cases hv : Evict.visit acc x with
    | none => simp [hv] at h
    | some mid =>
      simp only [hv] at h
      rcases ih h with h1 | ⟨e, he, hev, hf⟩
      · rcases Evict.visit_frame hv with h2 | ⟨hev, hf⟩
        · exact Or.inl (h1.trans h2)
        · exact Or.inr ⟨x, List.mem_cons_self _ _, hev, h1 ▸ hf⟩
      · exact Or.inr ⟨e, List.mem_cons_of_mem _ he, hev, hf⟩

theorem Evict.visit_defined (acc : EvictScan) (e : Nat × LRUKNode)
    (h : e.2.is_evictable_ = true → e.2.kDistance = SIZE_INFINITY → e.2.history_ ≠ []) :
    ∃ acc', Evict.visit acc e = some acc' := by
  rcases Evict.visit_cases acc e with ⟨_, hv⟩ | ⟨hev, hk, hl, _⟩ | ⟨b, _, _, _, _, hv⟩ |
    ⟨b, _, _, _, _, hv⟩ | ⟨_, _, _, _, hv⟩ | ⟨_, _, _, hv⟩
  · exact ⟨_, hv⟩
  · rw [List.getLast?_eq_none_iff] at hl
    exact absurd hl (h hev hk)
  · exact ⟨_, hv⟩
  · exact ⟨_, hv⟩
  · exact ⟨_, hv⟩
  · exact ⟨_, hv⟩

theorem Evict.scan_defined (l : List (Nat × LRUKNode)) (acc : EvictScan)
    (h : ∀ e ∈ l, e.2.is_evictable_ = true → e.2.kDistance = SIZE_INFINITY →
      e.2.history_ ≠ []) :
    ∃ acc', Evict.scan l acc = some acc' := by
  induction l generalizing acc with
  | nil => exact ⟨acc, rfl⟩
  | cons x l ih =>
    obtain ⟨mid, hmid⟩ := Evict.visit_defined acc x (h x (List.mem_cons_self _ _))
    obtain ⟨acc', hacc'⟩ := ih mid (fun e he => h e (List.mem_cons_of_mem _ he))
    exact ⟨acc', by simp [Evict.scan, hmid, hacc']⟩

end bustub

namespace bustub

theorem EvictScan.Tracks.congr {s1 s2 : List (Nat × LRUKNode)} {acc : EvictScan}
    (h : ∀ e, e ∈ s1 ↔ e ∈ s2) (ht : EvictScan.Tracks s1 acc) : EvictScan.Tracks s2 acc := by
  obtain ⟨h1, h2⟩ := ht
  refine ⟨fun hi => ⟨(h1 hi).1, fun e he => (h1 hi).2 e ((h e).2 he)⟩, fun hi => ?_⟩
  obtain ⟨⟨e, he, hrest⟩, hall⟩ := h2 hi
  exact ⟨⟨e, (h e).1 he, hrest⟩, fun e' he' => hall e' ((h e').2 he')⟩

theorem EvictScan.Tracks.start : EvictScan.Tracks [] EvictScan.start := by
  refine ⟨fun _ => ⟨rfl, fun e he => absurd he (List.not_mem_nil e)⟩, fun hi => ?_⟩
  simp [EvictScan.start] at hi

/-- One iteration keeps the locals consistent with the nodes visited, and finds
a victim exactly when one was found before or the node is evictable. -/
theorem Evict.visit_tracks {seen : List (Nat × LRUKNode)} {acc acc' : EvictScan}
    {e : Nat × LRUKNode} (ht : EvictScan.Tracks seen acc)
    (hv : Evict.visit acc e = some acc')
    (hb : ∀ b, e.2.history_.getLast? = some b → b < SIZE_MAX) :
    EvictScan.Tracks (e :: seen) acc' ∧
      (acc'.hit ↔ acc.hit ∨ e.2.is_evictable_ = true) := by
  obtain ⟨h1, h2⟩ := ht
  rcases Evict.visit_cases acc e with ⟨hev, hv'⟩ | ⟨_, _, _, hv'⟩ | ⟨b, hev, hk, hl, hlt, hv'⟩ |
    ⟨b, hev, hk, hl, hlt, hv'⟩ | ⟨hev, hk, hi, hm, hv'⟩ | ⟨hev, hk, hm, hv'⟩ <;>
    rw [hv'] at hv <;> cases hv
  · -- not evictable
    refine ⟨⟨fun hi => ⟨(h1 hi).1, fun x hx hxe => ?_⟩, fun hi => ?_⟩, ?_⟩
    · rcases List.mem_cons.1 hx with rfl | hx
      · rw [hev] at hxe; cases hxe
      · exact (h1 hi).2 x hx hxe
    · obtain ⟨⟨x, hx, hrest⟩, hall⟩ := h2 hi
      refine ⟨⟨x, List.mem_cons_of_mem _ hx, hrest⟩, fun y hy hye => ?_⟩
      rcases List.mem_cons.1 hy with rfl | hy
      · rw [hev] at hye; cases hye
      · exact hall y hy hye
    · simp [hev]
  · -- an "infinite" node with an earlier last access: taken
    refine ⟨⟨fun hi => (by simp at hi), fun _ => ?_⟩, ?_⟩
    · refine ⟨⟨e, List.mem_cons_self _ _, hev, hk, rfl, hl⟩, fun y hy hye hyk b' hb' => ?_⟩
      rcases List.mem_cons.1 hy with rfl | hy
      · rw [hl] at hb'; cases hb'; exact le_refl _
      · cases hi : acc.isInfinity with
        | false => exact absurd hyk ((h1 hi).2 y hy hye)
        | true =>
          have := (h2 hi).2 y hy hye hyk b' hb'
          show b ≤ b'
          omega
    · simp [EvictScan.hit, hev]
  · -- an "infinite" node with a later last access: kept out
    have hinf : acc.isInfinity = true := by
      cases hi : acc.isInfinity with
      | true => rfl
      | false =>
        have h3 := (h1 hi).1
        have h4 := hb b hl
        omega
    refine ⟨⟨fun hi => (by rw [hinf] at hi; cases hi), fun hi => ?_⟩, ?_⟩
    · obtain ⟨⟨x, hx, hrest⟩, hall⟩ := h2 hi
      refine ⟨⟨x, List.mem_cons_of_mem _ hx, hrest⟩, fun y hy hye hyk b' hb' => ?_⟩
      rcases List.mem_cons.1 hy with rfl | hy
      · rw [hl] at hb'; cases hb'; omega
      · exact hall y hy hye hyk b' hb'
    · simp [EvictScan.hit, hinf]
  · -- a finite distance above the maximum: taken
    refine ⟨⟨fun _ => ⟨(h1 hi).1, fun x hx hxe => ?_⟩, fun hi' => ?_⟩, ?_⟩
    · rcases List.mem_cons.1 hx with rfl | hx
      · exact hk
      · exact (h1 hi).2 x hx hxe
    · simp only [] at hi'
      rw [hi] at hi'; cases hi'
    · have : e.2.kDistance > 0 := by omega
      simp [EvictScan.hit, hev, this]
  · -- a finite distance not above the maximum: kept out
    refine ⟨⟨fun hi => ⟨(h1 hi).1, fun x hx hxe => ?_⟩, fun hi => ?_⟩, ?_⟩
    · rcases List.mem_cons.1 hx with rfl | hx
      · exact hk
      · exact (h1 hi).2 x hx hxe
    · obtain ⟨⟨x, hx, hrest⟩, hall⟩ := h2 hi
      refine ⟨⟨x, List.mem_cons_of_mem _ hx, hrest⟩, fun y hy hye hyk => ?_⟩
      rcases List.mem_cons.1 hy with rfl | hy
      · exact absurd hyk hk
      · exact hall y hy hye hyk
    · have hhit : acc.hit := by
        cases hi : acc.isInfinity with
        | true => exact Or.inl hi
        | false =>
          right
          have h5 : ¬ e.2.kDistance > acc.kMax := fun h6 => hm ⟨hi, h6⟩
          have h7 : e.2.kDistance ≠ 0 := hk
          omega
      simp [hhit]

/-- The loop keeps the locals consistent with the nodes visited, and finds a
victim exactly when one was found before or some node is evictable. -/
theorem Evict.scan_tracks {l seen : List (Nat × LRUKNode)} {acc acc' : EvictScan}
    (ht : EvictScan.Tracks seen acc) (hs : Evict.scan l acc = some acc')
    (hb : ∀ e ∈ l, ∀ b, e.2.history_.getLast? = some b → b < SIZE_MAX) :
    EvictScan.Tracks (l.reverse ++ seen) acc' ∧
      (acc'.hit ↔ acc.hit ∨ ∃ e ∈ l, e.2.is_evictable_ = true) := by
  induction l generalizing seen acc with
  | nil =>
    simp only [Evict.scan, Option.some.injEq] at hs
    subst hs
    simpa using ht
  | cons x l ih =>
    simp only [Evict.scan] at hs
    cases hv : Evict.visit acc x with
    | none => simp [hv] at hs
    | some mid =>
      simp only [hv] at hs
      obtain ⟨ht1, hh1⟩ := Evict.visit_tracks ht hv (hb x (List.mem_cons_self _ _))
      obtain ⟨ht2, hh2⟩ := ih ht1 hs (fun e he => hb e (List.mem_cons_of_mem _ he))
      refine ⟨?_, ?_⟩
      · simpa using ht2
      · rw [hh2, hh1]
        constructor
        · rintro ((h | h) | ⟨e, he, hev⟩)
          · exact Or.inl h
          · exact Or.inr ⟨x, List.mem_cons_self _ _, h⟩
          · exact Or.inr ⟨e, List.mem_cons_of_mem _ he, hev⟩
        · rintro (h | ⟨e, he, hev⟩)
          · exact Or.inl (Or.inl h)
          · rcases List.mem_cons.1 he with rfl | he
            · exact Or.inl (Or.inr hev)
            · exact Or.inr ⟨e, he, hev⟩

end bustub

namespace bustub

theorem EvictScan.start_not_hit : ¬ EvictScan.start.hit := by
  simp [EvictScan.hit, EvictScan.start]

/-- What `Evict` does on a store whose evictable "infinite" nodes have a
history and whose timestamps are below `SIZE_MAX`: it is defined; it fails
exactly when no node is evictable, changing nothing; and otherwise it erases
an evictable node, which is the "infinite" node with the earliest last access
whenever an evictable "infinite" node exists. -/
theorem LRUKReplacer.Evict_spec (r : LRUKReplacer)
    (hne : ∀ e ∈ r.node_store_, e.2.is_evictable_ = true → e.2.kDistance = SIZE_INFINITY →
      e.2.history_ ≠ [])
    (hb : ∀ e ∈ r.node_store_, ∀ b, e.2.history_.getLast? = some b → b < SIZE_MAX) :
    (r.Evict = some (none, r) ∧ ∀ e ∈ r.node_store_, e.2.is_evictable_ = false) ∨
    (∃ e ∈ r.node_store_, e.2.is_evictable_ = true ∧
      r.Evict = some (some e.1,
        { r with curr_size_ := (r.curr_size_ + SIZE_MOD - 1) % SIZE_MOD,
                 node_store_ := UMap.erase r.node_store_ e.1 }) ∧
      ((∃ z ∈ r.node_store_, z.2.is_evictable_ = true ∧ z.2.kDistance = SIZE_INFINITY) →
        e.2.kDistance = SIZE_INFINITY ∧
        ∃ b, e.2.history_.getLast? = some b ∧
          ∀ z ∈ r.node_store_, z.2.is_evictable_ = true → z.2.kDistance = SIZE_INFINITY →
            ∀ c, z.2.history_.getLast? = some c → b ≤ c)) := by
  obtain ⟨acc, hacc⟩ := Evict.scan_defined r.node_store_ EvictScan.start hne
  obtain ⟨ht, hh⟩ := Evict.scan_tracks EvictScan.Tracks.start hacc hb
  have ht' : EvictScan.Tracks r.node_store_ acc :=
    EvictScan.Tracks.congr (by intro e; simp) ht
  by_cases hhit : acc.hit
  · right
    rcases Evict.scan_frame hacc with heq | ⟨e, he, hev, hf⟩
    · rw [heq] at hhit
      exact absurd hhit EvictScan.start_not_hit
    · have hEv : r.Evict = some (some e.1,
          { r with curr_size_ := (r.curr_size_ + SIZE_MOD - 1) % SIZE_MOD,
                   node_store_ := UMap.erase r.node_store_ e.1 }) := by
        have hhit' : acc.isInfinity = true ∨ acc.kMax > 0 := hhit
        simp only [LRUKReplacer.Evict, hacc, if_pos hhit', hf]
      by_cases hz : ∃ z ∈ r.node_store_, z.2.is_evictable_ = true ∧ z.2.kDistance = SIZE_INFINITY
      · obtain ⟨z, hzm, hze, hzk⟩ := hz
        have hinf : acc.isInfinity = true := by
          cases hi : acc.isInfinity with
          | true => rfl
          | false => exact absurd hzk ((ht'.1 hi).2 z hzm hze)
        obtain ⟨⟨w, hw, hwe, hwk, hwf, hwl⟩, hall⟩ := ht'.2 hinf
        have hfw : e.1 = w.1 := by
          rw [hf] at hwf
          exact Option.some.inj hwf
        refine ⟨w, hw, hwe, ?_, fun _ => ⟨hwk, acc.earlistTimestamp, hwl, hall⟩⟩
        rw [← hfw]
        exact hEv
      · exact ⟨e, he, hev, hEv, fun h => absurd h hz⟩
  · left
    have hnone : ∀ e ∈ r.node_store_, e.2.is_evictable_ = false := by
      intro e he
      cases hev : e.2.is_evictable_ with
      | false => rfl
      | true => exact absurd (hh.2 (Or.inr ⟨e, he, hev⟩)) hhit
    refine ⟨?_, hnone⟩
    have hhit' : ¬ (acc.isInfinity = true ∨ acc.kMax > 0) := hhit
    simp only [LRUKReplacer.Evict, hacc, if_neg hhit']

end bustub

namespace bustub

/-! ## Each replacer method keeps the replacer well formed -/

theorem LRUKReplacer.WF.new (num_frames k : Nat) (hk : 1 ≤ k) :
    (LRUKReplacer.new num_frames k).WF 0 := by
  constructor <;> simp [LRUKReplacer.new, hk]

theorem LRUKReplacer.WF.mono {n m : Nat} {r : LRUKReplacer} (h : r.WF n) (hnm : n ≤ m) :
    r.WF m :=
  { h with clock := le_trans h.clock hnm, count := le_trans h.count hnm }

theorem LRUKReplacer.WF.rehash {n : Nat} {r : LRUKReplacer} (h : r.WF n)
    {store : List (Nat × LRUKNode)} (hp : store.Perm r.node_store_) :
    ({ r with node_store_ := store } : LRUKReplacer).WF n where
  keys := (hp.map Prod.fst).nodup_iff.2 h.keys
  clock := h.clock
  count := by simpa [hp.length_eq] using h.count
  size := by simpa [hp.countP_eq] using h.size
  past := fun e he => h.past e (hp.mem_iff.1 he)
  apart := fun e he e' he' => h.apart e (hp.mem_iff.1 he) e' (hp.mem_iff.1 he')
  inf := fun e he => h.inf e (hp.mem_iff.1 he)
  fin := fun hk e he => h.fin hk e (hp.mem_iff.1 he)
  kpos := h.kpos

theorem LRUKReplacer.WF.back_lt {n : Nat} {r : LRUKReplacer} (h : r.WF n) (hn : n ≤ SIZE_MAX) :
    ∀ e ∈ r.node_store_, ∀ b, e.2.history_.getLast? = some b → b < SIZE_MAX := by
  intro e he b hb
  have hmem : b ∈ e.2.history_ := List.mem_of_getLast?_eq_some hb
  have := h.past e he b hmem
  have := h.clock
  omega

/-- The three ways `RecordAccess` can go for a frame id within the bound and
`k_` at least one. -/
theorem LRUKReplacer.RecordAccess_cases (r : LRUKReplacer) (f : Nat)
    (hf : f ≤ r.replacer_size_) (hk : 1 ≤ r.k_) :
    (UMap.find r.node_store_ f = none ∧
      r.RecordAccess f = some { r with
        node_store_ := (f, { history_ := [r.current_timestamp_], kDistance := SIZE_INFINITY,
                             is_evictable_ := false }) :: r.node_store_,
        current_timestamp_ := (r.current_timestamp_ + 1) % SIZE_MOD }) ∨
    (∃ nd t, UMap.find r.node_store_ f = some nd ∧ r.k_ ≤ nd.history_.length + 1 ∧
      (nd.history_ ++ [r.current_timestamp_])[nd.history_.length + 1 - r.k_]? = some t ∧
      r.RecordAccess f = some { r with
        node_store_ := UMap.replace r.node_store_ f
          { nd with history_ := nd.history_ ++ [r.current_timestamp_],
                    kDistance := (r.current_timestamp_ + SIZE_MOD - t) % SIZE_MOD },
        current_timestamp_ := (r.current_timestamp_ + 1) % SIZE_MOD }) ∨
    (∃ nd, UMap.find r.node_store_ f = some nd ∧ nd.history_.length + 1 < r.k_ ∧
      r.RecordAccess f = some { r with
        node_store_ := UMap.replace r.node_store_ f
          { nd with history_ := nd.history_ ++ [r.current_timestamp_] },
        current_timestamp_ := (r.current_timestamp_ + 1) % SIZE_MOD }) := by
  have hf' : ¬ f > r.replacer_size_ := by omega
  cases hfind : UMap.find r.node_store_ f with
  | none =>
    left
    refine ⟨rfl, ?_⟩
    simp only [LRUKReplacer.RecordAccess, if_neg hf', hfind]
  | some nd =>
    right
    by_cases hlen : r.k_ ≤ nd.history_.length + 1
    · left
      have hidx : nd.history_.length + 1 - r.k_ < (nd.history_ ++ [r.current_timestamp_]).length := by
        simp only [List.length_append, List.length_singleton]
        omega
      refine ⟨nd, (nd.history_ ++ [r.current_timestamp_])[nd.history_.length + 1 - r.k_],
        rfl, hlen, List.getElem?_eq_getElem hidx, ?_⟩
      have hge : (nd.history_ ++ [r.current_timestamp_]).length ≥ r.k_ := by
        simp only [List.length_append, List.length_singleton]
        omega
      simp only [LRUKReplacer.RecordAccess, if_neg hf', hfind, if_pos hge]
      simp only [List.length_append, List.length_singleton, List.getElem?_eq_getElem hidx]
    · right
      refine ⟨nd, rfl, by omega, ?_⟩
      have hge : ¬ (nd.history_ ++ [r.current_timestamp_]).length ≥ r.k_ := by
        simp only [List.length_append, List.length_singleton]
        omega
      simp only [LRUKReplacer.RecordAccess, if_neg hf', hfind, if_neg hge]

end bustub

namespace bustub

/-- Appending the current timestamp to the history of a stored node, with a
distance that respects the "infinity" convention, keeps the replacer well
formed. -/
theorem LRUKReplacer.WF.access_stored {n : Nat} {r : LRUKReplacer} (h : r.WF n)
    (hn : n < SIZE_MAX) {f : Nat} {nd nd' : LRUKNode}
    (hfind : UMap.find r.node_store_ f = some nd)
    (hhist : nd'.history_ = nd.history_ ++ [r.current_timestamp_])
    (hev : nd'.is_evictable_ = nd.is_evictable_)
    (hinf : nd'.history_.length < r.k_ → nd'.kDistance = SIZE_INFINITY)
    (hfin : 2 ≤ r.k_ → r.k_ ≤ nd'.history_.length → nd'.kDistance ≠ SIZE_INFINITY) :
    ({ r with node_store_ := UMap.replace r.node_store_ f nd',
              current_timestamp_ := (r.current_timestamp_ + 1) % SIZE_MOD } : LRUKReplacer).WF
      (n + 1) := by
  have hclock : (r.current_timestamp_ + 1) % SIZE_MOD = r.current_timestamp_ + 1 :=
    size_succ_mod (lt_of_le_of_lt h.clock hn)
  have hmem : (f, nd) ∈ r.node_store_ := UMap.find_some_mem hfind
  constructor
  · simpa [UMap.replace_keys] using h.keys
  · simp only [hclock]
    have := h.clock
    omega
  · simp only [UMap.replace_length]
    have := h.count
    omega
  · have hc := UMap.countP_replace (w := nd') isEvictable h.keys hfind
    simp only [isEvictable, hev] at hc
    show r.curr_size_ = _
    rw [h.size]
    simp only [isEvictable]
    omega
  · intro e he t ht
    simp only [hclock]
    rcases UMap.mem_replace he with rfl | ⟨he', _⟩
    · simp only [hhist, List.mem_append, List.mem_singleton] at ht
      rcases ht with ht | ht
      · have := h.past _ hmem t ht
        omega
      · omega
    · have := h.past e he' t ht
      omega
  · intro e he e' he' hne t ht
    rcases UMap.mem_replace he with rfl | ⟨hem, hef⟩
    · rcases UMap.mem_replace he' with rfl | ⟨hem', hef'⟩
      · exact absurd rfl hne
      · simp only [hhist, List.mem_append, List.mem_singleton] at ht
        rcases ht with ht | ht
        · exact h.apart _ hmem e' hem' hne t ht
        · intro hc
          have := h.past e' hem' t hc
          omega
    · rcases UMap.mem_replace he' with rfl | ⟨hem', hef'⟩
      · simp only [hhist, List.mem_append, List.mem_singleton, not_or]
        refine ⟨h.apart e hem _ hmem hne t ht, ?_⟩
        have := h.past e hem t ht
        omega
      · exact h.apart e hem e' hem' hne t ht
  · intro e he
    rcases UMap.mem_replace he with rfl | ⟨hem, _⟩
    · exact hinf
    · exact h.inf e hem
  · intro hk e he
    rcases UMap.mem_replace he with rfl | ⟨hem, _⟩
    · exact hfin hk
    · exact h.fin hk e hem
  · exact h.kpos

/-- Putting a node for an unknown frame in front keeps the replacer well
formed, whether the node was created by `RecordAccess` (with the current
timestamp, and the clock advancing) or by `node_store_[frame_id]` (without any
access, and possibly marked evictable at once). -/
theorem LRUKReplacer.WF.insert_new {n : Nat} {r : LRUKReplacer} (h : r.WF n)
    {f : Nat} (hfind : UMap.find r.node_store_ f = none)
    (hist : List Nat) (ts' : Nat) (ev : Bool) (size' : Nat)
    (hts : r.current_timestamp_ ≤ ts') (hts' : ts' ≤ n + 1)
    (hhist : ∀ t ∈ hist, t = r.current_timestamp_ ∧ t < ts') (hlen : hist.length ≤ 1)
    (hsize : size' = r.curr_size_ + if ev = true then 1 else 0) :
    ({ r with node_store_ := (f, { history_ := hist, kDistance := SIZE_INFINITY,
                                   is_evictable_ := ev }) :: r.node_store_,
              current_timestamp_ := ts', curr_size_ := size' } : LRUKReplacer).WF (n + 1) := by
  have hnot : ∀ e ∈ r.node_store_, e.1 ≠ f := UMap.find_none_iff.1 hfind
  constructor
  · simp only [List.map_cons, List.nodup_cons]
    exact ⟨UMap.not_mem_keys_of_find_none hfind, h.keys⟩
  · exact hts'
  · simp only [List.length_cons]
    have := h.count
    omega
  · simp only [List.countP_cons, isEvictable, hsize, h.size]
  · intro e he t ht
    rcases List.mem_cons.1 he with rfl | he
    · exact (hhist t ht).2
    · have := h.past e he t ht
      show t < ts'
      omega
  · intro e he e' he' hne t ht
    rcases List.mem_cons.1 he with rfl | he
    · rcases List.mem_cons.1 he' with rfl | he'
      · exact absurd rfl hne
      · intro hc
        have h1 := (hhist t ht).1
        have := h.past e' he' t hc
        omega
    · rcases List.mem_cons.1 he' with rfl | he'
      · intro hc
        have h1 := (hhist t hc).1
        have := h.past e he t ht
        omega
      · exact h.apart e he e' he' hne t ht
  · intro e he hl
    rcases List.mem_cons.1 he with rfl | he
    · rfl
    · exact h.inf e he hl
  · intro hk e he hl
    rcases List.mem_cons.1 he with rfl | he
    · have hl' : r.k_ ≤ hist.length := hl
      have hk' : 2 ≤ r.k_ := hk
      omega
    · exact h.fin hk e he hl
  · exact h.kpos

/-- `RecordAccess` on a frame id within the bound is defined and keeps the
replacer well formed; it changes neither `k_` nor `replacer_size_`. -/
theorem LRUKReplacer.WF.RecordAccess {n : Nat} {r : LRUKReplacer} (h : r.WF n)
    (hn : n < SIZE_MAX) {f : Nat} (hf : f ≤ r.replacer_size_) :
    ∃ r', r.RecordAccess f = some r' ∧ r'.WF (n + 1) ∧ r'.k_ = r.k_ ∧
      r'.replacer_size_ = r.replacer_size_ ∧ r'.curr_size_ = r.curr_size_ := by
  have hclock : (r.current_timestamp_ + 1) % SIZE_MOD = r.current_timestamp_ + 1 :=
    size_succ_mod (lt_of_le_of_lt h.clock hn)
  rcases LRUKReplacer.RecordAccess_cases r f hf h.kpos with ⟨hfind, heq⟩ |
    ⟨nd, t, hfind, hlen, ht, heq⟩ | ⟨nd, hfind, hlen, heq⟩
  · refine ⟨_, heq, ?_, rfl, rfl, rfl⟩
    exact h.insert_new hfind [r.current_timestamp_] ((r.current_timestamp_ + 1) % SIZE_MOD)
      false r.curr_size_
      (by rw [hclock]; omega) (by rw [hclock]; have := h.clock; omega)
      (by intro t ht; simp only [List.mem_singleton] at ht; rw [hclock]; omega)
      (by simp) (by simp)
  · refine ⟨_, heq, ?_, rfl, rfl, rfl⟩
    refine h.access_stored hn hfind rfl rfl ?_ ?_
    · intro hl
      simp only [List.length_append, List.length_singleton] at hl
      omega
    · intro hk2 _
      have hidx : nd.history_.length + 1 - r.k_ < nd.history_.length := by omega
      rw [List.getElem?_append_left hidx] at ht
      have hmem : t ∈ nd.history_ := List.getElem?_mem ht
      have hlt := h.past _ (UMap.find_some_mem hfind) t hmem
      have hcl := h.clock
      have := size_sub_mod (le_of_lt hlt) (by omega : r.current_timestamp_ ≤ SIZE_MAX)
      simp only [this, SIZE_INFINITY]
      omega
  · refine ⟨_, heq, ?_, rfl, rfl, rfl⟩
    refine h.access_stored hn hfind rfl rfl ?_ ?_
    · intro _
      have hl' : nd.history_.length < r.k_ := by omega
      exact h.inf _ (UMap.find_some_mem hfind) hl'
    · intro _ hl
      simp only [List.length_append, List.length_singleton] at hl
      omega

end bustub

namespace bustub

/-- The node store after `SetEvictable` on a frame id within the bound. -/
theorem LRUKReplacer.SetEvictable_cases (r : LRUKReplacer) (f : Nat) (b : Bool)
    (hf : f ≤ r.replacer_size_) :
    (UMap.find r.node_store_ f = none ∧
      r.SetEvictable f b = { r with
        node_store_ := (f, { LRUKNode.fresh with is_evictable_ := b }) :: r.node_store_,
        curr_size_ := if b = true then (r.curr_size_ + 1) % SIZE_MOD else r.curr_size_ }) ∨
    (∃ nd, UMap.find r.node_store_ f = some nd ∧
      r.SetEvictable f b = { r with
        node_store_ := UMap.replace r.node_store_ f { nd with is_evictable_ := b },
        curr_size_ :=
          if nd.is_evictable_ = true ∧ b = false then (r.curr_size_ + SIZE_MOD - 1) % SIZE_MOD
          else if nd.is_evictable_ = false ∧ b = true then (r.curr_size_ + 1) % SIZE_MOD
          else r.curr_size_ }) := by
  have hf' : ¬ f > r.replacer_size_ := by omega
  cases hfind : UMap.find r.node_store_ f with
  | none =>
    left
    refine ⟨rfl, ?_⟩
    simp only [LRUKReplacer.SetEvictable, if_neg hf', LRUKReplacer.touch, hfind, UMap.replace,
      if_true, UMap.replace_of_find_none hfind, LRUKNode.fresh]
    cases b <;> simp
  | some nd =>
    right
    refine ⟨nd, rfl, ?_⟩
    simp only [LRUKReplacer.SetEvictable, if_neg hf', LRUKReplacer.touch, hfind]

/-- `SetEvictable` keeps the replacer well formed. -/
theorem LRUKReplacer.WF.SetEvictable {n : Nat} {r : LRUKReplacer} (h : r.WF n)
    (hn : n < SIZE_MAX) (f : Nat) (b : Bool) : (r.SetEvictable f b).WF (n + 1) := by
  by_cases hf : f ≤ r.replacer_size_
  · have hsz : r.curr_size_ ≤ n := by
      rw [h.size]
      exact le_trans (List.countP_le_length _) h.count
    rcases LRUKReplacer.SetEvictable_cases r f b hf with ⟨hfind, heq⟩ | ⟨nd, hfind, heq⟩
    · rw [heq]
      refine h.insert_new hfind [] r.current_timestamp_ b _ (le_refl _)
        (by have := h.clock; omega) (by simp) (by simp) ?_
      cases b
      · simp
      · simp only [if_true]
        exact size_succ_mod (by omega)
    · rw [heq]
      have hmem : (f, nd) ∈ r.node_store_ := UMap.find_some_mem hfind
      have hc := UMap.countP_replace (w := { nd with is_evictable_ := b }) isEvictable h.keys hfind
      simp only [isEvictable] at hc
      constructor
      · simpa [UMap.replace_keys] using h.keys
      · have := h.clock
        show r.current_timestamp_ ≤ n + 1
        omega
      · simp only [UMap.replace_length]
        have := h.count
        omega
      · show _ = List.countP isEvictable _
        have hsize := h.size
        cases hnd : nd.is_evictable_ <;> cases b <;> simp only [hnd] at hc ⊢ <;>
          simp only [isEvictable] at hsize ⊢
        · simp at hc ⊢; omega
        · simp at hc ⊢
          rw [size_succ_mod (by omega)]
          omega
        · simp at hc ⊢
          rw [size_pred_mod (by omega) (by omega)]
          omega
        · simp at hc ⊢; omega
      · intro e he t ht
        rcases UMap.mem_replace he with rfl | ⟨he', _⟩
        · exact h.past _ hmem t ht
        · exact h.past e he' t ht
      · intro e he e' he' hne t ht
        rcases UMap.mem_replace he with rfl | ⟨hem, _⟩
        · rcases UMap.mem_replace he' with rfl | ⟨hem', _⟩
          · exact absurd rfl hne
          · exact h.apart _ hmem e' hem' hne t ht
        · rcases UMap.mem_replace he' with rfl | ⟨hem', _⟩
          · exact h.apart e hem _ hmem hne t ht
          · exact h.apart e hem e' hem' hne t ht
      · intro e he
        rcases UMap.mem_replace he with rfl | ⟨hem, _⟩
        · exact h.inf (f, nd) hmem
        · exact h.inf e hem
      · intro hk e he
        rcases UMap.mem_replace he with rfl | ⟨hem, _⟩
        · exact h.fin hk (f, nd) hmem
        · exact h.fin hk e hem
      · exact h.kpos
  · have hf' : f > r.replacer_size_ := by omega
    simp only [LRUKReplacer.SetEvictable, if_pos hf']
    exact h.mono (Nat.le_succ n)

/-- Erasing an evictable node and decrementing `curr_size_` keeps the replacer
well formed. -/
theorem LRUKReplacer.WF.erase_evictable {n : Nat} {r : LRUKReplacer} (h : r.WF n)
    (hn : n ≤ SIZE_MAX) {f : Nat} {nd : LRUKNode} (hfind : UMap.find r.node_store_ f = some nd)
    (hev : nd.is_evictable_ = true) :
    ({ r with node_store_ := UMap.erase r.node_store_ f,
              curr_size_ := (r.curr_size_ + SIZE_MOD - 1) % SIZE_MOD } : LRUKReplacer).WF n := by
  have hc := UMap.countP_erase isEvictable h.keys hfind
  simp only [isEvictable, hev, if_true] at hc
  have hsz : r.curr_size_ ≤ n := by
    rw [h.size]
    exact le_trans (List.countP_le_length _) h.count
  constructor
  · exact UMap.erase_keys_nodup f h.keys
  · exact h.clock
  · exact le_trans (UMap.erase_length_le _ _) h.count
  · show _ = List.countP isEvictable _
    have hsize := h.size
    simp only [isEvictable] at hsize ⊢
    rw [size_pred_mod (by omega) (by omega)]
    omega
  · intro e he
    exact h.past e (UMap.mem_erase.1 he).1
  · intro e he e' he'
    exact h.apart e (UMap.mem_erase.1 he).1 e' (UMap.mem_erase.1 he').1
  · intro e he
    exact h.inf e (UMap.mem_erase.1 he).1
  · intro hk e he
    exact h.fin hk e (UMap.mem_erase.1 he).1
  · exact h.kpos

/-- `Remove` keeps the replacer well formed. -/
theorem LRUKReplacer.WF.Remove {n : Nat} {r : LRUKReplacer} (h : r.WF n)
    (hn : n ≤ SIZE_MAX) (f : Nat) : (r.Remove f).WF n := by
  unfold LRUKReplacer.Remove
  split
  · exact h
  · split
    · exact h
    · rename_i nd hfind
      split
      · rename_i hev
        exact h.erase_evictable hn hfind hev
      · exact h

/-- A successful `Evict` erases an evictable node; a failed one changes
nothing. -/
theorem LRUKReplacer.Evict_some {r r' : LRUKReplacer} {res : Option Nat}
    (h : r.Evict = some (res, r')) :
    (res = none ∧ r' = r) ∨
    (∃ e ∈ r.node_store_, e.2.is_evictable_ = true ∧ res = some e.1 ∧
      r' = { r with curr_size_ := (r.curr_size_ + SIZE_MOD - 1) % SIZE_MOD,
                    node_store_ := UMap.erase r.node_store_ e.1 }) := by
  unfold LRUKReplacer.Evict at h
  cases hacc : Evict.scan r.node_store_ EvictScan.start with
  | none => simp [hacc] at h
  | some acc =>
    simp only [hacc] at h
    by_cases hhit : acc.isInfinity = true ∨ acc.kMax > 0
    · simp only [if_pos hhit] at h
      rcases Evict.scan_frame hacc with heq | ⟨e, he, hev, hf⟩
      · rw [heq] at hhit
        exact absurd hhit EvictScan.start_not_hit
      · simp only [hf, Option.some.injEq, Prod.mk.injEq] at h
        exact Or.inr ⟨e, he, hev, h.1.symm, h.2.symm⟩
    · simp only [if_neg hhit, Option.some.injEq, Prod.mk.injEq] at h
      exact Or.inl ⟨h.1.symm, h.2.symm⟩

/-- `Evict` keeps the replacer well formed. -/
theorem LRUKReplacer.WF.Evict {n : Nat} {r r' : LRUKReplacer} {res : Option Nat}
    (h : r.WF n) (hn : n ≤ SIZE_MAX) (he : r.Evict = some (res, r')) : r'.WF n := by
  rcases LRUKReplacer.Evict_some he with ⟨_, rfl⟩ | ⟨e, hem, hev, _, rfl⟩
  · exact h
  · exact h.erase_evictable hn (UMap.find_of_mem h.keys hem) hev

/-- Every reachable replacer state is well formed, as long as the number of
calls stays below the range of `size_t`. -/
theorem LRUKReplacer.Reachable.wf {num_frames k n : Nat} {r : LRUKReplacer}
    (h : LRUKReplacer.Reachable num_frames k n r) (hk : 1 ≤ k) (hn : n ≤ SIZE_MAX) :
    r.WF n ∧ r.k_ = k := by
  induction h with
  | fresh => exact ⟨LRUKReplacer.WF.new num_frames k hk, rfl⟩
  | @call n r r' c _ hc ih =>
    obtain ⟨hwf, hk'⟩ := ih (by omega)
    have hlt : n < SIZE_MAX := by omega
    cases c with
    | RecordAccess f =>
      simp only [LRUKReplacer.call] at hc
      by_cases hf : f ≤ r.replacer_size_
      · obtain ⟨r'', h1, h2, h3, _⟩ := hwf.RecordAccess hlt hf
        rw [h1] at hc
        cases hc
        exact ⟨h2, h3.trans hk'⟩
      · have hf' : f > r.replacer_size_ := by omega
        simp [LRUKReplacer.RecordAccess, hf'] at hc
    | SetEvictable f b =>
      simp only [LRUKReplacer.call, Option.some.injEq] at hc
      subst hc
      refine ⟨hwf.SetEvictable hlt f b, ?_⟩
      rw [← hk']
      unfold LRUKReplacer.SetEvictable
      split
      · rfl
      · rfl
    | Remove f =>
      simp only [LRUKReplacer.call, Option.some.injEq] at hc
      subst hc
      refine ⟨(hwf.Remove (by omega) f).mono (Nat.le_succ n), ?_⟩
      rw [← hk']
      unfold LRUKReplacer.Remove
      split
      · rfl
      · split
        · rfl
        · split <;> rfl
    | Evict =>
      simp only [LRUKReplacer.call] at hc
      cases hev : r.Evict with
      | none => simp [hev] at hc
      | some p =>
        obtain ⟨res, r''⟩ := p
        simp only [hev, Option.map_some', Option.some.injEq] at hc
        subst hc
        refine ⟨(hwf.Evict (by omega) hev).mono (Nat.le_succ n), ?_⟩
        rcases LRUKReplacer.Evict_some hev with ⟨_, rfl⟩ | ⟨e, _, _, _, rfl⟩
        · exact hk'
        · exact hk'
  | @rehash n r store _ hp ih =>
    obtain ⟨hwf, hk'⟩ := ih hn
    exact ⟨hwf.rehash hp, hk'⟩

end bustub

namespace bustub

/-- The state after a sequence of calls on a reachable state is reachable. -/
theorem LRUKReplacer.Reachable.run {num_frames k n : Nat} {r : LRUKReplacer}
    (h : LRUKReplacer.Reachable num_frames k n r) (calls : List ReplacerCall)
    {r' : LRUKReplacer} (hrun : LRUKReplacer.run calls r = some r') :
    LRUKReplacer.Reachable num_frames k (n + calls.length) r' := by
  induction calls generalizing n r with
  | nil =>
    simp only [LRUKReplacer.run, Option.some.injEq] at hrun
    subst hrun
    exact h
  | cons c cs ih =>
    simp only [LRUKReplacer.run] at hrun
    cases hc : r.call c with
    | none => simp [hc] at hrun
    | some mid =>
      simp only [hc] at hrun
      have := ih (h.call c hc) hrun
      simpa [Nat.add_assoc, Nat.add_comm 1] using this

end bustub

namespace bustub

/-! ## The node store seen through `find` -/

theorem UMap.mem_iff_find {κ ν : Type} [DecidableEq κ] {m : List (κ × ν)}
    (hnd : (m.map Prod.fst).Nodup) (e : κ × ν) : e ∈ m ↔ UMap.find m e.1 = some e.2 :=
  ⟨fun h => UMap.find_of_mem hnd h, fun h => UMap.find_some_mem h⟩

theorem UMap.find_cons_self {κ ν : Type} [DecidableEq κ] (m : List (κ × ν)) (key : κ) (v : ν) :
    UMap.find ((key, v) :: m) key = some v := by
  simp [UMap.find]

theorem UMap.find_cons_ne {κ ν : Type} [DecidableEq κ] (m : List (κ × ν)) {key key' : κ} (v : ν)
    (h : key' ≠ key) : UMap.find ((key, v) :: m) key' = UMap.find m key' := by
  have : ¬ key = key' := fun h' => h h'.symm
  simp [UMap.find, this]

theorem LRUKReplacer.SetEvictable_find_ne (r : LRUKReplacer) (f : Nat) (b : Bool) {g : Nat}
    (hg : g ≠ f) :
    UMap.find (r.SetEvictable f b).node_store_ g = UMap.find r.node_store_ g := by
  by_cases hf : f ≤ r.replacer_size_
  · rcases LRUKReplacer.SetEvictable_cases r f b hf with ⟨_, heq⟩ | ⟨nd, _, heq⟩
    · rw [heq]
      exact UMap.find_cons_ne _ _ hg
    · rw [heq]
      exact UMap.find_replace_ne hg
  · have hf' : f > r.replacer_size_ := by omega
    simp [LRUKReplacer.SetEvictable, hf']

theorem LRUKReplacer.SetEvictable_find_self (r : LRUKReplacer) (f : Nat) (b : Bool)
    (hf : f ≤ r.replacer_size_) :
    UMap.find (r.SetEvictable f b).node_store_ f
      = some { (UMap.find r.node_store_ f).getD LRUKNode.fresh with is_evictable_ := b } := by
  rcases LRUKReplacer.SetEvictable_cases r f b hf with ⟨hfind, heq⟩ | ⟨nd, hfind, heq⟩
  · rw [heq, hfind]
    exact UMap.find_cons_self _ _ _
  · rw [heq, hfind]
    exact UMap.find_replace_self (UMap.mem_keys_of_find_some hfind)

theorem LRUKReplacer.SetEvictable_fields (r : LRUKReplacer) (f : Nat) (b : Bool) :
    (r.SetEvictable f b).replacer_size_ = r.replacer_size_ ∧
    (r.SetEvictable f b).k_ = r.k_ ∧
    (r.SetEvictable f b).current_timestamp_ = r.current_timestamp_ := by
  unfold LRUKReplacer.SetEvictable
  split
  · exact ⟨rfl, rfl, rfl⟩
  · exact ⟨rfl, rfl, rfl⟩

theorem LRUKReplacer.RecordAccess_find_ne {r r' : LRUKReplacer} {f g : Nat}
    (h : r.RecordAccess f = some r') (hg : g ≠ f) :
    UMap.find r'.node_store_ g = UMap.find r.node_store_ g := by
  unfold LRUKReplacer.RecordAccess at h
  split at h
  · cases h
  · split at h
    · cases h
      exact UMap.find_cons_ne _ _ hg
    · dsimp only at h
      split at h
      · split at h
        · cases h
        · cases h
          exact UMap.find_replace_ne hg
      · cases h
        exact UMap.find_replace_ne hg

/-- After `RecordAccess` the frame has a node whose history is the old one (or
none) followed by the current timestamp, with the evictable flag it had (or
false). -/
theorem LRUKReplacer.RecordAccess_find_self {r r' : LRUKReplacer} {f : Nat}
    (h : r.RecordAccess f = some r') :
    ∃ nd', UMap.find r'.node_store_ f = some nd' ∧
      nd'.history_ = ((UMap.find r.node_store_ f).getD LRUKNode.fresh).history_
        ++ [r.current_timestamp_] ∧
      nd'.is_evictable_ = ((UMap.find r.node_store_ f).getD LRUKNode.fresh).is_evictable_ := by
  unfold LRUKReplacer.RecordAccess at h
  split at h
  · cases h
  · split at h
    · rename_i hfind
      cases h
      exact ⟨_, UMap.find_cons_self _ _ _, by simp [hfind, LRUKNode.fresh],
        by simp [hfind, LRUKNode.fresh]⟩
    · rename_i nd hfind
      have hkey := UMap.mem_keys_of_find_some hfind
      dsimp only at h
      split at h
      · split at h
        · cases h
        · cases h
          exact ⟨_, UMap.find_replace_self hkey, by simp [hfind], by simp [hfind]⟩
      · cases h
        exact ⟨_, UMap.find_replace_self hkey, by simp [hfind], by simp [hfind]⟩

theorem LRUKReplacer.RecordAccess_fields {r r' : LRUKReplacer} {f : Nat}
    (h : r.RecordAccess f = some r') :
    r'.replacer_size_ = r.replacer_size_ ∧ r'.k_ = r.k_ ∧ r'.curr_size_ = r.curr_size_ := by
  unfold LRUKReplacer.RecordAccess at h
  split at h
  · cases h
  · split at h
    · cases h
      exact ⟨rfl, rfl, rfl⟩
    · dsimp only at h
      split at h
      · split at h
        · cases h
        · cases h
          exact ⟨rfl, rfl, rfl⟩
      · cases h
        exact ⟨rfl, rfl, rfl⟩

theorem LRUKReplacer.RecordAccess_defined (r : LRUKReplacer) (f : Nat)
    (hf : f ≤ r.replacer_size_) (hk : 1 ≤ r.k_) : ∃ r', r.RecordAccess f = some r' := by
  rcases LRUKReplacer.RecordAccess_cases r f hf hk with ⟨_, h⟩ | ⟨_, _, _, _, _, h⟩ | ⟨_, _, _, h⟩
  · exact ⟨_, h⟩
  · exact ⟨_, h⟩
  · exact ⟨_, h⟩

theorem LRUKReplacer.Remove_find_ne (r : LRUKReplacer) (f : Nat) {g : Nat} (hg : g ≠ f) :
    UMap.find (r.Remove f).node_store_ g = UMap.find r.node_store_ g := by
  unfold LRUKReplacer.Remove
  split
  · rfl
  · split
    · rfl
    · split
      · exact UMap.find_erase_ne hg
      · rfl

theorem LRUKReplacer.Remove_find_self (r : LRUKReplacer) (f : Nat) :
    UMap.find (r.Remove f).node_store_ f = UMap.find r.node_store_ f ∨
    UMap.find (r.Remove f).node_store_ f = none := by
  unfold LRUKReplacer.Remove
  split
  · exact Or.inl rfl
  · split
    · exact Or.inl rfl
    · split
      · exact Or.inr (UMap.find_erase_self _ _)
      · exact Or.inl rfl

theorem LRUKReplacer.Remove_fields (r : LRUKReplacer) (f : Nat) :
    (r.Remove f).replacer_size_ = r.replacer_size_ ∧ (r.Remove f).k_ = r.k_ := by
  unfold LRUKReplacer.Remove
  split
  · exact ⟨rfl, rfl⟩
  · split
    · exact ⟨rfl, rfl⟩
    · split <;> exact ⟨rfl, rfl⟩

/-- The tail `SetEvictable(frameId, false); RecordAccess(frameId)` of every
acquisition is defined for a frame id within the bound; afterwards the frame
has a node that is not evictable and has a history, and the other nodes are as
before. -/
theorem BufferPoolManager.pinInReplacer_spec (r : LRUKReplacer) (f : Nat)
    (hf : f ≤ r.replacer_size_) (hk : 1 ≤ r.k_) :
    ∃ r' nd', BufferPoolManager.pinInReplacer r f = some r' ∧
      UMap.find r'.node_store_ f = some nd' ∧ nd'.is_evictable_ = false ∧
      nd'.history_ ≠ [] ∧
      (∀ g, g ≠ f → UMap.find r'.node_store_ g = UMap.find r.node_store_ g) ∧
      r'.replacer_size_ = r.replacer_size_ ∧ r'.k_ = r.k_ := by
  obtain ⟨hs1, hs2, _⟩ := LRUKReplacer.SetEvictable_fields r f false
  obtain ⟨r', hr'⟩ := LRUKReplacer.RecordAccess_defined (r.SetEvictable f false) f
    (by rw [hs1]; exact hf) (by rw [hs2]; exact hk)
  obtain ⟨nd', hnd', hhist, hev⟩ := LRUKReplacer.RecordAccess_find_self hr'
  obtain ⟨hf1, hf2, _⟩ := LRUKReplacer.RecordAccess_fields hr'
  refine ⟨r', nd', hr', hnd', ?_, ?_, ?_, by rw [hf1, hs1], by rw [hf2, hs2]⟩
  · rw [hev, LRUKReplacer.SetEvictable_find_self r f false hf]
    rfl
  · rw [hhist]
    simp
  · intro g hg
    rw [LRUKReplacer.RecordAccess_find_ne hr' hg, LRUKReplacer.SetEvictable_find_ne r f false hg]

/-- The acquisition tail keeps the replacer well formed (two steps of the
bound). -/
theorem BufferPoolManager.pinInReplacer_wf {n : Nat} {r r' : LRUKReplacer} {f : Nat}
    (h : r.WF n) (hn : n + 1 < SIZE_MAX) (hp : BufferPoolManager.pinInReplacer r f = some r') :
    r'.WF (n + 2) := by
  have h1 : (r.SetEvictable f false).WF (n + 1) := h.SetEvictable (by omega) f false
  by_cases hf : f ≤ (r.SetEvictable f false).replacer_size_
  · obtain ⟨r'', h2, h3, _⟩ := h1.RecordAccess hn hf
    unfold BufferPoolManager.pinInReplacer at hp
    rw [h2] at hp
    cases hp
    exact h3
  · have hf' : f > (r.SetEvictable f false).replacer_size_ := by omega
    simp [BufferPoolManager.pinInReplacer, LRUKReplacer.RecordAccess, hf'] at hp

end bustub

namespace bustub

/-! ## Each pool operation keeps the pool well formed -/

theorem UMap.find_emplace {κ ν : Type} [DecidableEq κ] {m : List (κ × ν)} {key key' : κ}
    {v w : ν} (h : UMap.find (UMap.emplace m key v) key' = some w) :
    (key' = key ∧ w = v) ∨ UMap.find m key' = some w := by
  unfold UMap.emplace at h
  split at h
  · exact Or.inr h
  · by_cases hk : key' = key
    · subst hk
      rw [UMap.find_cons_self] at h
      exact Or.inl ⟨rfl, (Option.some.inj h).symm⟩
    · rw [UMap.find_cons_ne _ _ hk] at h
      exact Or.inr h

theorem UMap.find_assign_self {κ ν : Type} [DecidableEq κ] (m : List (κ × ν)) (key : κ) (v : ν) :
    UMap.find (UMap.assign m key v) key = some v := by
  unfold UMap.assign
  split
  · rename_i hfind
    exact UMap.find_replace_self (UMap.mem_keys_of_find_some hfind)
  · exact UMap.find_cons_self _ _ _

theorem UMap.find_assign_ne {κ ν : Type} [DecidableEq κ] (m : List (κ × ν)) {key key' : κ}
    (v : ν) (h : key' ≠ key) : UMap.find (UMap.assign m key v) key' = UMap.find m key' := by
  unfold UMap.assign
  split
  · exact UMap.find_replace_ne h
  · exact UMap.find_cons_ne _ _ h

theorem UMap.find_erase_some {κ ν : Type} [DecidableEq κ] {m : List (κ × ν)} {key key' : κ}
    {w : ν} (h : UMap.find (UMap.erase m key) key' = some w) :
    key' ≠ key ∧ UMap.find m key' = some w := by
  by_cases hk : key' = key
  · subst hk
    rw [UMap.find_erase_self] at h
    cases h
  · rw [UMap.find_erase_ne hk] at h
    exact ⟨hk, h⟩

theorem UMap.find_perm {κ ν : Type} [DecidableEq κ] {m m' : List (κ × ν)}
    (hnd : (m.map Prod.fst).Nodup) (hp : m'.Perm m) (key : κ) :
    UMap.find m' key = UMap.find m key := by
  have hnd' : (m'.map Prod.fst).Nodup := (hp.map Prod.fst).nodup_iff.2 hnd
  cases h : UMap.find m key with
  | none =>
    rw [UMap.find_none_iff] at h ⊢
    intro e he
    exact h e (hp.mem_iff.1 he)
  | some v =>
    exact UMap.find_of_mem hnd' (hp.mem_iff.2 (UMap.find_some_mem h))

theorem BufferPoolManager.WF.fresh_pool (pool_size page_size k : Nat) (hk : 1 ≤ k) :
    (BufferPoolManager.new pool_size page_size k).WF 0 where
  latch := rfl
  replacer := LRUKReplacer.WF.new pool_size k hk
  capacity := rfl
  frames := by simp [BufferPoolManager.new]
  free := by
    intro f hf
    simpa [BufferPoolManager.new] using hf
  table := by
    intro p f h
    simp [BufferPoolManager.new, UMap.find] at h
  nodes := by
    intro f nd h
    simp [BufferPoolManager.new, LRUKReplacer.new, UMap.find] at h
  pinned := by
    intro p f pg h
    simp [BufferPoolManager.new, UMap.find] at h
  pins := by
    intro pg hpg
    simp only [BufferPoolManager.new] at hpg
    rw [List.eq_of_mem_replicate hpg]
    simp [Page.fresh]

theorem BufferPoolManager.WF.mono_succ {n : Nat} {s : BufferPoolManager} (h : s.WF n) :
    s.WF (n + 1) :=
  { h with replacer := h.replacer.mono (by omega) }

/-- The common part of the acquisition paths of `NewPage` and `FetchPage`:
frame `f` gets one more pin and the tail `SetEvictable(f, false);
RecordAccess(f)` runs on a replacer `r0` that is the replacer of the pool,
possibly without the node of `f`. -/
theorem BufferPoolManager.WF.acquire {n : Nat} {s s' : BufferPoolManager} (h : s.WF n)
    (hn : 2 * n + 2 ≤ SIZE_MAX) {r0 r' : LRUKReplacer} {f : Nat} {page q : Page}
    (hr0 : r0.WF (2 * n)) (hr0size : r0.replacer_size_ = s.pool_size_)
    (hr0keep : ∀ g, g ≠ f → UMap.find r0.node_store_ g = UMap.find s.replacer_.node_store_ g)
    (hf : f < s.pool_size_) (hpage : s.pages_[f]? = some page)
    (hpin : BufferPoolManager.pinInReplacer r0 f = some r')
    (hpg : q.pin_count_ = page.pin_count_ + 1)
    (h_pool : s'.pool_size_ = s.pool_size_) (h_latch : s'.latch_ = false)
    (h_pages : s'.pages_ = s.pages_.set f q) (h_rep : s'.replacer_ = r')
    (h_free : ∀ g ∈ s'.free_list_, g ∈ s.free_list_)
    (h_table : ∀ p g, UMap.find s'.page_table_ p = some g →
      g = f ∨ UMap.find s.page_table_ p = some g) :
    s'.WF (n + 1) := by
  obtain ⟨r'', nd', hpin', hfind', hev', hhist', hother, hsize', hk'⟩ :=
    BufferPoolManager.pinInReplacer_spec r0 f (by rw [hr0size]; omega) hr0.kpos
  rw [hpin] at hpin'
  cases hpin'
  have hpagemem : page ∈ s.pages_ := List.getElem?_mem hpage
  constructor
  · exact h_latch
  · rw [h_rep]
    have := BufferPoolManager.pinInReplacer_wf hr0 (by omega) hpin
    exact this.mono (by omega)
  · rw [h_rep, hsize', hr0size, h_pool]
  · rw [h_pages, List.length_set, h.frames, h_pool]
  · intro g hg
    rw [h_pool]
    exact h.free g (h_free g hg)
  · intro p g hg
    rw [h_pool]
    rcases h_table p g hg with rfl | hg'
    · exact hf
    · exact h.table p g hg'
  · intro g nd hg
    rw [h_rep] at hg
    rw [h_pool]
    by_cases hgf : g = f
    · subst hgf
      rw [hfind'] at hg
      cases hg
      exact ⟨hf, hhist'⟩
    · rw [hother g hgf, hr0keep g hgf] at hg
      exact h.nodes g nd hg
  · intro p g pg hg hpgs hpinned
    rw [h_rep]
    by_cases hgf : g = f
    · subst hgf
      rw [hfind']
      rfl
    · rw [hother g hgf, hr0keep g hgf]
      rcases h_table p g hg with hgf' | hg'
      · exact absurd hgf' hgf
      · rw [h_pages, List.getElem?_set_ne (fun h' => hgf h'.symm)] at hpgs
        exact h.pinned p g pg hg' hpgs hpinned
  · intro pg hpgs
    rw [h_pages] at hpgs
    rcases List.mem_or_eq_of_mem_set hpgs with hm | rfl
    · exact h.pins pg hm
    · rw [hpg]
      have := h.pins page hpagemem
      omega

/-- The replacer after a successful `Evict` in a well-formed pool, ready for
the acquisition of the victim frame. -/
theorem BufferPoolManager.WF.evicted {n : Nat} {s : BufferPoolManager} (h : s.WF n)
    (hn : 2 * n ≤ SIZE_MAX) {f : Nat} {evicted : LRUKReplacer}
    (he : s.replacer_.Evict = some (some f, evicted)) :
    evicted.WF (2 * n) ∧ evicted.replacer_size_ = s.pool_size_ ∧ f < s.pool_size_ ∧
    (∀ g, g ≠ f → UMap.find evicted.node_store_ g = UMap.find s.replacer_.node_store_ g) ∧
    ∃ nd, UMap.find s.replacer_.node_store_ f = some nd ∧ nd.is_evictable_ = true := by
  have hwf := h.replacer.Evict hn he
  rcases LRUKReplacer.Evict_some he with ⟨hnone, _⟩ | ⟨e, hem, hev, hres, hr'⟩
  · cases hnone
  · cases hres
    have hfind := UMap.find_of_mem h.replacer.keys hem
    refine ⟨hwf, ?_, (h.nodes _ _ hfind).1, ?_, e.2, hfind, hev⟩
    · rw [hr']
      exact h.capacity
    · intro g hg
      rw [hr']
      exact UMap.find_erase_ne hg

end bustub

namespace bustub

theorem BufferPoolManager.WF.NewPage {n : Nat} {s s' : BufferPoolManager}
    {res : Option (Int × Nat)} (h : s.WF n) (hn : 2 * n + 2 ≤ SIZE_MAX)
    (he : s.NewPage = some (res, s')) : s'.WF (n + 1) := by
  unfold BufferPoolManager.NewPage at he
  have hl : ¬ s.latch_ = true := by rw [h.latch]; simp
  rw [if_neg hl] at he
  split at he
  · rename_i frameId rest hfree
    dsimp only at he
    split at he
    · cases he
    · rename_i page hpage
      split at he
      · cases he
      · rename_i replacer hpin
        cases he
        refine h.acquire hn h.replacer h.capacity (fun _ _ => rfl)
          (h.free frameId (by rw [hfree]; exact List.mem_cons_self _ _)) hpage hpin
          (q := { Page.ResetMemory s.page_size_ page with
                    page_id_ := s.next_page_id_, pin_count_ := page.pin_count_ + 1 })
          rfl rfl h.latch rfl rfl ?_ ?_
        · intro g hg
          rw [hfree]
          exact List.mem_cons_of_mem _ hg
        · intro p g hg
          rcases UMap.find_emplace hg with ⟨_, rfl⟩ | hg'
          · exact Or.inl rfl
          · exact Or.inr hg'
  · rename_i hfree
    split at he
    · cases he
    · cases he
      exact h.mono_succ
    · rename_i frameId evicted hev
      obtain ⟨hewf, hesize, hf, hkeep, _⟩ := h.evicted (by omega) hev
      split at he
      · cases he
      · rename_i page hpage
        dsimp only at he
        split at he
        · cases he
        · rename_i replacer hpin
          cases he
          refine h.acquire hn hewf hesize hkeep hf hpage hpin
            (q := { Page.ResetMemory s.page_size_ page with
                      page_id_ := s.next_page_id_, pin_count_ := page.pin_count_ + 1 })
            rfl rfl h.latch rfl rfl ?_ ?_
          · intro g hg
            exact hg
          · intro p g hg
            by_cases hp : p = s.next_page_id_
            · subst hp
              rw [UMap.find_assign_self] at hg
              exact Or.inl (Option.some.inj hg).symm
            · rw [UMap.find_assign_ne _ _ hp] at hg
              exact Or.inr (UMap.find_erase_some hg).2

theorem BufferPoolManager.WF.FetchPage {n : Nat} {s s' : BufferPoolManager}
    {res : Option Nat} {page_id : Int} (h : s.WF n) (hn : 2 * n + 2 ≤ SIZE_MAX)
    (he : s.FetchPage page_id = some (res, s')) : s'.WF (n + 1) := by
  unfold BufferPoolManager.FetchPage at he
  have hl : ¬ s.latch_ = true := by rw [h.latch]; simp
  rw [if_neg hl] at he
  split at he
  · -- resident
    rename_i frameId hres
    have hf := h.table _ _ hres
    split at he
    · cases he
    · rename_i replacer hrec
      cases he
      obtain ⟨r'', h1, h2, _, h4, _⟩ := h.replacer.RecordAccess (by omega)
        (f := frameId) (by rw [h.capacity]; omega)
      rw [hrec] at h1
      cases h1
      obtain ⟨nd', hnd', hhist, _⟩ := LRUKReplacer.RecordAccess_find_self hrec
      constructor
      · exact h.latch
      · exact h2.mono (by omega)
      · exact h4.trans h.capacity
      · exact h.frames
      · exact h.free
      · exact h.table
      · intro g nd hg
        by_cases hgf : g = frameId
        · subst hgf
          rw [hnd'] at hg
          cases hg
          refine ⟨hf, ?_⟩
          rw [hhist]
          simp
        · rw [LRUKReplacer.RecordAccess_find_ne hrec hgf] at hg
          exact h.nodes g nd hg
      · intro p g pg hg hpgs hpinned
        by_cases hgf : g = frameId
        · subst hgf
          show (UMap.find replacer.node_store_ g).isSome = true
          rw [hnd']
          rfl
        · show (UMap.find replacer.node_store_ g).isSome = true
          rw [LRUKReplacer.RecordAccess_find_ne hrec hgf]
          exact h.pinned p g pg hg hpgs hpinned
      · exact h.pins
  · split at he
    · rename_i frameId rest hfree
      split at he
      · cases he
      · rename_i page hpage
        split at he
        · cases he
        · rename_i replacer hpin
          cases he
          refine h.acquire hn h.replacer h.capacity (fun _ _ => rfl)
            (h.free frameId (by rw [hfree]; exact List.mem_cons_self _ _)) hpage hpin
            (q := { data_ := s.disk_manager_.ReadPage page_id (List.replicate s.page_size_ 0),
                      page_id_ := page_id, pin_count_ := page.pin_count_ + 1,
                      is_dirty_ := page.is_dirty_ })
            rfl rfl h.latch rfl rfl ?_ ?_
          · intro g hg
            rw [hfree]
            exact List.mem_cons_of_mem _ hg
          · intro p g hg
            rcases UMap.find_emplace hg with ⟨_, rfl⟩ | hg'
            · exact Or.inl rfl
            · exact Or.inr hg'
    · split at he
      · cases he
      · cases he
        exact h.mono_succ
      · rename_i frameId evicted hev
        obtain ⟨hewf, hesize, hf, hkeep, _⟩ := h.evicted (by omega) hev
        split at he
        · cases he
        · rename_i page hpage
          dsimp only at he
          split at he
          · cases he
          · rename_i replacer hpin
            cases he
            refine h.acquire hn hewf hesize hkeep hf hpage hpin
              (q := { data_ := DiskManager.ReadPage
                          (if page.is_dirty_ = true then
                            s.disk_manager_.WritePage page.page_id_ page.data_
                           else s.disk_manager_) page_id (List.replicate s.page_size_ 0),
                        page_id_ := page_id, pin_count_ := page.pin_count_ + 1,
                        is_dirty_ := page.is_dirty_ })
              rfl rfl h.latch rfl rfl ?_ ?_
            · intro g hg
              exact hg
            · intro p g hg
              rcases UMap.find_emplace hg with ⟨_, rfl⟩ | hg'
              · exact Or.inl rfl
              · exact Or.inr (UMap.find_erase_some hg').2

/-- Changing a frame without raising its pin count, with the replacer left
alone. -/
theorem BufferPoolManager.WF.touch_frame {n : Nat} {s s' : BufferPoolManager} (h : s.WF n)
    {f : Nat} {page q : Page} (hpage : s.pages_[f]? = some page)
    (hpg : q.pin_count_ ≤ page.pin_count_) (hpg0 : 0 ≤ q.pin_count_)
    (h_pool : s'.pool_size_ = s.pool_size_) (h_latch : s'.latch_ = false)
    (h_pages : s'.pages_ = s.pages_.set f q) (h_rep : s'.replacer_ = s.replacer_)
    (h_free : s'.free_list_ = s.free_list_) (h_table : s'.page_table_ = s.page_table_) :
    s'.WF (n + 1) := by
  constructor
  · exact h_latch
  · rw [h_rep]
    exact h.replacer.mono (by omega)
  · rw [h_rep, h_pool]
    exact h.capacity
  · rw [h_pages, List.length_set, h.frames, h_pool]
  · rw [h_free, h_pool]
    exact h.free
  · rw [h_table, h_pool]
    exact h.table
  · rw [h_rep, h_pool]
    exact h.nodes
  · intro p g pg hg hpgs hpinned
    rw [h_table] at hg
    rw [h_rep]
    by_cases hgf : g = f
    · subst hgf
      have hlt : g < s.pages_.length := by
        rw [h.frames]
        exact h.table p g hg
      rw [h_pages, List.getElem?_set_self hlt] at hpgs
      cases hpgs
      exact h.pinned p g page hg hpage (by omega)
    · rw [h_pages, List.getElem?_set_ne (fun h' => hgf h'.symm)] at hpgs
      exact h.pinned p g pg hg hpgs hpinned
  · intro pg hpgs
    rw [h_pages] at hpgs
    rcases List.mem_or_eq_of_mem_set hpgs with hm | rfl
    · exact h.pins pg hm
    · exact hpg0

theorem BufferPoolManager.WF.UnpinPage {n : Nat} {s s' : BufferPoolManager}
    {res : Option Bool} {page_id : Int} {is_dirty : Bool} (h : s.WF n)
    (hn : 2 * n + 2 ≤ SIZE_MAX) (he : s.UnpinPage page_id is_dirty = some (res, s')) :
    s'.WF (n + 1) := by
  unfold BufferPoolManager.UnpinPage at he
  have hl : ¬ s.latch_ = true := by rw [h.latch]; simp
  rw [if_neg hl] at he
  split at he
  · cases he
    exact h.mono_succ
  · rename_i frameId hres
    have hf := h.table _ _ hres
    split at he
    · cases he
    · rename_i page hpage
      have hpagemem : page ∈ s.pages_ := List.getElem?_mem hpage
      have hpin0 := h.pins page hpagemem
      dsimp only at he
      split at he
      · rename_i hzero
        cases he
        exact h.touch_frame hpage (q := { page with is_dirty_ := page.is_dirty_ || is_dirty })
          (le_refl _) hpin0 rfl h.latch rfl rfl rfl rfl
      · rename_i hzero
        split at he
        · rename_i hone
          cases he
          have hnode : (UMap.find s.replacer_.node_store_ frameId).isSome = true :=
            h.pinned _ _ _ hres hpage (by omega)
          obtain ⟨nd0, hnd0⟩ := Option.isSome_iff_exists.1 hnode
          have hfind := LRUKReplacer.SetEvictable_find_self s.replacer_ frameId true
            (by rw [h.capacity]; omega)
          rw [hnd0] at hfind
          obtain ⟨hs1, _, _⟩ := LRUKReplacer.SetEvictable_fields s.replacer_ frameId true
          constructor
          · exact h.latch
          · exact (h.replacer.SetEvictable (by omega) frameId true).mono (by omega)
          · exact hs1.trans h.capacity
          · show (s.pages_.set frameId _).length = s.pool_size_
            rw [List.length_set]
            exact h.frames
          · exact h.free
          · exact h.table
          · intro g nd hg
            by_cases hgf : g = frameId
            · subst hgf
              have hg' : UMap.find (s.replacer_.SetEvictable g true).node_store_ g = some nd := hg
              rw [hfind] at hg'
              cases hg'
              exact ⟨hf, (h.nodes _ _ hnd0).2⟩
            · have hg' : UMap.find (s.replacer_.SetEvictable frameId true).node_store_ g
                  = some nd := hg
              rw [LRUKReplacer.SetEvictable_find_ne _ _ _ hgf] at hg'
              exact h.nodes g nd hg'
          · intro p g pg hg hpgs hpinned
            show (UMap.find (s.replacer_.SetEvictable frameId true).node_store_ g).isSome = true
            by_cases hgf : g = frameId
            · subst hgf
              rw [hfind]
              rfl
            · rw [LRUKReplacer.SetEvictable_find_ne _ _ _ hgf]
              have hpgs' : (s.pages_.set frameId _)[g]? = some pg := hpgs
              rw [List.getElem?_set_ne (fun h' => hgf h'.symm)] at hpgs'
              exact h.pinned p g pg hg hpgs' hpinned
          · intro pg hpgs
            rcases List.mem_or_eq_of_mem_set hpgs with hm | rfl
            · exact h.pins pg hm
            · show 0 ≤ page.pin_count_ - 1
              omega
        · cases he
          exact h.touch_frame hpage
            (q := { page with is_dirty_ := page.is_dirty_ || is_dirty,
                                pin_count_ := page.pin_count_ - 1 })
            (by show page.pin_count_ - 1 ≤ page.pin_count_; omega)
            (by show 0 ≤ page.pin_count_ - 1; omega) rfl h.latch rfl rfl rfl rfl

theorem BufferPoolManager.WF.FlushPage {n : Nat} {s s' : BufferPoolManager}
    {res : Bool} {page_id : Int} (h : s.WF n)
    (he : s.FlushPage page_id = some (res, s')) : s'.WF (n + 1) := by
  unfold BufferPoolManager.FlushPage at he
  have hl : ¬ s.latch_ = true := by rw [h.latch]; simp
  rw [if_neg hl] at he
  split at he
  · cases he
    exact h.mono_succ
  · rename_i frameId hres
    split at he
    · cases he
    · rename_i page hpage
      cases he
      exact h.touch_frame hpage (q := { page with is_dirty_ := false })
        (le_refl _) (h.pins page (List.getElem?_mem hpage)) rfl h.latch rfl rfl rfl rfl

theorem BufferPoolManager.WF.DeletePage {n : Nat} {s s' : BufferPoolManager}
    {res : Bool} {page_id : Int} (h : s.WF n) (hn : 2 * n ≤ SIZE_MAX)
    (he : s.DeletePage page_id = some (res, s')) : s'.WF (n + 1) := by
  unfold BufferPoolManager.DeletePage at he
  have hl : ¬ s.latch_ = true := by rw [h.latch]; simp
  rw [if_neg hl] at he
  split at he
  · cases he
    exact h.mono_succ
  · rename_i frameId hres
    have hf := h.table _ _ hres
    split at he
    · cases he
    · rename_i page hpage
      split at he
      · cases he
        exact h.mono_succ
      · rename_i hpin
        cases he
        obtain ⟨hr1, _⟩ := LRUKReplacer.Remove_fields s.replacer_ frameId
        constructor
        · exact h.latch
        · exact (h.replacer.Remove hn frameId).mono (by omega)
        · exact hr1.trans h.capacity
        · show (s.pages_.set frameId _).length = s.pool_size_
          rw [List.length_set]
          exact h.frames
        · intro g hg
          have hg' : g ∈ s.free_list_ ++ [frameId] := hg
          rcases List.mem_append.1 hg' with hg'' | hg''
          · exact h.free g hg''
          · rw [List.mem_singleton] at hg''
            rw [hg'']
            exact hf
        · intro p g hg
          exact h.table p g (UMap.find_erase_some hg).2
        · intro g nd hg
          have hg' : UMap.find (s.replacer_.Remove frameId).node_store_ g = some nd := hg
          by_cases hgf : g = frameId
          · subst hgf
            rcases LRUKReplacer.Remove_find_self s.replacer_ g with hsame | hnone
            · rw [hsame] at hg'
              exact h.nodes g nd hg'
            · rw [hnone] at hg'
              cases hg'
          · rw [LRUKReplacer.Remove_find_ne _ _ hgf] at hg'
            exact h.nodes g nd hg'
        · intro p g pg hg hpgs hpinned
          show (UMap.find (s.replacer_.Remove frameId).node_store_ g).isSome = true
          have hg' := (UMap.find_erase_some hg).2
          have hpgs' : (s.pages_.set frameId (Page.ResetMemory s.page_size_ page))[g]?
              = some pg := hpgs
          by_cases hgf : g = frameId
          · subst hgf
            have hlt : g < s.pages_.length := by rw [h.frames]; exact hf
            rw [List.getElem?_set_self hlt] at hpgs'
            cases hpgs'
            have : page.pin_count_ ≤ 0 := by omega
            have hp' : 1 ≤ page.pin_count_ := hpinned
            omega
          · rw [LRUKReplacer.Remove_find_ne _ _ hgf]
            rw [List.getElem?_set_ne (fun h' => hgf h'.symm)] at hpgs'
            exact h.pinned p g pg hg' hpgs' hpinned
        · intro pg hpgs
          rcases List.mem_or_eq_of_mem_set hpgs with hm | rfl
          · exact h.pins pg hm
          · exact h.pins page (List.getElem?_mem hpage)

theorem BufferPoolManager.WF.rehash_store {n : Nat} {s : BufferPoolManager} (h : s.WF n)
    {store : List (Nat × LRUKNode)} (hp : store.Perm s.replacer_.node_store_) :
    ({ s with replacer_ := { s.replacer_ with node_store_ := store } } : BufferPoolManager).WF n
    where
  latch := h.latch
  replacer := h.replacer.rehash hp
  capacity := h.capacity
  frames := h.frames
  free := h.free
  table := h.table
  nodes := by
    intro f nd hf
    have hf' : UMap.find store f = some nd := hf
    rw [UMap.find_perm h.replacer.keys hp] at hf'
    exact h.nodes f nd hf'
  pinned := by
    intro p f pg hf hpg hpin
    show (UMap.find store f).isSome = true
    rw [UMap.find_perm h.replacer.keys hp]
    exact h.pinned p f pg hf hpg hpin
  pins := h.pins

/-- Every reachable pool state is well formed, as long as twice the number of
calls stays below the range of `size_t`. -/
theorem BufferPoolManager.Reachable.pool_wf {pool_size page_size k n : Nat}
    {s : BufferPoolManager} (h : BufferPoolManager.Reachable pool_size page_size k n s)
    (hk : 1 ≤ k) (hn : 2 * n ≤ SIZE_MAX) : s.WF n := by
  induction h with
  | fresh => exact BufferPoolManager.WF.fresh_pool pool_size page_size k hk
  | @call n s s' c _ hc ih =>
    have hwf := ih (by omega)
    cases c with
    | NewPage =>
      simp only [BufferPoolManager.call] at hc
      cases hop : s.NewPage with
      | none => simp [hop] at hc
      | some p =>
        obtain ⟨res, s''⟩ := p
        simp only [hop, Option.map_some', Option.some.injEq] at hc
        subst hc
        exact hwf.NewPage (by omega) hop
    | FetchPage page_id =>
      simp only [BufferPoolManager.call] at hc
      cases hop : s.FetchPage page_id with
      | none => simp [hop] at hc
      | some p =>
        obtain ⟨res, s''⟩ := p
        simp only [hop, Option.map_some', Option.some.injEq] at hc
        subst hc
        exact hwf.FetchPage (by omega) hop
    | UnpinPage page_id is_dirty =>
      simp only [BufferPoolManager.call] at hc
      cases hop : s.UnpinPage page_id is_dirty with
      | none => simp [hop] at hc
      | some p =>
        obtain ⟨res, s''⟩ := p
        simp only [hop, Option.map_some', Option.some.injEq] at hc
        subst hc
        exact hwf.UnpinPage (by omega) hop
    | FlushPage page_id =>
      simp only [BufferPoolManager.call] at hc
      cases hop : s.FlushPage page_id with
      | none => simp [hop] at hc
      | some p =>
        obtain ⟨res, s''⟩ := p
        simp only [hop, Option.map_some', Option.some.injEq] at hc
        subst hc
        exact hwf.FlushPage hop
    | DeletePage page_id =>
      simp only [BufferPoolManager.call] at hc
      cases hop : s.DeletePage page_id with
      | none => simp [hop] at hc
      | some p =>
        obtain ⟨res, s''⟩ := p
        simp only [hop, Option.map_some', Option.some.injEq] at hc
        subst hc
        exact hwf.DeletePage (by omega) hop
  | @rehash n s store _ hp ih =>
    exact (ih hn).rehash_store hp

/-- The state after a sequence of pool calls on a reachable state is
reachable. -/
theorem BufferPoolManager.Reachable.pool_run {pool_size page_size k n : Nat}
    {s : BufferPoolManager} (h : BufferPoolManager.Reachable pool_size page_size k n s)
    (calls : List PoolCall) {s' : BufferPoolManager}
    (hrun : BufferPoolManager.run calls s = some s') :
    BufferPoolManager.Reachable pool_size page_size k (n + calls.length) s' := by
  induction calls generalizing n s with
  | nil =>
    simp only [BufferPoolManager.run, Option.some.injEq] at hrun
    subst hrun
    exact h
  | cons c cs ih =>
    simp only [BufferPoolManager.run] at hrun
    cases hc : s.call c with
    | none => simp [hc] at hrun
    | some mid =>
      simp only [hc] at hrun
      have := ih (h.call c hc) hrun
      simpa [Nat.add_assoc, Nat.add_comm 1] using this

end bustub

namespace bustub

/-! ## The branches of the pool operations as equations -/

theorem BufferPoolManager.NewPage_free {s : BufferPoolManager} {f : Nat} {rest : List Nat}
    {page : Page} {r' : LRUKReplacer} (hl : s.latch_ = false) (hfree : s.free_list_ = f :: rest)
    (hpage : s.pages_[f]? = some page)
    (hpin : BufferPoolManager.pinInReplacer s.replacer_ f = some r') :
    s.NewPage = some (some (s.next_page_id_, f),
      { s with
        free_list_ := rest,
        next_page_id_ := wrap32 (s.next_page_id_ + 1),
        page_table_ := UMap.emplace s.page_table_ s.next_page_id_ f,
        pages_ := s.pages_.set f
          { Page.ResetMemory s.page_size_ page with
            page_id_ := s.next_page_id_, pin_count_ := page.pin_count_ + 1 },
        replacer_ := r' }) := by
  have hl' : ¬ s.latch_ = true := by rw [hl]; simp
  simp only [BufferPoolManager.NewPage, if_neg hl', hfree, hpage, hpin]

theorem BufferPoolManager.NewPage_full {s : BufferPoolManager} {r : LRUKReplacer}
    (hl : s.latch_ = false) (hfree : s.free_list_ = [])
    (hE : s.replacer_.Evict = some (none, r)) : s.NewPage = some (none, s) := by
  have hl' : ¬ s.latch_ = true := by rw [hl]; simp
  simp only [BufferPoolManager.NewPage, if_neg hl', hfree, hE]

theorem BufferPoolManager.NewPage_evict {s : BufferPoolManager} {f : Nat}
    {evicted r' : LRUKReplacer} {page : Page} (hl : s.latch_ = false)
    (hfree : s.free_list_ = []) (hE : s.replacer_.Evict = some (some f, evicted))
    (hpage : s.pages_[f]? = some page)
    (hpin : BufferPoolManager.pinInReplacer evicted f = some r') :
    s.NewPage = some (some (s.next_page_id_, f),
      { s with
        disk_manager_ :=
          if page.is_dirty_ = true then s.disk_manager_.WritePage page.page_id_ page.data_
          else s.disk_manager_,
        next_page_id_ := wrap32 (s.next_page_id_ + 1),
        page_table_ :=
          UMap.assign (UMap.erase s.page_table_ page.page_id_) s.next_page_id_ f,
        pages_ := s.pages_.set f
          { Page.ResetMemory s.page_size_ page with
            page_id_ := s.next_page_id_, pin_count_ := page.pin_count_ + 1 },
        replacer_ := r' }) := by
  have hl' : ¬ s.latch_ = true := by rw [hl]; simp
  simp only [BufferPoolManager.NewPage, if_neg hl', hfree, hE, hpage, hpin]

theorem BufferPoolManager.FetchPage_resident {s : BufferPoolManager} {page_id : Int} {f : Nat}
    {r' : LRUKReplacer} (hl : s.latch_ = false) (hres : UMap.find s.page_table_ page_id = some f)
    (hrec : s.replacer_.RecordAccess f = some r') :
    s.FetchPage page_id = some (some f, { s with replacer_ := r' }) := by
  have hl' : ¬ s.latch_ = true := by rw [hl]; simp
  simp only [BufferPoolManager.FetchPage, if_neg hl', hres, hrec]

theorem BufferPoolManager.FetchPage_evict {s : BufferPoolManager} {page_id : Int} {f : Nat}
    {evicted r' : LRUKReplacer} {page : Page} (hl : s.latch_ = false)
    (hres : UMap.find s.page_table_ page_id = none)
    (hfree : s.free_list_ = []) (hE : s.replacer_.Evict = some (some f, evicted))
    (hpage : s.pages_[f]? = some page)
    (hpin : BufferPoolManager.pinInReplacer evicted f = some r') :
    s.FetchPage page_id = some (some f,
      { s with
        disk_manager_ :=
          if page.is_dirty_ = true then s.disk_manager_.WritePage page.page_id_ page.data_
          else s.disk_manager_,
        page_table_ := UMap.emplace (UMap.erase s.page_table_ page_id) page_id f,
        pages_ := s.pages_.set f
          { data_ := DiskManager.ReadPage
              (if page.is_dirty_ = true then s.disk_manager_.WritePage page.page_id_ page.data_
               else s.disk_manager_) page_id (List.replicate s.page_size_ 0),
            page_id_ := page_id, pin_count_ := page.pin_count_ + 1,
            is_dirty_ := page.is_dirty_ },
        replacer_ := r' }) := by
  have hl' : ¬ s.latch_ = true := by rw [hl]; simp
  simp only [BufferPoolManager.FetchPage, if_neg hl', hres, hfree, hE, hpage, hpin]

theorem BufferPoolManager.UnpinPage_last {s : BufferPoolManager} {page_id : Int} {f : Nat}
    {page : Page} (is_dirty : Bool) (hl : s.latch_ = false)
    (hres : UMap.find s.page_table_ page_id = some f) (hpage : s.pages_[f]? = some page)
    (hpin : page.pin_count_ = 1) :
    s.UnpinPage page_id is_dirty = some (some true,
      { s with
        pages_ := s.pages_.set f
          { page with is_dirty_ := page.is_dirty_ || is_dirty, pin_count_ := 0 },
        replacer_ := s.replacer_.SetEvictable f true }) := by
  have hl' : ¬ s.latch_ = true := by rw [hl]; simp
  simp [BufferPoolManager.UnpinPage, hl', hres, hpage, hpin]

/-- In a well-formed pool no node of the replacer lacks a history, so that
`Evict` never reads the back of an empty list. -/
theorem BufferPoolManager.WF.histories {n : Nat} {s : BufferPoolManager} (h : s.WF n) :
    ∀ e ∈ s.replacer_.node_store_, e.2.is_evictable_ = true →
      e.2.kDistance = SIZE_INFINITY → e.2.history_ ≠ [] := by
  intro e he _ _
  exact (h.nodes e.1 e.2 (UMap.find_of_mem h.replacer.keys he)).2

/-- `NewPage` in a well-formed pool: it is defined, it returns null exactly
when the free list is empty and `Size()` is zero, and then it changes
nothing. -/
theorem BufferPoolManager.WF.NewPage_spec {n : Nat} {s : BufferPoolManager} (h : s.WF n)
    (hn : 2 * n ≤ SIZE_MAX) :
    ∃ res s', s.NewPage = some (res, s') ∧
      (res = none ↔ s.free_list_ = [] ∧ s.replacer_.Size = 0) ∧
      (res = none → s' = s) := by
  cases hfree : s.free_list_ with
  | cons frameId rest =>
    have hf : frameId < s.pool_size_ := h.free frameId (by rw [hfree]; exact List.mem_cons_self _ _)
    have hlt : frameId < s.pages_.length := by rw [h.frames]; exact hf
    obtain ⟨r', _, hpin, _⟩ := BufferPoolManager.pinInReplacer_spec s.replacer_ frameId
      (by rw [h.capacity]; omega) h.replacer.kpos
    refine ⟨_, _, BufferPoolManager.NewPage_free h.latch hfree
      (List.getElem?_eq_getElem hlt) hpin, ?_, ?_⟩
    · simp
    · intro hc
      cases hc
  | nil =>
    rcases s.replacer_.Evict_spec h.histories (h.replacer.back_lt hn) with
      ⟨hE, hnone⟩ | ⟨e, he, hev, hE, _⟩
    · refine ⟨none, s, BufferPoolManager.NewPage_full h.latch hfree hE, ?_, fun _ => rfl⟩
      have hsize : s.replacer_.Size = 0 := by
        unfold LRUKReplacer.Size
        rw [h.replacer.size, List.countP_eq_zero]
        intro x hx
        simp [isEvictable, hnone x hx]
      simp [hsize]
    · have hfind := UMap.find_of_mem h.replacer.keys he
      have hf : e.1 < s.pool_size_ := (h.nodes _ _ hfind).1
      have hlt : e.1 < s.pages_.length := by rw [h.frames]; exact hf
      obtain ⟨r', _, hpin, _⟩ := BufferPoolManager.pinInReplacer_spec
        ({ s.replacer_ with
            curr_size_ := (s.replacer_.curr_size_ + SIZE_MOD - 1) % SIZE_MOD,
            node_store_ := UMap.erase s.replacer_.node_store_ e.1 } : LRUKReplacer) e.1
        (by show e.1 ≤ s.replacer_.replacer_size_; rw [h.capacity]; omega) h.replacer.kpos
      refine ⟨_, _, BufferPoolManager.NewPage_evict h.latch hfree hE
        (List.getElem?_eq_getElem hlt) hpin, ?_, ?_⟩
      · have hsize : s.replacer_.Size ≠ 0 := by
          unfold LRUKReplacer.Size
          rw [h.replacer.size]
          have : 0 < List.countP isEvictable s.replacer_.node_store_ :=
            List.countP_pos_iff.2 ⟨e, he, by simpa [isEvictable] using hev⟩
          omega
        simp [hsize]
      · intro hc
        cases hc

end bustub

namespace bustub

/-! ## Filling a pool from the free list -/

theorem wrap32_of_small {x : Int} (h0 : 0 ≤ x) (h1 : x < 2 ^ 31) : wrap32 x = x := by
  unfold wrap32
  omega

/-- One more `NewPage` while the free list is not empty: page `j` lands in
frame `j`, pinned once. -/
theorem BufferPoolManager.Filling.step {n : Nat} {page0 : Page} {node0 : LRUKNode}
    {disk : DiskManager} {j : Nat} {s : BufferPoolManager}
    (h : s.Filling n page0 node0 disk j) (hj1 : 1 ≤ j) (hjn : j < n) :
    ∃ s', s.NewPage = some (some ((j : Int), j), s') ∧ s'.Filling n page0 node0 disk (j + 1) ∧
      s'.page_size_ = s.page_size_ := by
  have hfree : s.free_list_ = j :: List.range' (j + 1) (n - (j + 1)) := by
    rw [h.free]
    have : n - j = (n - (j + 1)) + 1 := by omega
    rw [this, List.range'_succ]
  obtain ⟨pg, hpg, hpin0, hdirty0⟩ := h.unused j (le_refl _) hjn
  obtain ⟨r', nd', hpin, hfind', hev', _, hother, hsize', hk'⟩ :=
    BufferPoolManager.pinInReplacer_spec s.replacer_ j (by rw [h.capacity]; omega) h.kpos
  have hnew := BufferPoolManager.NewPage_free h.latch hfree hpg hpin
  rw [h.next] at hnew
  refine ⟨_, hnew, ?_, rfl⟩
  have habs : UMap.find s.page_table_ (j : Int) = none := h.absent _ (le_refl _)
  have htab : UMap.emplace s.page_table_ (j : Int) j = ((j : Int), j) :: s.page_table_ := by
    simp [UMap.emplace, habs]
  have hjlt : j < s.pages_.length := by rw [h.frames]; exact hjn
  constructor
  · exact h.latch
  · exact h.size
  · show (s.pages_.set j _).length = n
    rw [List.length_set]
    exact h.frames
  · exact hsize'.trans h.capacity
  · exact hk' ▸ h.kpos
  · exact ⟨by omega, h.bound.2⟩
  · rfl
  · show wrap32 ((j : Int) + 1) = ((j + 1 : Nat) : Int)
    have := h.bound.2
    rw [wrap32_of_small (by omega) (by omega)]
    simp
  · intro i hi1 hij
    show UMap.find (UMap.emplace s.page_table_ (j : Int) j) (i : Int) = some i
    rw [htab]
    by_cases hieq : i = j
    · subst hieq
      exact UMap.find_cons_self _ _ _
    · rw [UMap.find_cons_ne _ _ (by omega)]
      exact h.table i hi1 (by omega)
  · intro p hp
    show UMap.find (UMap.emplace s.page_table_ (j : Int) j) p = none
    rw [htab, UMap.find_cons_ne _ _ (by push_cast at hp; omega)]
    exact h.absent p (by push_cast at hp; omega)
  · show UMap.find (UMap.emplace s.page_table_ (j : Int) j) 0 = some 0
    rw [htab, UMap.find_cons_ne _ _ (by omega)]
    exact h.table0
  · intro i hi1 hij
    show ∃ pg', (s.pages_.set j _)[i]? = some pg' ∧ _
    by_cases hieq : i = j
    · subst hieq
      rw [List.getElem?_set_self hjlt]
      refine ⟨_, rfl, ?_, rfl, ?_, rfl⟩
      · show pg.pin_count_ + 1 = 1
        omega
      · exact hdirty0
    · rw [List.getElem?_set_ne (by omega)]
      exact h.pinned i hi1 (by omega)
  · intro i hji hin
    show ∃ pg', (s.pages_.set j _)[i]? = some pg' ∧ _
    rw [List.getElem?_set_ne (by omega)]
    exact h.unused i (by omega) hin
  · show (s.pages_.set j _)[0]? = some page0
    rw [List.getElem?_set_ne (by omega)]
    exact h.frame0
  · show UMap.find r'.node_store_ 0 = some node0
    rw [hother 0 (by omega)]
    exact h.node0
  · intro g nd hg hfind
    have hfind2 : UMap.find r'.node_store_ g = some nd := hfind
    by_cases hgj : g = j
    · subst hgj
      rw [hfind'] at hfind2
      cases hfind2
      exact hev'
    · rw [hother g hgj] at hfind2
      exact h.nodes g nd hg hfind2
  · exact h.disk

end bustub

namespace bustub

/-- Filling the rest of the pool: the calls return the page ids `j .. n - 1`
in this order. -/
theorem BufferPoolManager.Filling.fill {n : Nat} {page0 : Page} {node0 : LRUKNode}
    {disk : DiskManager} (m : Nat) {j : Nat} {s : BufferPoolManager}
    (h : s.Filling n page0 node0 disk j) (hj1 : 1 ≤ j) (hm : m = n - j) :
    ∃ s', BufferPoolManager.NewPages m s
        = some ((List.range' j m).map (fun i : Nat => (i : Int)), s') ∧
      s'.Filling n page0 node0 disk n ∧ s'.page_size_ = s.page_size_ := by
  induction m generalizing j s with
  | zero =>
    have hjn : j = n := by have := h.bound.1; omega
    subst hjn
    exact ⟨s, rfl, h, rfl⟩
  | succ m ih =>
    obtain ⟨s1, hnew, hfill, hps⟩ := h.step hj1 (by omega)
    obtain ⟨s2, hrest, hfill2, hps2⟩ := ih hfill (by omega) (by omega)
    refine ⟨s2, ?_, hfill2, hps2.trans hps⟩
    simp only [BufferPoolManager.NewPages, hnew, hrest, List.range'_succ, List.map_cons]

theorem BufferPoolManager.NewPages_snoc {m : Nat} {s s' s'' : BufferPoolManager}
    {ids : List Int} {page_id : Int} {f : Nat}
    (h1 : BufferPoolManager.NewPages m s = some (ids, s'))
    (h2 : s'.NewPage = some (some (page_id, f), s'')) :
    BufferPoolManager.NewPages (m + 1) s = some (ids ++ [page_id], s'') := by
  induction m generalizing s ids with
  | zero =>
    simp only [BufferPoolManager.NewPages, Option.some.injEq, Prod.mk.injEq] at h1
    obtain ⟨rfl, rfl⟩ := h1
    simp [BufferPoolManager.NewPages, h2]
  | succ m ih =>
    rw [BufferPoolManager.NewPages] at h1
    cases hnp : s.NewPage with
    | none => simp [hnp] at h1
    | some p =>
      obtain ⟨res, s1⟩ := p
      cases res with
      | none => simp [hnp] at h1
      | some pf =>
        obtain ⟨pid, fr⟩ := pf
        simp only [hnp] at h1
        cases hrest : BufferPoolManager.NewPages m s1 with
        | none => simp [hrest] at h1
        | some q =>
          obtain ⟨ids1, s2⟩ := q
          simp only [hrest, Option.some.injEq, Prod.mk.injEq] at h1
          obtain ⟨rfl, rfl⟩ := h1
          have := ih hrest
          rw [BufferPoolManager.NewPages, hnp]
          simp only [this, List.cons_append]

theorem BufferPoolManager.NewPages_run {m : Nat} {s s' : BufferPoolManager} {ids : List Int}
    (h : BufferPoolManager.NewPages m s = some (ids, s')) :
    BufferPoolManager.run (List.replicate m PoolCall.NewPage) s = some s' := by
  induction m generalizing s ids with
  | zero =>
    simp only [BufferPoolManager.NewPages, Option.some.injEq, Prod.mk.injEq] at h
    obtain ⟨_, rfl⟩ := h
    rfl
  | succ m ih =>
    rw [BufferPoolManager.NewPages] at h
    cases hnp : s.NewPage with
    | none => simp [hnp] at h
    | some p =>
      obtain ⟨res, s1⟩ := p
      cases res with
      | none => simp [hnp] at h
      | some pf =>
        obtain ⟨pid, fr⟩ := pf
        simp only [hnp] at h
        cases hrest : BufferPoolManager.NewPages m s1 with
        | none => simp [hrest] at h
        | some q =>
          obtain ⟨ids1, s2⟩ := q
          simp only [hrest, Option.some.injEq, Prod.mk.injEq] at h
          obtain ⟨_, rfl⟩ := h
          simp only [List.replicate_succ, BufferPoolManager.run, BufferPoolManager.call, hnp,
            Option.map_some']
          exact ih hrest

/-- A change confined to frame 0 and to its replacer node keeps the pool in the
same stage of filling. -/
theorem BufferPoolManager.Filling.update0 {n : Nat} {page0 a : Page}
    {node0 b : LRUKNode} {disk : DiskManager} {j : Nat} {s t : BufferPoolManager}
    (h : s.Filling n page0 node0 disk j) (hj1 : 1 ≤ j)
    (h_latch : t.latch_ = false) (h_size : t.pool_size_ = s.pool_size_)
    (h_ps : t.page_size_ = s.page_size_)
    (h_pages : t.pages_ = s.pages_.set 0 a)
    (h_cap : t.replacer_.replacer_size_ = s.replacer_.replacer_size_)
    (h_k : t.replacer_.k_ = s.replacer_.k_)
    (h_node0 : UMap.find t.replacer_.node_store_ 0 = some b)
    (h_nodes : ∀ g, g ≠ 0 →
      UMap.find t.replacer_.node_store_ g = UMap.find s.replacer_.node_store_ g)
    (h_free : t.free_list_ = s.free_list_) (h_next : t.next_page_id_ = s.next_page_id_)
    (h_table : t.page_table_ = s.page_table_) (h_disk : t.disk_manager_ = s.disk_manager_) :
    t.Filling n a b disk j := by
  have h0lt : 0 < s.pages_.length := by rw [h.frames]; have := h.bound.1; omega
  constructor
  · exact h_latch
  · rw [h_size]; exact h.size
  · rw [h_pages, List.length_set]; exact h.frames
  · rw [h_cap]; exact h.capacity
  · rw [h_k]; exact h.kpos
  · exact h.bound
  · rw [h_free]; exact h.free
  · rw [h_next]; exact h.next
  · rw [h_table]; exact h.table
  · rw [h_table]; exact h.absent
  · rw [h_table]; exact h.table0
  · intro i hi1 hij
    rw [h_pages, h_ps, List.getElem?_set_ne (by omega)]
    exact h.pinned i hi1 hij
  · intro i hji hin
    rw [h_pages, List.getElem?_set_ne (by omega)]
    exact h.unused i hji hin
  · rw [h_pages, List.getElem?_set_self h0lt]
  · exact h_node0
  · intro g nd hg hfind
    rw [h_nodes g hg] at hfind
    exact h.nodes g nd hg hfind
  · rw [h_disk]; exact h.disk

/-- The first `NewPage` on a fresh pool: page 0 lands in frame 0. -/
theorem BufferPoolManager.first_NewPage (n page_size k : Nat) (hn : 1 ≤ n) (hn' : n < 2 ^ 31)
    (hk : 1 ≤ k) :
    ∃ s1 node0, (BufferPoolManager.new n page_size k).NewPage = some (some (0, 0), s1) ∧
      s1.Filling n
        { data_ := List.replicate page_size 0, page_id_ := 0, pin_count_ := 1,
          is_dirty_ := false } node0 { pages := [] } 1 ∧
      node0.is_evictable_ = false ∧ node0.history_ ≠ [] ∧ s1.page_size_ = page_size := by
  obtain ⟨m, rfl⟩ : ∃ m, n = m + 1 := ⟨n - 1, by omega⟩
  have hfree : (BufferPoolManager.new (m + 1) page_size k).free_list_
      = 0 :: List.range' 1 m := by
    simp only [BufferPoolManager.new, List.range_eq_range', List.range'_succ]
  have hpage : (BufferPoolManager.new (m + 1) page_size k).pages_[0]?
      = some (Page.fresh page_size) := by
    simp [BufferPoolManager.new]
  obtain ⟨r', nd', hpin, hfind', hev', hhist', hother, hsize', hk'⟩ :=
    BufferPoolManager.pinInReplacer_spec (BufferPoolManager.new (m + 1) page_size k).replacer_ 0
      (Nat.zero_le _) hk
  have hnew := BufferPoolManager.NewPage_free rfl hfree hpage hpin
  refine ⟨_, nd', hnew, ?_, hev', hhist', rfl⟩
  constructor
  · rfl
  · rfl
  · show ((List.replicate (m + 1) (Page.fresh page_size)).set 0 _).length = m + 1
    simp
  · exact hsize'
  · exact hk' ▸ hk
  · exact ⟨by omega, hn'⟩
  · show List.range' 1 m = List.range' 1 (m + 1 - 1)
    simp
  · show wrap32 (0 + 1) = ((1 : Nat) : Int)
    rfl
  · intro i hi1 hi2
    omega
  · intro p hp
    show UMap.find (UMap.emplace [] (0 : Int) 0) p = none
    have : ¬ (0 : Int) = p := by
      intro h0
      rw [← h0] at hp
      simp at hp
    simp [UMap.emplace, UMap.find, this]
  · show UMap.find (UMap.emplace [] (0 : Int) 0) 0 = some 0
    simp [UMap.emplace, UMap.find]
  · intro i hi1 hi2
    omega
  · intro i hi1 hin
    show ∃ pg, ((List.replicate (m + 1) (Page.fresh page_size)).set 0 _)[i]? = some pg ∧ _
    rw [List.getElem?_set_ne (by omega), List.getElem?_replicate_of_lt hin]
    exact ⟨_, rfl, rfl, rfl⟩
  · show ((List.replicate (m + 1) (Page.fresh page_size)).set 0 _)[0]? = some _
    rw [List.getElem?_set_self (by simp)]
    rfl
  · exact hfind'
  · intro g nd hg hfind
    have hfind2 : UMap.find r'.node_store_ g = some nd := hfind
    rw [hother g hg] at hfind2
    simp [BufferPoolManager.new, LRUKReplacer.new, UMap.find] at hfind2
  · rfl

end bustub

namespace bustub

/-- A pool call that returns keeps the pool well formed. -/
theorem BufferPoolManager.WF.pool_call {n : Nat} {s s' : BufferPoolManager} (h : s.WF n)
    (hn : 2 * n + 2 ≤ SIZE_MAX) (c : PoolCall) (hc : s.call c = some s') : s'.WF (n + 1) := by
  cases c with
  | NewPage =>
    simp only [BufferPoolManager.call] at hc
    cases hop : s.NewPage with
    | none => simp [hop] at hc
    | some p =>
      obtain ⟨res, s''⟩ := p
      simp only [hop, Option.map_some', Option.some.injEq] at hc
      subst hc
      exact h.NewPage hn hop
  | FetchPage page_id =>
    simp only [BufferPoolManager.call] at hc
    cases hop : s.FetchPage page_id with
    | none => simp [hop] at hc
    | some p =>
      obtain ⟨res, s''⟩ := p
      simp only [hop, Option.map_some', Option.some.injEq] at hc
      subst hc
      exact h.FetchPage hn hop
  | UnpinPage page_id is_dirty =>
    simp only [BufferPoolManager.call] at hc
    cases hop : s.UnpinPage page_id is_dirty with
    | none => simp [hop] at hc
    | some p =>
      obtain ⟨res, s''⟩ := p
      simp only [hop, Option.map_some', Option.some.injEq] at hc
      subst hc
      exact h.UnpinPage hn hop
  | FlushPage page_id =>
    simp only [BufferPoolManager.call] at hc
    cases hop : s.FlushPage page_id with
    | none => simp [hop] at hc
    | some p =>
      obtain ⟨res, s''⟩ := p
      simp only [hop, Option.map_some', Option.some.injEq] at hc
      subst hc
      exact h.FlushPage hop
  | DeletePage page_id =>
    simp only [BufferPoolManager.call] at hc
    cases hop : s.DeletePage page_id with
    | none => simp [hop] at hc
    | some p =>
      obtain ⟨res, s''⟩ := p
      simp only [hop, Option.map_some', Option.some.injEq] at hc
      subst hc
      exact h.DeletePage (by omega) hop

/-- A sequence of pool calls that return keeps the pool well formed. -/
theorem BufferPoolManager.WF.pool_calls {n : Nat} {s s' : BufferPoolManager} (h : s.WF n)
    (calls : List PoolCall) (hn : 2 * (n + calls.length) ≤ SIZE_MAX)
    (hrun : BufferPoolManager.run calls s = some s') : s'.WF (n + calls.length) := by
  induction calls generalizing n s with
  | nil =>
    simp only [BufferPoolManager.run, Option.some.injEq] at hrun
    subst hrun
    exact h
  | cons c cs ih =>
    simp only [BufferPoolManager.run] at hrun
    simp only [List.length_cons] at hn
    cases hc : s.call c with
    | none => simp [hc] at hrun
    | some mid =>
      simp only [hc] at hrun
      have := ih (h.pool_call (by omega) c hc) (by omega) hrun
      simpa [Nat.add_assoc, Nat.add_comm 1] using this

/-- A client write into a frame keeps the pool well formed. -/
theorem BufferPoolManager.WF.WriteData {n : Nat} {s : BufferPoolManager} (h : s.WF n)
    (frame : Nat) (data : List Nat) : (s.WriteData frame data).WF n := by
  unfold BufferPoolManager.WriteData
  split
  · exact h
  · rename_i page hpage
    constructor
    · exact h.latch
    · exact h.replacer
    · exact h.capacity
    · show (s.pages_.set frame _).length = s.pool_size_
      rw [List.length_set]
      exact h.frames
    · exact h.free
    · exact h.table
    · exact h.nodes
    · intro p g pg hg hpgs hpinned
      have hpgs' : (s.pages_.set frame { page with data_ := data })[g]? = some pg := hpgs
      by_cases hgf : g = frame
      · subst hgf
        have hlt : g < s.pages_.length := by
          rw [h.frames]
          exact h.table p g hg
        rw [List.getElem?_set_self hlt] at hpgs'
        cases hpgs'
        exact h.pinned p g page hg hpage hpinned
      · rw [List.getElem?_set_ne (fun h' => hgf h'.symm)] at hpgs'
        exact h.pinned p g pg hg hpgs' hpinned
    · intro pg hpgs
      rcases List.mem_or_eq_of_mem_set hpgs with hm | rfl
      · exact h.pins pg hm
      · exact h.pins page (List.getElem?_mem hpage)

/-- `Size()` is zero exactly when no node is evictable. -/
theorem LRUKReplacer.WF.Size_zero_iff {n : Nat} {r : LRUKReplacer} (h : r.WF n) :
    r.Size = 0 ↔ ∀ e ∈ r.node_store_, e.2.is_evictable_ = false := by
  unfold LRUKReplacer.Size
  rw [h.size, List.countP_eq_zero]
  constructor
  · intro hz e he
    have := hz e he
    simpa [isEvictable] using this
  · intro hz e he
    simp [isEvictable, hz e he]

end bustub

namespace bustub

theorem pool_bound_of_small {n c : Nat} (hn : n < 2 ^ 31) (hc : c ≤ 8) :
    2 * (n + c) + 2 ≤ SIZE_MAX := by
  unfold SIZE_MAX
  omega

/-- After `UnpinPage` has brought the pin count of a resident page to zero in a
well-formed pool, the next `NewPage` succeeds. -/
theorem BufferPoolManager.WF.NewPage_after_unpin {n : Nat} {s s1 : BufferPoolManager}
    (h : s.WF n) (hn : 2 * n + 2 ≤ SIZE_MAX) {page_id : Int} {f : Nat} {page : Page}
    (is_dirty : Bool) (hres : UMap.find s.page_table_ page_id = some f)
    (hpage : s.pages_[f]? = some page) (hpin : page.pin_count_ = 1)
    (hs1 : s.UnpinPage page_id is_dirty = some (some true, s1)) :
    ∃ new_id g s2, s1.NewPage = some (some (new_id, g), s2) := by
  have hcall : s.call (.UnpinPage page_id is_dirty) = some s1 := by
    simp [BufferPoolManager.call, hs1]
  have hwf1 : s1.WF (n + 1) := h.pool_call hn _ hcall
  have heq := BufferPoolManager.UnpinPage_last is_dirty h.latch hres hpage hpin
  rw [hs1] at heq
  simp only [Option.some.injEq, Prod.mk.injEq, true_and] at heq
  have hf : f ≤ s.replacer_.replacer_size_ := by
    rw [h.capacity]
    exact le_of_lt (h.table _ _ hres)
  have hfind := LRUKReplacer.SetEvictable_find_self s.replacer_ f true hf
  have hfind1 : UMap.find s1.replacer_.node_store_ f
      = some { (UMap.find s.replacer_.node_store_ f).getD LRUKNode.fresh with
               is_evictable_ := true } := by
    rw [heq]
    exact hfind
  obtain ⟨res, s2, hnew, hiff, _⟩ := hwf1.NewPage_spec (by omega)
  cases res with
  | none =>
    have hsz := (hiff.1 rfl).2
    have hall := hwf1.replacer.Size_zero_iff.1 hsz _ (UMap.find_some_mem hfind1)
    simp at hall
  | some pf =>
    obtain ⟨new_id, g⟩ := pf
    exact ⟨new_id, g, s2, hnew⟩

/-- Scenario S3 for every pool size: after as many `NewPage` calls as the pool
has frames, every frame is pinned, `NewPage` returns null, and after unpinning
any one of the pages `NewPage` succeeds. -/
theorem BufferPoolManager.pinned_pool (n page_size k : Nat) (hn : 1 ≤ n) (hn' : n < 2 ^ 31)
    (hk : 1 ≤ k) :
    ∃ ids full, BufferPoolManager.NewPages n (BufferPoolManager.new n page_size k)
        = some (ids, full) ∧ ids.length = n ∧
      (∀ i, i < n → ∃ pg, full.pages_[i]? = some pg ∧ 1 ≤ pg.pin_count_) ∧
      full.NewPage = some (none, full) ∧
      ∀ p ∈ ids, ∀ d, ∃ s1, full.UnpinPage p d = some (some true, s1) ∧
        ∃ new_id g s2, s1.NewPage = some (some (new_id, g), s2) := by
  obtain ⟨s1, node0, hfirst, hfill1, hev0, _, _⟩ :=
    BufferPoolManager.first_NewPage n page_size k hn hn' hk
  obtain ⟨full, hrest, hfill, _⟩ := hfill1.fill (n - 1) (le_refl 1) rfl
  have hall : BufferPoolManager.NewPages n (BufferPoolManager.new n page_size k)
      = some ((0 : Int) :: (List.range' 1 (n - 1)).map (fun i : Nat => (i : Int)), full) := by
    obtain ⟨m, rfl⟩ : ∃ m, n = m + 1 := ⟨n - 1, by omega⟩
    simp only [Nat.add_sub_cancel] at hrest
    simp only [BufferPoolManager.NewPages, hfirst, hrest, Nat.add_sub_cancel]
  have hwf : full.WF n := by
    have h0 := BufferPoolManager.WF.fresh_pool n page_size k hk
    have := h0.pool_calls (List.replicate n PoolCall.NewPage)
      (by have := pool_bound_of_small hn' (Nat.zero_le 8); simp; omega)
      (BufferPoolManager.NewPages_run hall)
    simpa using this
  have hbound : 2 * n + 2 ≤ SIZE_MAX := by
    have := pool_bound_of_small hn' (Nat.zero_le 8)
    omega
  refine ⟨_, full, hall, by simp; omega, ?_, ?_, ?_⟩
  · intro i hi
    by_cases hi0 : i = 0
    · subst hi0
      exact ⟨_, hfill.frame0, le_refl _⟩
    · obtain ⟨pg, hpg, hpin, _⟩ := hfill.pinned i (by omega) hi
      exact ⟨pg, hpg, by omega⟩
  · obtain ⟨res, s', hnew, hiff, hsame⟩ := hwf.NewPage_spec (by omega)
    have hfree : full.free_list_ = [] := by
      rw [hfill.free]
      simp
    have hsz : full.replacer_.Size = 0 := by
      rw [hwf.replacer.Size_zero_iff]
      intro e he
      have hfind := UMap.find_of_mem hwf.replacer.keys he
      by_cases he0 : e.1 = 0
      · rw [he0, hfill.node0] at hfind
        cases hfind
        exact hev0
      · exact hfill.nodes e.1 e.2 he0 hfind
    have hres : res = none := hiff.2 ⟨hfree, hsz⟩
    rw [hres] at hnew
    rw [hsame hres] at hnew
    exact hnew
  · intro p hp d
    have hpage : ∃ f page, UMap.find full.page_table_ p = some f ∧
        full.pages_[f]? = some page ∧ page.pin_count_ = 1 := by
      rcases List.mem_cons.1 hp with rfl | hp
      · exact ⟨0, _, hfill.table0, hfill.frame0, rfl⟩
      · obtain ⟨i, hi, rfl⟩ := List.mem_map.1 hp
        rw [List.mem_range'_1] at hi
        obtain ⟨pg, hpg, hpin, _⟩ := hfill.pinned i hi.1 (by omega)
        exact ⟨i, pg, hfill.table i hi.1 (by omega), hpg, hpin⟩
    obtain ⟨f, page, hres, hpg, hpin⟩ := hpage
    have hun := BufferPoolManager.UnpinPage_last d hwf.latch hres hpg hpin
    exact ⟨_, hun, hwf.NewPage_after_unpin hbound d hres hpg hpin hun⟩

end bustub

namespace bustub

/-- The second half of the round trip, from a pool without free frame whose
only evictable frame `f` holds a page other than `p`, while `p` is not
resident and the disk holds `B` under `p`: `FetchPage(p)` evicts `f` and reads
`B` back into it. -/
theorem BufferPoolManager.WF.fetch_back {n : Nat} {s : BufferPoolManager} (h : s.WF n)
    (hn : 2 * n ≤ SIZE_MAX) {p : Int} {f : Nat} {c : Page} {m : LRUKNode} {B : List Nat}
    (hres : UMap.find s.page_table_ p = none) (hfree : s.free_list_ = [])
    (hpage : s.pages_[f]? = some c) (hpid : c.page_id_ ≠ p)
    (hnode : UMap.find s.replacer_.node_store_ f = some m) (hev : m.is_evictable_ = true)
    (hothers : ∀ g nd', g ≠ f → UMap.find s.replacer_.node_store_ g = some nd' →
      nd'.is_evictable_ = false)
    (hdisk : UMap.find s.disk_manager_.pages p = some B) :
    ∃ s' pg, s.FetchPage p = some (some f, s') ∧ s'.pages_[f]? = some pg ∧
      pg.page_id_ = p ∧ pg.data_ = B := by
  have hflt : f < s.pages_.length := (List.getElem?_eq_some.1 hpage).1
  rcases s.replacer_.Evict_spec h.histories (h.replacer.back_lt hn) with
    ⟨_, hnone⟩ | ⟨e, he, heev, hE, _⟩
  · have := hnone _ (UMap.find_some_mem hnode)
    rw [hev] at this
    cases this
  · have hef : e.1 = f := by
      by_contra hne
      have := hothers e.1 e.2 hne (UMap.find_of_mem h.replacer.keys he)
      rw [heev] at this
      cases this
    rw [hef] at hE
    obtain ⟨r', _, hpin, _⟩ := BufferPoolManager.pinInReplacer_spec
      ({ s.replacer_ with
          curr_size_ := (s.replacer_.curr_size_ + SIZE_MOD - 1) % SIZE_MOD,
          node_store_ := UMap.erase s.replacer_.node_store_ f } : LRUKReplacer) f
      (by show f ≤ s.replacer_.replacer_size_
          rw [h.capacity, ← h.frames]
          omega) h.replacer.kpos
    have hfetch := BufferPoolManager.FetchPage_evict h.latch hres hfree hE hpage hpin
    have hread : ∀ disk' : DiskManager, UMap.find disk'.pages p = some B →
        ∀ buffer, disk'.ReadPage p buffer = B := by
      intro disk' hd buffer
      simp only [DiskManager.ReadPage, hd]
    refine ⟨_, _, hfetch, List.getElem?_set_self hflt, rfl, ?_⟩
    apply hread
    split
    · simp only [DiskManager.WritePage, UMap.find_assign_ne _ _ (Ne.symm hpid), hdisk]
    · exact hdisk

/-- C3 (round trip through eviction).  For every pool size `n ≥ 1` (within
the range of the 32-bit frame and page ids), every `k ≥ 1` and every
page-sized byte pattern `B`, starting from a fresh pool over an empty disk:
`NewPage` returns a page `p` in a frame `f`; after `B` is written into the
frame and `UnpinPage(p, true)` has returned true, `n` more `NewPage` calls
succeed, after which `p` is no longer resident and the disk holds `B` under
`p`; and for each page `q` among those `n`, and either dirty flag, after
`UnpinPage(q, d)` has returned true `FetchPage(p)` returns a frame whose page
id is `p` and whose bytes are `B`. -/
theorem C3_round_trip_through_eviction (n page_size k : Nat) (B : List Nat)
    (hn : 1 ≤ n) (hn' : n < 2 ^ 31) (hk : 1 ≤ k) (_hB : B.length = page_size) :
    ∃ p f s1 s3 ids s4,
      (BufferPoolManager.new n page_size k).NewPage = some (some (p, f), s1) ∧
      (s1.WriteData f B).UnpinPage p true = some (some true, s3) ∧
      BufferPoolManager.NewPages n s3 = some (ids, s4) ∧ ids.length = n ∧
      UMap.find s4.page_table_ p = none ∧
      UMap.find s4.disk_manager_.pages p = some B ∧
      ∀ q ∈ ids, ∀ d, ∃ s5 g s6 pg,
        s4.UnpinPage q d = some (some true, s5) ∧
        s5.FetchPage p = some (some g, s6) ∧
        s6.pages_[g]? = some pg ∧ pg.page_id_ = p ∧ pg.data_ = B := by
  -- the first page
  obtain ⟨s1, node0, hfirst, hfill1, hev0, _, hps1⟩ :=
    BufferPoolManager.first_NewPage n page_size k hn hn' hk
  have hbig : 2 * (n + 8) + 2 ≤ SIZE_MAX := pool_bound_of_small hn' (le_refl 8)
  have hwf0 := BufferPoolManager.WF.fresh_pool n page_size k hk
  have hwf1 : s1.WF 1 :=
    hwf0.pool_call (by omega) .NewPage (by simp [BufferPoolManager.call, hfirst])
  -- the client writes `B`
  have hwrite : s1.WriteData 0 B =
      { s1 with
        pages_ := s1.pages_.set 0
          { data_ := B, page_id_ := 0, pin_count_ := 1, is_dirty_ := false } } := by
    simp only [BufferPoolManager.WriteData, hfill1.frame0]
  have hfill2 := hfill1.update0 (t := s1.WriteData 0 B)
    (a := { data_ := B, page_id_ := 0, pin_count_ := 1, is_dirty_ := false })
    (b := node0) (le_refl 1) (by rw [hwrite]; exact hfill1.latch) (by rw [hwrite])
    (by rw [hwrite]) (by rw [hwrite]) (by rw [hwrite]) (by rw [hwrite])
    (by rw [hwrite]; exact hfill1.node0) (by intro g _; rw [hwrite]) (by rw [hwrite])
    (by rw [hwrite]) (by rw [hwrite]) (by rw [hwrite])
  have hwf2 : (s1.WriteData 0 B).WF 1 := hwf1.WriteData 0 B
  -- the page is unpinned, dirty
  have hun := BufferPoolManager.UnpinPage_last true hfill2.latch hfill2.table0 hfill2.frame0 rfl
  have hcap2 : 0 ≤ (s1.WriteData 0 B).replacer_.replacer_size_ := Nat.zero_le _
  have hfill3 := hfill2.update0
    (t := { s1.WriteData 0 B with
      pages_ := (s1.WriteData 0 B).pages_.set 0
        { data_ := B, page_id_ := 0, pin_count_ := 0, is_dirty_ := true },
      replacer_ := (s1.WriteData 0 B).replacer_.SetEvictable 0 true })
    (a := { data_ := B, page_id_ := 0, pin_count_ := 0, is_dirty_ := true })
    (b := { node0 with is_evictable_ := true }) (le_refl 1) hfill2.latch rfl rfl rfl
    (LRUKReplacer.SetEvictable_fields _ _ _).1 (LRUKReplacer.SetEvictable_fields _ _ _).2.1
    (by
      show UMap.find ((s1.WriteData 0 B).replacer_.SetEvictable 0 true).node_store_ 0 = _
      rw [LRUKReplacer.SetEvictable_find_self _ _ _ hcap2, hfill2.node0]
      rfl)
    (fun g hg => LRUKReplacer.SetEvictable_find_ne _ _ _ hg) rfl rfl rfl rfl
  have hcall3 : (s1.WriteData 0 B).call (.UnpinPage 0 true) = some
      { s1.WriteData 0 B with
        pages_ := (s1.WriteData 0 B).pages_.set 0
          { data_ := B, page_id_ := 0, pin_count_ := 0, is_dirty_ := true },
        replacer_ := (s1.WriteData 0 B).replacer_.SetEvictable 0 true } := by
    simp only [BufferPoolManager.call, hun, Option.map_some']
    rfl
  have hwf3 := hwf2.pool_call (by omega) _ hcall3
  -- the free list is used up
  obtain ⟨s4', hrest, hfill4, hps4⟩ := hfill3.fill (n - 1) (le_refl 1) rfl
  have hwf4' : s4'.WF (2 + (n - 1)) := by
    have := hwf3.pool_calls (List.replicate (n - 1) PoolCall.NewPage)
      (by simp; omega)
      (BufferPoolManager.NewPages_run hrest)
    simpa using this
  have hb4 : 2 * (2 + (n - 1)) + 2 ≤ SIZE_MAX := by omega
  have hfree4 : s4'.free_list_ = [] := by
    rw [hfill4.free]
    simp
  -- the next `NewPage` evicts frame 0
  have hE4 : s4'.replacer_.Evict = some (some 0,
      { s4'.replacer_ with
        curr_size_ := (s4'.replacer_.curr_size_ + SIZE_MOD - 1) % SIZE_MOD,
        node_store_ := UMap.erase s4'.replacer_.node_store_ 0 }) := by
    rcases s4'.replacer_.Evict_spec hwf4'.histories (hwf4'.replacer.back_lt (by omega)) with
      ⟨_, hnone⟩ | ⟨e, he, heev, hE, _⟩
    · have := hnone _ (UMap.find_some_mem hfill4.node0)
      cases this
    · have he0 : e.1 = 0 := by
        by_contra hne
        have := hfill4.nodes e.1 e.2 hne (UMap.find_of_mem hwf4'.replacer.keys he)
        rw [heev] at this
        cases this
      rw [he0] at hE
      exact hE
  obtain ⟨r4, nd4, hpin4, hfind4, hev4, _, hother4, _, _⟩ :=
    BufferPoolManager.pinInReplacer_spec
      ({ s4'.replacer_ with
          curr_size_ := (s4'.replacer_.curr_size_ + SIZE_MOD - 1) % SIZE_MOD,
          node_store_ := UMap.erase s4'.replacer_.node_store_ 0 } : LRUKReplacer) 0
      (Nat.zero_le _) hfill4.kpos
  have hnew4 := BufferPoolManager.NewPage_evict hfill4.latch hfree4 hE4 hfill4.frame0 hpin4
  rw [hfill4.next, hfill4.disk] at hnew4
  simp only [if_true] at hnew4
  have hall := BufferPoolManager.NewPages_snoc hrest hnew4
  have hnn : n - 1 + 1 = n := by omega
  rw [hnn] at hall
  have hwf4 := hwf4'.pool_call hb4 .NewPage
    (by simp only [BufferPoolManager.call, hnew4, Option.map_some']; rfl)
  have hn0 : (0 : Int) ≠ (n : Int) := by omega
  refine ⟨0, 0, s1, _, _, _, hfirst, hun, hall, by simp; omega, ?_, ?_, ?_⟩
  · show UMap.find (UMap.assign (UMap.erase s4'.page_table_ 0) (n : Int) 0) 0 = none
    rw [UMap.find_assign_ne _ _ hn0, UMap.find_erase_self]
  · show UMap.find (DiskManager.WritePage { pages := [] } 0 B).pages 0 = some B
    simp [DiskManager.WritePage, UMap.assign, UMap.find]
  · intro q hq d
    -- the frame and the page behind `q`
    have hq' : ∃ f page, f < n ∧ q ≠ 0 ∧
        UMap.find (UMap.assign (UMap.erase s4'.page_table_ 0) (n : Int) 0) q = some f ∧
        (s4'.pages_.set 0
          { Page.ResetMemory s4'.page_size_
              { data_ := B, page_id_ := 0, pin_count_ := 0, is_dirty_ := true } with
            page_id_ := (n : Int), pin_count_ := (0 : Int) + 1 })[f]? = some page ∧
        page.pin_count_ = 1 ∧ page.page_id_ = q := by
      rcases List.mem_append.1 hq with hq | hq
      · obtain ⟨i, hi, rfl⟩ := List.mem_map.1 hq
        rw [List.mem_range'_1] at hi
        obtain ⟨pg, hpg, hpin, hpid, _⟩ := hfill4.pinned i hi.1 (by omega)
        refine ⟨i, pg, by omega, by omega, ?_, ?_, hpin, hpid⟩
        · rw [UMap.find_assign_ne _ _ (by omega), UMap.find_erase_ne (by omega)]
          exact hfill4.table i hi.1 (by omega)
        · rw [List.getElem?_set_ne (by omega)]
          exact hpg
      · rw [List.mem_singleton] at hq
        subst hq
        have h0lt : 0 < s4'.pages_.length := by rw [hfill4.frames]; omega
        exact ⟨0, _, by omega, by omega, UMap.find_assign_self _ _ _,
          List.getElem?_set_self h0lt, rfl, rfl⟩
    obtain ⟨f, page, hfn, hq0, hres, hpage, hpin, hpid⟩ := hq'
    have hun5 := BufferPoolManager.UnpinPage_last d hwf4.latch hres hpage hpin
    have hwf5 := hwf4.pool_call (by omega) (.UnpinPage q d)
      (by simp only [BufferPoolManager.call, hun5, Option.map_some']; rfl)
    have hfcap : f ≤ r4.replacer_size_ := by
      have := hwf4.capacity
      have h2 := hwf4.frames
      have hlen := (List.getElem?_eq_some.1 hpage).1
      rw [List.length_set] at hlen
      have h3 : r4.replacer_size_ = s4'.pool_size_ := this
      have h4 : (s4'.pages_.set 0 _).length = s4'.pool_size_ := h2
      rw [List.length_set] at h4
      omega
    obtain ⟨s6, pg, hfetch, hpg6, hpid6, hdata6⟩ := hwf5.fetch_back (by omega)
      (p := 0) (f := f) (B := B)
      (c := { page with is_dirty_ := page.is_dirty_ || d, pin_count_ := 0 })
      (m := { (UMap.find r4.node_store_ f).getD LRUKNode.fresh with is_evictable_ := true })
      (by show UMap.find (UMap.assign (UMap.erase s4'.page_table_ 0) (n : Int) 0) 0 = none
          rw [UMap.find_assign_ne _ _ hn0, UMap.find_erase_self])
      hfree4
      (by show (List.set _ f _)[f]? = some _
          rw [List.getElem?_set_self (List.getElem?_eq_some.1 hpage).1])
      (by show page.page_id_ ≠ 0
          rw [hpid]
          exact hq0)
      (LRUKReplacer.SetEvictable_find_self r4 f true hfcap) rfl
      (by
        intro g nd' hg hfind
        have hfind' : UMap.find (r4.SetEvictable f true).node_store_ g = some nd' := hfind
        rw [LRUKReplacer.SetEvictable_find_ne _ _ _ hg] at hfind'
        by_cases hg0 : g = 0
        · subst hg0
          rw [hfind4] at hfind'
          cases hfind'
          exact hev4
        · rw [hother4 g hg0] at hfind'
          have hfind'' : UMap.find (UMap.erase s4'.replacer_.node_store_ 0) g = some nd' :=
            hfind'
          rw [UMap.find_erase_ne hg0] at hfind''
          exact hfill4.nodes g nd' hg0 hfind'')
      (by show UMap.find (DiskManager.WritePage { pages := [] } 0 B).pages 0 = some B
          simp [DiskManager.WritePage, UMap.assign, UMap.find])
    exact ⟨_, f, s6, pg, hun5, hfetch, hpg6, hpid6, hdata6⟩

end bustub

namespace bustub

/-! ## `FlushPage` -/

theorem UMap.replace_idem {κ ν : Type} [DecidableEq κ] (m : List (κ × ν)) (key : κ) (v : ν) :
    UMap.replace (UMap.replace m key v) key v = UMap.replace m key v := by
  induction m with
  | nil => simp [UMap.replace]
  | cons x m ih =>
    obtain ⟨a, u⟩ := x
    by_cases hk : a = key
    · simp [UMap.replace, hk, ih]
    · simp [UMap.replace, hk, ih]

theorem UMap.assign_idem {κ ν : Type} [DecidableEq κ] (m : List (κ × ν)) (key : κ) (v : ν) :
    UMap.assign (UMap.assign m key v) key v = UMap.assign m key v := by
  have hfind : UMap.find (UMap.assign m key v) key = some v := UMap.find_assign_self m key v
  cases h : UMap.find m key with
  | none =>
    simp only [UMap.assign, h, UMap.find_cons_self, UMap.replace, if_true,
      UMap.replace_of_find_none h]
  | some w =>
    have h2 : UMap.find (UMap.replace m key v) key = some v :=
      UMap.find_replace_self (UMap.mem_keys_of_find_some h)
    simp only [UMap.assign, h, h2, UMap.replace_idem]

theorem BufferPoolManager.FlushPage_absent {s : BufferPoolManager} {page_id : Int}
    (hl : s.latch_ = false) (hres : UMap.find s.page_table_ page_id = none) :
    s.FlushPage page_id = some (false, s) := by
  have hl' : ¬ s.latch_ = true := by rw [hl]; simp
  simp only [BufferPoolManager.FlushPage, if_neg hl', hres]

theorem BufferPoolManager.FlushPage_resident {s : BufferPoolManager} {page_id : Int} {f : Nat}
    {page : Page} (hl : s.latch_ = false) (hres : UMap.find s.page_table_ page_id = some f)
    (hpage : s.pages_[f]? = some page) :
    s.FlushPage page_id = some (true,
      { s with
        disk_manager_ := s.disk_manager_.WritePage page_id page.data_,
        pages_ := s.pages_.set f { page with is_dirty_ := false } }) := by
  have hl' : ¬ s.latch_ = true := by rw [hl]; simp
  simp only [BufferPoolManager.FlushPage, if_neg hl', hres, hpage]

end bustub

namespace bustub

/-! ## `Size()` counts the evictable nodes -/

theorem LRUKReplacer.Counted.widen {n m : Nat} {r : LRUKReplacer} (h : r.Counted n)
    (hnm : n ≤ m) : r.Counted m :=
  { h with count := le_trans h.count hnm }

theorem LRUKReplacer.Counted.size_le {n : Nat} {r : LRUKReplacer} (h : r.Counted n) :
    r.curr_size_ ≤ n := by
  rw [h.size]
  exact le_trans (List.countP_le_length _) h.count

/-- Replacing a stored node by one with the same evictable flag changes neither
the keys nor the count. -/
theorem LRUKReplacer.Counted.replace_same_flag {n : Nat} {r : LRUKReplacer} (h : r.Counted n)
    {f : Nat} {nd w : LRUKNode} (ts : Nat) (hfind : UMap.find r.node_store_ f = some nd)
    (hev : w.is_evictable_ = nd.is_evictable_) :
    ({ r with node_store_ := UMap.replace r.node_store_ f w,
              current_timestamp_ := ts } : LRUKReplacer).Counted n := by
  have hc := UMap.countP_replace (w := w) isEvictable h.keys hfind
  simp only [isEvictable, hev] at hc
  constructor
  · simpa [UMap.replace_keys] using h.keys
  · simpa [UMap.replace_length] using h.count
  · show r.curr_size_ = _
    rw [h.size]
    simp only [isEvictable]
    omega
  · intro e he
    rcases UMap.mem_replace he with rfl | ⟨hem, _⟩
    · exact h.bound (f, nd) (UMap.find_some_mem hfind)
    · exact h.bound e hem

theorem LRUKReplacer.Counted.after_access {n : Nat} {r r' : LRUKReplacer} {f : Nat}
    (h : r.Counted n) (he : r.RecordAccess f = some r') :
    r'.Counted (n + 1) ∧ r'.curr_size_ = r.curr_size_ := by
  unfold LRUKReplacer.RecordAccess at he
  split at he
  · cases he
  · rename_i hf
    split at he
    · rename_i hfind
      cases he
      refine ⟨?_, rfl⟩
      constructor
      · simp only [List.map_cons, List.nodup_cons]
        exact ⟨UMap.not_mem_keys_of_find_none hfind, h.keys⟩
      · simp only [List.length_cons]
        have := h.count
        omega
      · simp only [List.countP_cons, isEvictable]
        simpa using h.size
      · intro e hmem
        rcases List.mem_cons.1 hmem with rfl | hmem
        · show f ≤ r.replacer_size_
          omega
        · exact h.bound e hmem
    · rename_i nd hfind
      dsimp only at he
      split at he
      · split at he
        · cases he
        · cases he
          exact ⟨LRUKReplacer.Counted.widen (h.replace_same_flag _ hfind (by rfl)) (Nat.le_succ n), rfl⟩
      · cases he
        exact ⟨LRUKReplacer.Counted.widen (h.replace_same_flag _ hfind (by rfl)) (Nat.le_succ n), rfl⟩

/-- `SetEvictable` on a frame id within the bound: the count stays right, and
`Size()` moves by one exactly when the flag changes. -/
theorem LRUKReplacer.Counted.SetEvictable_in {n : Nat} {r : LRUKReplacer} (h : r.Counted n)
    (hn : n < SIZE_MAX) (f : Nat) (b : Bool) (hf : f ≤ r.replacer_size_) :
    (r.SetEvictable f b).Counted (n + 1) ∧
    (((UMap.find r.node_store_ f).getD LRUKNode.fresh).is_evictable_ = false → b = true →
      (r.SetEvictable f b).Size = r.Size + 1) ∧
    (((UMap.find r.node_store_ f).getD LRUKNode.fresh).is_evictable_ = true → b = false →
      (r.SetEvictable f b).Size + 1 = r.Size) ∧
    (((UMap.find r.node_store_ f).getD LRUKNode.fresh).is_evictable_ = b →
      (r.SetEvictable f b).Size = r.Size) := by
  have hsz := h.size_le
  rcases LRUKReplacer.SetEvictable_cases r f b hf with ⟨hfind, heq⟩ | ⟨nd, hfind, heq⟩
  · rw [heq, hfind]
    simp only [Option.getD_none, LRUKNode.fresh, LRUKReplacer.Size]
    refine ⟨?_, ?_, ?_, ?_⟩
    · constructor
      · simp only [List.map_cons, List.nodup_cons]
        exact ⟨UMap.not_mem_keys_of_find_none hfind, h.keys⟩
      · simp only [List.length_cons]
        have := h.count
        omega
      · cases b
        · simp only [List.countP_cons, isEvictable]
          simpa using h.size
        · simp only [List.countP_cons, isEvictable, if_true]
          rw [size_succ_mod (by omega), h.size]
      · intro e hmem
        rcases List.mem_cons.1 hmem with rfl | hmem
        · exact hf
        · exact h.bound e hmem
    · intro _ hb
      subst hb
      simp only [if_true]
      exact size_succ_mod (by omega)
    · intro hc
      cases hc
    · intro hb
      subst hb
      simp
  · rw [heq, hfind]
    have hmem : (f, nd) ∈ r.node_store_ := UMap.find_some_mem hfind
    have hc := UMap.countP_replace (w := { nd with is_evictable_ := b }) isEvictable h.keys hfind
    simp only [isEvictable] at hc
    have hsize := h.size
    simp only [isEvictable] at hsize
    have hpos : nd.is_evictable_ = true → 1 ≤ r.curr_size_ := by
      intro hev
      rw [h.size]
      exact List.countP_pos_iff.2 ⟨(f, nd), hmem, by simpa [isEvictable] using hev⟩
    simp only [Option.getD_some, LRUKReplacer.Size]
    refine ⟨?_, ?_, ?_, ?_⟩
    · constructor
      · simpa [UMap.replace_keys] using h.keys
      · simp only [UMap.replace_length]
        have := h.count
        omega
      · show _ = List.countP isEvictable _
        simp only [isEvictable]
        cases hnd : nd.is_evictable_ <;> cases b <;> simp only [hnd] at hc ⊢
        · simp at hc ⊢; omega
        · simp at hc ⊢
          rw [size_succ_mod (by omega)]
          omega
        · have := hpos hnd
          simp at hc ⊢
          rw [size_pred_mod (by omega) (by omega)]
          omega
        · simp at hc ⊢; omega
      · intro e he
        rcases UMap.mem_replace he with rfl | ⟨hem, _⟩
        · exact hf
        · exact h.bound e hem
    · intro hev hb
      subst hb
      simp only [hev]
      simp only [Bool.false_eq_true, false_and, and_self, if_true, if_false]
      exact size_succ_mod (by omega)
    · intro hev hb
      subst hb
      have := hpos hev
      simp only [hev, and_self, if_true]
      rw [size_pred_mod (by omega) (by omega)]
      omega
    · intro hev
      subst hev
      cases hnd : nd.is_evictable_ <;> simp

theorem LRUKReplacer.Counted.after_flag {n : Nat} {r : LRUKReplacer} (h : r.Counted n)
    (hn : n < SIZE_MAX) (f : Nat) (b : Bool) : (r.SetEvictable f b).Counted (n + 1) := by
  by_cases hf : f ≤ r.replacer_size_
  · exact (h.SetEvictable_in hn f b hf).1
  · have hf' : f > r.replacer_size_ := by omega
    simp only [LRUKReplacer.SetEvictable, if_pos hf']
    exact h.widen (Nat.le_succ n)

/-- Erasing an evictable node lowers `Size()` by exactly one. -/
theorem LRUKReplacer.Counted.after_erase {n : Nat} {r t : LRUKReplacer} (h : r.Counted n)
    (hn : n ≤ SIZE_MAX) {f : Nat} {nd : LRUKNode} (hfind : UMap.find r.node_store_ f = some nd)
    (hev : nd.is_evictable_ = true)
    (hstore : t.node_store_ = UMap.erase r.node_store_ f)
    (hsize : t.curr_size_ = (r.curr_size_ + SIZE_MOD - 1) % SIZE_MOD)
    (hcap : t.replacer_size_ = r.replacer_size_) :
    t.Counted n ∧ t.curr_size_ + 1 = r.curr_size_ := by
  have hc := UMap.countP_erase isEvictable h.keys hfind
  simp only [isEvictable, hev, if_true] at hc
  have hsz := h.size_le
  have hsize' := h.size
  have hmod : (r.curr_size_ + SIZE_MOD - 1) % SIZE_MOD = r.curr_size_ - 1 :=
    size_pred_mod (by omega) (by omega)
  rw [hmod] at hsize
  refine ⟨?_, by omega⟩
  constructor
  · rw [hstore]
    exact UMap.erase_keys_nodup f h.keys
  · rw [hstore]
    exact le_trans (UMap.erase_length_le _ _) h.count
  · rw [hstore, hsize]
    omega
  · intro e he
    rw [hstore] at he
    rw [hcap]
    exact h.bound e (UMap.mem_erase.1 he).1

theorem LRUKReplacer.Counted.after_remove {n : Nat} {r : LRUKReplacer} (h : r.Counted n)
    (hn : n ≤ SIZE_MAX) (f : Nat) : (r.Remove f).Counted n := by
  unfold LRUKReplacer.Remove
  split
  · exact h
  · split
    · exact h
    · rename_i nd hfind
      split
      · rename_i hev
        refine And.left (h.after_erase hn hfind hev ?_ ?_ ?_) <;> rfl
      · exact h

theorem LRUKReplacer.Counted.after_evict {n : Nat} {r r' : LRUKReplacer} {res : Option Nat}
    (h : r.Counted n) (hn : n ≤ SIZE_MAX) (he : r.Evict = some (res, r')) :
    r'.Counted n ∧ (res ≠ none → r'.Size + 1 = r.Size) := by
  rcases LRUKReplacer.Evict_some he with ⟨h1, h2⟩ | ⟨e, hem, hev, _, hr'⟩
  · subst h1
    subst h2
    exact ⟨h, fun hc => absurd rfl hc⟩
  · have hfind : UMap.find r.node_store_ e.1 = some e.2 := UMap.find_of_mem h.keys hem
    obtain ⟨h1, h2⟩ := h.after_erase hn hfind hev (t := r') (by rw [hr']) (by rw [hr'])
      (by rw [hr'])
    exact ⟨h1, fun _ => h2⟩

theorem LRUKReplacer.Counted.permuted {n : Nat} {r : LRUKReplacer} (h : r.Counted n)
    {store : List (Nat × LRUKNode)} (hp : store.Perm r.node_store_) :
    ({ r with node_store_ := store } : LRUKReplacer).Counted n where
  keys := (hp.map Prod.fst).nodup_iff.2 h.keys
  count := by simpa [hp.length_eq] using h.count
  size := by simpa [hp.countP_eq] using h.size
  bound := fun e he => h.bound e (hp.mem_iff.1 he)

/-- In every reachable replacer state, for every `k`, `curr_size_` counts the
evictable nodes, as long as the number of calls stays below the range of
`size_t`. -/
theorem LRUKReplacer.Reachable.counted {num_frames k n : Nat} {r : LRUKReplacer}
    (h : LRUKReplacer.Reachable num_frames k n r) (hn : n ≤ SIZE_MAX) : r.Counted n := by
  induction h with
  | fresh =>
    constructor <;> simp [LRUKReplacer.new]
  | @call n r r' c _ hc ih =>
    have hcnt := ih (by omega)
    have hlt : n < SIZE_MAX := by omega
    cases c with
    | RecordAccess f =>
      exact (hcnt.after_access hc).1
    | SetEvictable f b =>
      simp only [LRUKReplacer.call, Option.some.injEq] at hc
      subst hc
      exact hcnt.after_flag hlt f b
    | Remove f =>
      simp only [LRUKReplacer.call, Option.some.injEq] at hc
      subst hc
      exact (hcnt.after_remove (by omega) f).widen (Nat.le_succ n)
    | Evict =>
      simp only [LRUKReplacer.call] at hc
      cases hev : r.Evict with
      | none => simp [hev] at hc
      | some p =>
        obtain ⟨res, r''⟩ := p
        simp only [hev, Option.map_some', Option.some.injEq] at hc
        subst hc
        exact (hcnt.after_evict (by omega) hev).1.widen (Nat.le_succ n)
  | @rehash n r store _ hp ih =>
    exact (ih hn).permuted hp

end bustub

namespace bustub

/-! ## The replacer never marks a pinned frame evictable -/

theorem BufferPoolManager.EvictableUnpinned.at_start (pool_size page_size k : Nat) :
    (BufferPoolManager.new pool_size page_size k).EvictableUnpinned := by
  intro f nd hfind
  simp [BufferPoolManager.new, LRUKReplacer.new, UMap.find] at hfind

/-- An acquisition of frame `f` keeps evictable frames unpinned: the node of
`f` is not evictable afterwards, and nothing else changes. -/
theorem BufferPoolManager.EvictableUnpinned.after_acquire {s t : BufferPoolManager}
    (h : s.EvictableUnpinned) {r0 r' : LRUKReplacer} {f : Nat} {q : Page}
    (hf : f ≤ r0.replacer_size_) (hk : 1 ≤ r0.k_)
    (hr0keep : ∀ g, g ≠ f → UMap.find r0.node_store_ g = UMap.find s.replacer_.node_store_ g)
    (hpin : BufferPoolManager.pinInReplacer r0 f = some r')
    (h_pages : t.pages_ = s.pages_.set f q) (h_rep : t.replacer_ = r') :
    t.EvictableUnpinned := by
  obtain ⟨r'', nd', hpin', hfind', hev', _, hother, _, _⟩ :=
    BufferPoolManager.pinInReplacer_spec r0 f hf hk
  rw [hpin] at hpin'
  cases hpin'
  intro g nd hfind hev
  rw [h_rep] at hfind
  by_cases hgf : g = f
  · subst hgf
    rw [hfind'] at hfind
    cases hfind
    rw [hev'] at hev
    cases hev
  · rw [hother g hgf, hr0keep g hgf] at hfind
    rw [h_pages, List.getElem?_set_ne (fun h' => hgf h'.symm)]
    exact h g nd hfind hev

/-- A change of one frame that leaves its pin count alone, or brings it to
zero, keeps evictable frames unpinned when the replacer keeps its nodes. -/
theorem BufferPoolManager.EvictableUnpinned.touch {s t : BufferPoolManager}
    (h : s.EvictableUnpinned) {f : Nat} {page q : Page} (hpage : s.pages_[f]? = some page)
    (hq : q.pin_count_ = page.pin_count_ ∨ q.pin_count_ = 0)
    (h_pages : t.pages_ = s.pages_.set f q)
    (h_rep : ∀ g nd, UMap.find t.replacer_.node_store_ g = some nd →
      nd.is_evictable_ = true → g = f ∧ q.pin_count_ = 0 ∨
        UMap.find s.replacer_.node_store_ g = some nd) :
    t.EvictableUnpinned := by
  have hlt : f < s.pages_.length := (List.getElem?_eq_some.1 hpage).1
  intro g nd hfind hev
  by_cases hgf : g = f
  · subst hgf
    rw [h_pages, List.getElem?_set_self hlt]
    refine ⟨q, rfl, ?_⟩
    rcases h_rep g nd hfind hev with ⟨_, h0⟩ | hold
    · exact h0
    · obtain ⟨pg, hpg, hpin⟩ := h g nd hold hev
      rw [hpage] at hpg
      cases hpg
      rcases hq with hq | hq
      · rw [hq]; exact hpin
      · exact hq
  · rw [h_pages, List.getElem?_set_ne (fun h' => hgf h'.symm)]
    rcases h_rep g nd hfind hev with ⟨hc, _⟩ | hold
    · exact absurd hc hgf
    · exact h g nd hold hev

theorem BufferPoolManager.EvictableUnpinned.after_call {n : Nat} {s s' : BufferPoolManager}
    (hwf : s.WF n) (hn : 2 * n ≤ SIZE_MAX) (h : s.EvictableUnpinned) (c : PoolCall)
    (hc : s.call c = some s') : s'.EvictableUnpinned := by
  have hl : ¬ s.latch_ = true := by rw [hwf.latch]; simp
  have hkpos := hwf.replacer.kpos
  cases c with
  | NewPage =>
    simp only [BufferPoolManager.call] at hc
    cases hop : s.NewPage with
    | none => simp [hop] at hc
    | some p =>
      obtain ⟨res, s''⟩ := p
      simp only [hop, Option.map_some', Option.some.injEq] at hc
      subst hc
      unfold BufferPoolManager.NewPage at hop
      rw [if_neg hl] at hop
      split at hop
      · rename_i frameId rest hfree
        have hf := hwf.free frameId (by rw [hfree]; exact List.mem_cons_self _ _)
        dsimp only at hop
        split at hop
        · cases hop
        · split at hop
          · cases hop
          · rename_i replacer hpin
            cases hop
            exact h.after_acquire (by rw [hwf.capacity]; omega) hkpos (fun _ _ => rfl) hpin rfl rfl
      · split at hop
        · cases hop
        · cases hop
          exact h
        · rename_i frameId evicted hev
          obtain ⟨hewf, hesize, hf, hkeep, _⟩ := hwf.evicted hn hev
          split at hop
          · cases hop
          · dsimp only at hop
            split at hop
            · cases hop
            · rename_i replacer hpin
              cases hop
              exact h.after_acquire (by rw [hesize]; omega) hewf.kpos hkeep hpin rfl rfl
  | FetchPage page_id =>
    simp only [BufferPoolManager.call] at hc
    cases hop : s.FetchPage page_id with
    | none => simp [hop] at hc
    | some p =>
      obtain ⟨res, s''⟩ := p
      simp only [hop, Option.map_some', Option.some.injEq] at hc
      subst hc
      unfold BufferPoolManager.FetchPage at hop
      rw [if_neg hl] at hop
      split at hop
      · rename_i frameId hres
        split at hop
        · cases hop
        · rename_i replacer hrec
          cases hop
          obtain ⟨nd', hnd', _, hev'⟩ := LRUKReplacer.RecordAccess_find_self hrec
          intro g nd hfind hev
          have hfind' : UMap.find replacer.node_store_ g = some nd := hfind
          show ∃ pg, s.pages_[g]? = some pg ∧ pg.pin_count_ = 0
          by_cases hgf : g = frameId
          · subst hgf
            rw [hnd'] at hfind'
            cases hfind'
            rw [hev] at hev'
            cases hold : UMap.find s.replacer_.node_store_ g with
            | none =>
              rw [hold] at hev'
              simp [LRUKNode.fresh] at hev'
            | some nd0 =>
              rw [hold] at hev'
              exact h g nd0 hold hev'.symm
          · rw [LRUKReplacer.RecordAccess_find_ne hrec hgf] at hfind'
            exact h g nd hfind' hev
      · split at hop
        · rename_i frameId rest hfree
          have hf := hwf.free frameId (by rw [hfree]; exact List.mem_cons_self _ _)
          split at hop
          · cases hop
          · split at hop
            · cases hop
            · rename_i replacer hpin
              cases hop
              exact h.after_acquire (by rw [hwf.capacity]; omega) hkpos (fun _ _ => rfl) hpin rfl rfl
        · split at hop
          · cases hop
          · cases hop
            exact h
          · rename_i frameId evicted hev
            obtain ⟨hewf, hesize, hf, hkeep, _⟩ := hwf.evicted hn hev
            split at hop
            · cases hop
            · dsimp only at hop
              split at hop
              · cases hop
              · rename_i replacer hpin
                cases hop
                exact h.after_acquire (by rw [hesize]; omega) hewf.kpos hkeep hpin rfl rfl
  | UnpinPage page_id is_dirty =>
    simp only [BufferPoolManager.call] at hc
    cases hop : s.UnpinPage page_id is_dirty with
    | none => simp [hop] at hc
    | some p =>
      obtain ⟨res, s''⟩ := p
      simp only [hop, Option.map_some', Option.some.injEq] at hc
      subst hc
      unfold BufferPoolManager.UnpinPage at hop
      rw [if_neg hl] at hop
      split at hop
      · cases hop
        exact h
      · rename_i frameId hres
        split at hop
        · cases hop
        · rename_i page hpage
          dsimp only at hop
          split at hop
          · cases hop
            exact h.touch hpage (Or.inl (by rfl)) rfl (fun g nd hfind _ => Or.inr hfind)
          · rename_i hzero
            split at hop
            · rename_i hone
              cases hop
              refine h.touch hpage (Or.inr hone) rfl ?_
              intro g nd hfind _
              have hfind' : UMap.find (s.replacer_.SetEvictable frameId true).node_store_ g
                  = some nd := hfind
              by_cases hgf : g = frameId
              · exact Or.inl ⟨hgf, hone⟩
              · rw [LRUKReplacer.SetEvictable_find_ne _ _ _ hgf] at hfind'
                exact Or.inr hfind'
            · rename_i hone
              cases hop
              intro g nd hfind hev
              have hfind' : UMap.find s.replacer_.node_store_ g = some nd := hfind
              obtain ⟨pg, hpg, hpin⟩ := h g nd hfind' hev
              have hlt : frameId < s.pages_.length := (List.getElem?_eq_some.1 hpage).1
              show ∃ pg, (s.pages_.set frameId _)[g]? = some pg ∧ pg.pin_count_ = 0
              by_cases hgf : g = frameId
              · subst hgf
                rw [hpage] at hpg
                cases hpg
                exact absurd hpin hzero
              · rw [List.getElem?_set_ne (fun h' => hgf h'.symm)]
                exact ⟨pg, hpg, hpin⟩
  | FlushPage page_id =>
    simp only [BufferPoolManager.call] at hc
    cases hop : s.FlushPage page_id with
    | none => simp [hop] at hc
    | some p =>
      obtain ⟨res, s''⟩ := p
      simp only [hop, Option.map_some', Option.some.injEq] at hc
      subst hc
      unfold BufferPoolManager.FlushPage at hop
      rw [if_neg hl] at hop
      split at hop
      · cases hop
        exact h
      · split at hop
        · cases hop
        · rename_i page hpage
          cases hop
          exact h.touch hpage (Or.inl (by rfl)) rfl (fun g nd hfind _ => Or.inr hfind)
  | DeletePage page_id =>
    simp only [BufferPoolManager.call] at hc
    cases hop : s.DeletePage page_id with
    | none => simp [hop] at hc
    | some p =>
      obtain ⟨res, s''⟩ := p
      simp only [hop, Option.map_some', Option.some.injEq] at hc
      subst hc
      unfold BufferPoolManager.DeletePage at hop
      rw [if_neg hl] at hop
      split at hop
      · cases hop
        exact h
      · rename_i frameId hres
        split at hop
        · cases hop
        · rename_i page hpage
          split at hop
          · cases hop
            exact h
          · cases hop
            refine h.touch hpage (Or.inl (by rfl)) rfl ?_
            intro g nd hfind _
            have hfind' : UMap.find (s.replacer_.Remove frameId).node_store_ g = some nd :=
              hfind
            right
            by_cases hgf : g = frameId
            · subst hgf
              rcases LRUKReplacer.Remove_find_self s.replacer_ g with hsame | hnone
              · rw [hsame] at hfind'
                exact hfind'
              · rw [hnone] at hfind'
                cases hfind'
            · rw [LRUKReplacer.Remove_find_ne _ _ hgf] at hfind'
              exact hfind'

/-- In every reachable pool state the frames that the replacer marks evictable
have pin count zero. -/
theorem BufferPoolManager.Reachable.evictable_unpinned {pool_size page_size k n : Nat}
    {s : BufferPoolManager} (h : BufferPoolManager.Reachable pool_size page_size k n s)
    (hk : 1 ≤ k) (hn : 2 * n ≤ SIZE_MAX) : s.EvictableUnpinned := by
  induction h with
  | fresh => exact BufferPoolManager.EvictableUnpinned.at_start pool_size page_size k
  | @call n s s' c hreach hc ih =>
    exact (ih (by omega)).after_call (hreach.pool_wf hk (by omega)) (by omega) c hc
  | @rehash n s store hreach hp ih =>
    have hwf := hreach.pool_wf hk hn
    intro f nd hfind hev
    have hfind' : UMap.find store f = some nd := hfind
    rw [UMap.find_perm hwf.replacer.keys hp] at hfind'
    exact ih hn f nd hfind' hev

end bustub

namespace bustub

/-! ## Claims about the victim chosen by `Evict` -/

/-- C8 (infinity dominates finite distance).  For every `k ≥ 1` and every
replacer state reachable by `RecordAccess`, `SetEvictable`, `Remove` and
`Evict` (in fewer calls than `size_t` has values, so that the logical clock
has not wrapped), whatever the iteration order of the node store: if every
evictable frame has at least one recorded access and some evictable frame has
fewer than `k` recorded accesses, then `Evict` succeeds, and the frame it
returns and erases is an evictable frame with fewer than `k` recorded
accesses. -/
theorem C8_evict_prefers_fewer_than_k_accesses (num_frames k n : Nat) (r : LRUKReplacer)
    (hk : 1 ≤ k) (hn : n ≤ SIZE_MAX) (hr : LRUKReplacer.Reachable num_frames k n r)
    (hacc : ∀ e ∈ r.node_store_, e.2.is_evictable_ = true → 1 ≤ e.2.history_.length)
    (hfew : ∃ e ∈ r.node_store_, e.2.is_evictable_ = true ∧ e.2.history_.length < k) :
    ∃ e ∈ r.node_store_, e.2.is_evictable_ = true ∧ e.2.history_.length < k ∧
      r.Evict = some (some e.1,
        { r with curr_size_ := (r.curr_size_ + SIZE_MOD - 1) % SIZE_MOD,
                 node_store_ := UMap.erase r.node_store_ e.1 }) := by
  obtain ⟨hwf, hrk⟩ := hr.wf hk hn
  have hne : ∀ e ∈ r.node_store_, e.2.is_evictable_ = true → e.2.kDistance = SIZE_INFINITY →
      e.2.history_ ≠ [] := by
    intro e he hev _ hnil
    have := hacc e he hev
    rw [hnil] at this
    simp at this
  obtain ⟨z, hz, hzev, hzlen⟩ := hfew
  have hzk : z.2.kDistance = SIZE_INFINITY := hwf.inf z hz (by rw [hrk]; exact hzlen)
  rcases r.Evict_spec hne (hwf.back_lt hn) with ⟨_, hnone⟩ | ⟨e, he, hev, hE, hinf⟩
  · rw [hnone z hz] at hzev
    cases hzev
  · refine ⟨e, he, hev, ?_, hE⟩
    obtain ⟨hek, _⟩ := hinf ⟨z, hz, hzev, hzk⟩
    by_cases hk2 : 2 ≤ k
    · by_contra hlen
      exact hwf.fin (by rw [hrk]; exact hk2) e he (by rw [hrk]; omega) hek
    · have := hacc z hz hzev
      omega

/-- Witness for C8: in scenario S6 of the specification (`k = 2`, accesses to
frames 0, 1, 2, 0, 1, all three evictable) the theorem applies; the frame with
a single access is frame 2. -/
theorem C8_evict_prefers_fewer_than_k_accesses_witness :
    ∃ r, LRUKReplacer.run
        [.RecordAccess 0, .RecordAccess 1, .RecordAccess 2, .RecordAccess 0, .RecordAccess 1,
         .SetEvictable 0 true, .SetEvictable 1 true, .SetEvictable 2 true]
        (LRUKReplacer.new 3 2) = some r ∧
      (r.Evict).map Prod.fst = some (some 2) ∧
      ∃ e ∈ r.node_store_, e.2.is_evictable_ = true ∧ e.2.history_.length < 2 ∧
        r.Evict = some (some e.1,
          { r with curr_size_ := (r.curr_size_ + SIZE_MOD - 1) % SIZE_MOD,
                   node_store_ := UMap.erase r.node_store_ e.1 }) := by
  refine ⟨_, rfl, by decide, ?_⟩
  refine C8_evict_prefers_fewer_than_k_accesses 3 2 8 _ (by decide) (by decide) ?_
    (by decide) (by decide)
  exact LRUKReplacer.Reachable.fresh.run
    [.RecordAccess 0, .RecordAccess 1, .RecordAccess 2, .RecordAccess 0, .RecordAccess 1,
     .SetEvictable 0 true, .SetEvictable 1 true, .SetEvictable 2 true] rfl

/-- C9 (largest backward k-distance), evaluated at a failing input.  With
`k = 2`, after accesses to frame 0 at times 0 and 1, to frame 1 at times 2 and
4 and to frame 2 at time 3, frames 0 and 1 are evictable and both have two
accesses.  The second most recent access of frame 0 (time 0) is older than
that of frame 1 (time 2), so frame 0 has the largest backward 2-distance at
eviction time (5 - 0 against 5 - 2); `Evict` returns frame 1, because it
compares the distances stored at the last access of each frame (1 against
2). -/
theorem C9_evict_uses_stale_distance :
    ∃ r, LRUKReplacer.run
        [.RecordAccess 0, .RecordAccess 0, .RecordAccess 1, .RecordAccess 2, .RecordAccess 1,
         .SetEvictable 0 true, .SetEvictable 1 true]
        (LRUKReplacer.new 3 2) = some r ∧
      r.current_timestamp_ = 5 ∧
      UMap.find r.node_store_ 0
        = some { history_ := [0, 1], kDistance := 1, is_evictable_ := true } ∧
      UMap.find r.node_store_ 1
        = some { history_ := [2, 4], kDistance := 2, is_evictable_ := true } ∧
      UMap.find r.node_store_ 2
        = some { history_ := [3], kDistance := SIZE_INFINITY, is_evictable_ := false } ∧
      (r.Evict).map Prod.fst = some (some 1) ∧
      ¬ ∃ e ∈ r.node_store_, (r.Evict).map Prod.fst = some (some e.1) ∧
          ∀ z ∈ r.node_store_, z.2.is_evictable_ = true →
            ∀ a ∈ e.2.history_[e.2.history_.length - 2]?,
              ∀ c ∈ z.2.history_[z.2.history_.length - 2]?, a ≤ c :=
  ⟨_, rfl, by decide⟩

/-- C10 as stated fails.  With `k = 3`, after accesses to frame 0 at time 0, to
frame 1 at time 1 and to frame 0 at time 2, both frames are evictable with
fewer than three accesses; the first access of frame 0 (time 0) is the
earliest, and `Evict` returns frame 1. -/
theorem C10_counterexample :
    ∃ r, LRUKReplacer.run
        [.RecordAccess 0, .RecordAccess 1, .RecordAccess 0,
         .SetEvictable 0 true, .SetEvictable 1 true]
        (LRUKReplacer.new 2 3) = some r ∧
      UMap.find r.node_store_ 0
        = some { history_ := [0, 2], kDistance := SIZE_INFINITY, is_evictable_ := true } ∧
      UMap.find r.node_store_ 1
        = some { history_ := [1], kDistance := SIZE_INFINITY, is_evictable_ := true } ∧
      r.node_store_.length = 2 ∧
      (r.Evict).map Prod.fst = some (some 1) ∧
      ¬ ∃ e ∈ r.node_store_, (r.Evict).map Prod.fst = some (some e.1) ∧
          ∀ z ∈ r.node_store_, ∀ a ∈ e.2.history_.head?, ∀ c ∈ z.2.history_.head?, a ≤ c :=
  ⟨_, rfl, by decide⟩

/-- C10 as amended (tie-break among frames of infinite distance).  For every
`k ≥ 1` and every reachable replacer state (in fewer calls than `size_t` has
values), whatever the iteration order of the node store: when some evictable
frames have fewer than `k` recorded accesses, each of them with at least one,
`Evict` returns the one among them whose most recent recorded access is the
earliest: its last timestamp is strictly smaller than that of every other
evictable frame with fewer than `k` accesses. -/
theorem C10_evict_lru_among_fewer_than_k_accesses (num_frames k n : Nat) (r : LRUKReplacer)
    (hk : 1 ≤ k) (hn : n ≤ SIZE_MAX) (hr : LRUKReplacer.Reachable num_frames k n r)
    (hacc : ∀ e ∈ r.node_store_, e.2.is_evictable_ = true → e.2.history_.length < k →
      1 ≤ e.2.history_.length)
    (hfew : ∃ e ∈ r.node_store_, e.2.is_evictable_ = true ∧ e.2.history_.length < k) :
    ∃ e ∈ r.node_store_, e.2.is_evictable_ = true ∧ e.2.history_.length < k ∧
      r.Evict = some (some e.1,
        { r with curr_size_ := (r.curr_size_ + SIZE_MOD - 1) % SIZE_MOD,
                 node_store_ := UMap.erase r.node_store_ e.1 }) ∧
      ∃ b, e.2.history_.getLast? = some b ∧
        ∀ z ∈ r.node_store_, z.2.is_evictable_ = true → z.2.history_.length < k →
          z.1 ≠ e.1 → ∃ c, z.2.history_.getLast? = some c ∧ b < c := by
  obtain ⟨hwf, hrk⟩ := hr.wf hk hn
  have hne : ∀ e ∈ r.node_store_, e.2.is_evictable_ = true → e.2.kDistance = SIZE_INFINITY →
      e.2.history_ ≠ [] := by
    intro e he hev _ hnil
    have := hacc e he hev (by rw [hnil]; simpa using hk)
    rw [hnil] at this
    simp at this
  obtain ⟨z, hz, hzev, hzlen⟩ := hfew
  have hk2 : 2 ≤ k := by
    have := hacc z hz hzev hzlen
    omega
  have hzk : z.2.kDistance = SIZE_INFINITY := hwf.inf z hz (by rw [hrk]; exact hzlen)
  rcases r.Evict_spec hne (hwf.back_lt hn) with ⟨_, hnone⟩ | ⟨e, he, hev, hE, hinf⟩
  · rw [hnone z hz] at hzev
    cases hzev
  · obtain ⟨hek, b, hb, hmin⟩ := hinf ⟨z, hz, hzev, hzk⟩
    have hlen : e.2.history_.length < k := by
      by_contra hlen
      exact hwf.fin (by rw [hrk]; exact hk2) e he (by rw [hrk]; omega) hek
    refine ⟨e, he, hev, hlen, hE, b, hb, ?_⟩
    intro y hy hyev hylen hne'
    have hyk : y.2.kDistance = SIZE_INFINITY := hwf.inf y hy (by rw [hrk]; exact hylen)
    have hynil : y.2.history_ ≠ [] := hne y hy hyev hyk
    cases hc : y.2.history_.getLast? with
    | none =>
      rw [List.getLast?_eq_none_iff] at hc
      exact absurd hc hynil
    | some c =>
      refine ⟨c, rfl, ?_⟩
      have hle := hmin y hy hyev hyk c hc
      have hbm : b ∈ e.2.history_ := List.mem_of_getLast?_eq_some hb
      have hcm : c ∈ y.2.history_ := List.mem_of_getLast?_eq_some hc
      have hneq : b ≠ c := by
        intro heq
        exact hwf.apart e he y hy (fun h => hne' h.symm) b hbm (heq ▸ hcm)
      omega

/-- Witness for the amended C10: the state of the counterexample, where frame
1 (last access at time 1) is returned rather than frame 0 (last access at time
2). -/
theorem C10_evict_lru_among_fewer_than_k_accesses_witness :
    ∃ r, LRUKReplacer.run
        [.RecordAccess 0, .RecordAccess 1, .RecordAccess 0,
         .SetEvictable 0 true, .SetEvictable 1 true]
        (LRUKReplacer.new 2 3) = some r ∧
      ∃ e ∈ r.node_store_, e.2.is_evictable_ = true ∧ e.2.history_.length < 3 ∧
        r.Evict = some (some e.1,
          { r with curr_size_ := (r.curr_size_ + SIZE_MOD - 1) % SIZE_MOD,
                   node_store_ := UMap.erase r.node_store_ e.1 }) ∧
        ∃ b, e.2.history_.getLast? = some b ∧
          ∀ z ∈ r.node_store_, z.2.is_evictable_ = true → z.2.history_.length < 3 →
            z.1 ≠ e.1 → ∃ c, z.2.history_.getLast? = some c ∧ b < c := by
  refine ⟨_, rfl, ?_⟩
  refine C10_evict_lru_among_fewer_than_k_accesses 2 3 5 _ (by decide) (by decide) ?_
    (by decide) (by decide)
  exact LRUKReplacer.Reachable.fresh.run
    [.RecordAccess 0, .RecordAccess 1, .RecordAccess 0,
     .SetEvictable 0 true, .SetEvictable 1 true] rfl

end bustub

namespace bustub

/-! ## Claims settled by evaluating the pool on a call sequence -/

/-- C1 (FetchPage of a resident page), evaluated at a failing input.  In a
fresh pool of one frame, `NewPage` puts page 0 in frame 0 with pin count 1.
`FetchPage(0)` then returns frame 0 and records an access for it in the
replacer (history 0, 1), and the pin count of the frame is still 1: the
resident branch does not pin. -/
theorem C1_FetchPage_resident_keeps_pin_count :
    ∃ s s', BufferPoolManager.run [.NewPage] (BufferPoolManager.new 1 4 2) = some s ∧
      UMap.find s.page_table_ 0 = some 0 ∧
      (s.pages_[0]?).map Page.pin_count_ = some 1 ∧
      (UMap.find s.replacer_.node_store_ 0).map LRUKNode.history_ = some [0] ∧
      s.FetchPage 0 = some (some 0, s') ∧
      (s'.pages_[0]?).map Page.pin_count_ = some 1 ∧
      (UMap.find s'.replacer_.node_store_ 0).map LRUKNode.history_ = some [0, 1] ∧
      s'.pages_ = s.pages_ :=
  ⟨_, _, rfl, by decide, by decide, by decide, rfl, by decide, by decide, by decide⟩

/-- C2 (page-table entries agree with the frames), evaluated at a failing
input.  In a pool of one frame, after `NewPage` (page 0), `UnpinPage(0, false)`
and `FetchPage(1)`, which evicts page 0 from frame 0, the page table still
maps page 0 to frame 0 while the frame holds page 1; pages 0 and 1 map to the
same frame, and `FetchPage(0)` returns frame 0, whose page id is 1. -/
theorem C2_FetchPage_eviction_leaves_stale_entry :
    ∃ s s', BufferPoolManager.run [.NewPage, .UnpinPage 0 false, .FetchPage 1]
        (BufferPoolManager.new 1 4 2) = some s ∧
      UMap.find s.page_table_ 0 = some 0 ∧
      UMap.find s.page_table_ 1 = some 0 ∧
      (s.pages_[0]?).map Page.page_id_ = some 1 ∧
      s.FetchPage 0 = some (some 0, s') ∧
      (s'.pages_[0]?).map Page.page_id_ = some 1 :=
  ⟨_, _, rfl, by decide, by decide, by decide, rfl, by decide⟩

/-- C4 (result of UnpinPage), evaluated at a failing input.  In a pool of one
frame the eight calls below are all defined; they leave page 2 resident in
frame 0 with pin count 2 (the frame was handed out twice from the free list).
`UnpinPage(2, false)` then decrements the pin count to 1 and returns its local
`result` without ever assigning it, where the claim has `true`. -/
theorem C4_UnpinPage_result_unassigned :
    ∃ s s', BufferPoolManager.run
        [.NewPage, .UnpinPage 0 false, .FetchPage 1, .UnpinPage 1 false, .DeletePage 0,
         .DeletePage 1, .NewPage, .NewPage]
        (BufferPoolManager.new 1 4 2) = some s ∧
      UMap.find s.page_table_ 2 = some 0 ∧
      (s.pages_[0]?).map Page.pin_count_ = some 2 ∧
      s.UnpinPage 2 false = some (none, s') ∧
      (s'.pages_[0]?).map Page.pin_count_ = some 1 ∧
      s'.replacer_ = s.replacer_ :=
  ⟨_, _, rfl, by decide, by decide, rfl, by decide, by decide⟩

/-- C5 (a failed UnpinPage changes nothing), evaluated at a failing input.  In
a pool of one frame, after `NewPage` (page 0) and `UnpinPage(0, false)` the
frame is clean with pin count 0.  `UnpinPage(0, true)` returns false, and the
frame is dirty afterwards: the state has changed. -/
theorem C5_failed_UnpinPage_sets_dirty :
    ∃ s s', BufferPoolManager.run [.NewPage, .UnpinPage 0 false]
        (BufferPoolManager.new 1 4 2) = some s ∧
      (s.pages_[0]?).map Page.pin_count_ = some 0 ∧
      (s.pages_[0]?).map Page.is_dirty_ = some false ∧
      s.UnpinPage 0 true = some (some false, s') ∧
      (s'.pages_[0]?).map Page.is_dirty_ = some true ∧
      s' ≠ s :=
  ⟨_, _, rfl, by decide, by decide, rfl, by decide, by decide⟩

/-- C7 (DeletePage), evaluated at a failing input.  In a pool of one frame the
six calls below are all defined; they leave page 1 resident in frame 0 with
pin count 0 while the replacer holds a node for frame 0 that is not evictable.
`DeletePage(1)` returns true, removes page 1 from the page table, zeroes the
buffer and appends frame 0 to the free list, and the replacer still tracks
frame 0. -/
theorem C7_DeletePage_leaves_frame_tracked :
    ∃ s s', BufferPoolManager.run
        [.NewPage, .UnpinPage 0 false, .FetchPage 1, .UnpinPage 1 false, .DeletePage 0,
         .FetchPage 1]
        (BufferPoolManager.new 1 4 2) = some s ∧
      UMap.find s.page_table_ 1 = some 0 ∧
      (s.pages_[0]?).map Page.pin_count_ = some 0 ∧
      s.DeletePage 1 = some (true, s') ∧
      UMap.find s'.page_table_ 1 = none ∧
      (s'.pages_[0]?).map Page.data_ = some [0, 0, 0, 0] ∧
      s'.free_list_ = s.free_list_ ++ [0] ∧
      UMap.find s'.replacer_.node_store_ 0
        = some { history_ := [2], kDistance := SIZE_INFINITY, is_evictable_ := false } :=
  ⟨_, _, rfl, by decide, by decide, rfl, by decide, by decide, by decide, by decide⟩

end bustub

namespace bustub

/-! ## Claims about the pool that hold in every reachable state -/

/-- Witness for C3: a pool of two frames with two-byte pages, `k = 2` and the
pattern 7, 9. -/
theorem C3_round_trip_through_eviction_witness :
    ∃ p f s1 s3 ids s4,
      (BufferPoolManager.new 2 2 2).NewPage = some (some (p, f), s1) ∧
      (s1.WriteData f [7, 9]).UnpinPage p true = some (some true, s3) ∧
      BufferPoolManager.NewPages 2 s3 = some (ids, s4) ∧ ids.length = 2 ∧
      UMap.find s4.page_table_ p = none ∧
      UMap.find s4.disk_manager_.pages p = some [7, 9] ∧
      ∀ q ∈ ids, ∀ d, ∃ s5 g s6 pg,
        s4.UnpinPage q d = some (some true, s5) ∧
        s5.FetchPage p = some (some g, s6) ∧
        s6.pages_[g]? = some pg ∧ pg.page_id_ = p ∧ pg.data_ = [7, 9] :=
  C3_round_trip_through_eviction 2 2 2 [7, 9] (by decide) (by decide) (by decide) rfl

/-- In every pool state reachable from a fresh pool by `NewPage`, `FetchPage`,
`UnpinPage`, `FlushPage` and `DeletePage` (with `k ≥ 1`, in a number of calls
that keeps the 64-bit clock and counters from wrapping, for every iteration
order of the node store): `NewPage` returns; it returns null if and only if
the free list is empty and `Size()` is zero, which is to say that no frame is
evictable; and when it returns null the state, next page id included, is
unchanged. -/
theorem BufferPoolManager.Reachable.NewPage_null_iff {pool_size page_size k n : Nat}
    {s : BufferPoolManager} (hr : BufferPoolManager.Reachable pool_size page_size k n s)
    (hk : 1 ≤ k) (hn : 2 * n ≤ SIZE_MAX) :
    (∃ res s', s.NewPage = some (res, s') ∧
      (res = none ↔ s.free_list_ = [] ∧ s.replacer_.Size = 0) ∧
      (res = none → s' = s)) ∧
    (s.replacer_.Size = 0 ↔ ∀ e ∈ s.replacer_.node_store_, e.2.is_evictable_ = false) := by
  have hwf := hr.pool_wf hk hn
  exact ⟨hwf.NewPage_spec hn, hwf.replacer.Size_zero_iff⟩

end bustub

namespace bustub

/-! ## Further claims settled by evaluating the code on a call sequence -/

/-- C11 (dropping a guard unpins), evaluated at a failing input.  In a pool of
one frame, `NewPage` puts page 0 in frame 0 with pin count 1 and the client
writes the bytes 1, 2, 3, 4 into it.  Dropping a guard on that frame with
dirty intent decrements the pin count and calls `DeletePage(0)`: page 0 leaves
the page table, its buffer is zeroed, frame 0 goes back to the free list and
the frame is not marked dirty.  `UnpinPage(0, true)` on the same state keeps
page 0 resident with its bytes, marks the frame dirty and evictable, and
leaves the free list empty. -/
theorem C11_Drop_deletes_the_page :
    ∃ s g' dropped unpinned,
      (BufferPoolManager.run [.NewPage] (BufferPoolManager.new 1 4 2)).map
        (fun s1 => s1.WriteData 0 [1, 2, 3, 4]) = some s ∧
      UMap.find s.page_table_ 0 = some 0 ∧
      (s.pages_[0]?).map Page.pin_count_ = some 1 ∧
      BasicPageGuard.Drop { bpm_ := true, page_ := some 0, is_dirty_ := true } s
        = some (g', dropped) ∧
      s.UnpinPage 0 true = some (some true, unpinned) ∧
      UMap.find dropped.page_table_ 0 = none ∧
      UMap.find unpinned.page_table_ 0 = some 0 ∧
      dropped.free_list_ = [0] ∧ unpinned.free_list_ = [] ∧
      dropped.pages_ = [{ data_ := [0, 0, 0, 0], page_id_ := 0, pin_count_ := 0,
                          is_dirty_ := false }] ∧
      unpinned.pages_ = [{ data_ := [1, 2, 3, 4], page_id_ := 0, pin_count_ := 0,
                           is_dirty_ := true }] ∧
      dropped ≠ unpinned :=
  ⟨_, _, _, _, rfl, by decide, by decide, rfl, rfl, by decide, by decide, by decide, by decide,
    by decide, by decide, by decide⟩

/-- C12 (every frame is either free or mapped, never both), evaluated at a
failing input.  In a pool of one frame the five calls below are all defined;
afterwards frame 0 is on the free list and is also the page-table value of
page 1.  After `DeletePage(1)` the frame is on the free list twice. -/
theorem C12_frame_both_free_and_mapped :
    ∃ s s',
      BufferPoolManager.run
        [.NewPage, .UnpinPage 0 false, .FetchPage 1, .UnpinPage 1 false, .DeletePage 0]
        (BufferPoolManager.new 1 4 2) = some s ∧
      s.free_list_ = [0] ∧ s.page_table_ = [(1, 0)] ∧
      s.DeletePage 1 = some (true, s') ∧
      s'.free_list_ = [0, 0] ∧ s'.page_table_ = [] :=
  ⟨_, _, rfl, by decide, by decide, rfl, by decide, by decide⟩

/-- C15 (a newly acquired frame is clean), evaluated at a failing input.  In a
pool of one frame, after `NewPage` (page 0) and `UnpinPage(0, true)` frame 0
is dirty.  The next `NewPage` evicts it, writes page 0 to the disk and returns
page 1 in frame 0, and the frame is still marked dirty; so is a frame acquired
by `FetchPage(1)` in the same state. -/
theorem C15_acquired_frame_stays_dirty :
    ∃ s s' s'',
      BufferPoolManager.run [.NewPage, .UnpinPage 0 true] (BufferPoolManager.new 1 4 2)
        = some s ∧
      s.pages_ = [{ data_ := [0, 0, 0, 0], page_id_ := 0, pin_count_ := 0,
                    is_dirty_ := true }] ∧
      s.NewPage = some (some (1, 0), s') ∧
      UMap.find s'.disk_manager_.pages 0 = some [0, 0, 0, 0] ∧
      s'.pages_ = [{ data_ := [0, 0, 0, 0], page_id_ := 1, pin_count_ := 1,
                     is_dirty_ := true }] ∧
      UMap.find s.page_table_ 1 = none ∧
      s.FetchPage 1 = some (some 0, s'') ∧
      s''.pages_ = [{ data_ := [0, 0, 0, 0], page_id_ := 1, pin_count_ := 1,
                      is_dirty_ := true }] :=
  ⟨_, _, _, rfl, by decide, rfl, by decide, by decide, by decide, rfl, by decide⟩

/-- C16 (what NewPage returns), evaluated at a failing input.  In a pool of
one frame the seven calls below are all defined; they leave frame 0 on the
free list while it holds page 1 with pin count 1.  `NewPage` then returns page
2 in frame 0 with a zero buffer, the page id 2 and a page-table entry for it,
and with pin count 2 where the claim has exactly 1. -/
theorem C16_NewPage_returns_pin_count_two :
    ∃ s s',
      BufferPoolManager.run
        [.NewPage, .UnpinPage 0 false, .FetchPage 1, .UnpinPage 1 false, .DeletePage 0,
         .DeletePage 1, .NewPage]
        (BufferPoolManager.new 1 4 2) = some s ∧
      s.free_list_ = [0] ∧
      s.pages_ = [{ data_ := [0, 0, 0, 0], page_id_ := 1, pin_count_ := 1,
                    is_dirty_ := false }] ∧
      s.NewPage = some (some (2, 0), s') ∧
      UMap.find s'.page_table_ 2 = some 0 ∧
      s'.pages_ = [{ data_ := [0, 0, 0, 0], page_id_ := 2, pin_count_ := 2,
                     is_dirty_ := false }] ∧
      (UMap.find s'.replacer_.node_store_ 0).map LRUKNode.is_evictable_ = some false :=
  ⟨_, _, rfl, by decide, by decide, rfl, by decide, by decide, by decide⟩

/-- C18 (frame ids at or above the capacity are rejected), evaluated at a
failing input.  On a fresh replacer of capacity 3, `RecordAccess(3)` creates a
node for frame 3 and advances the clock, `SetEvictable(3, true)` creates a
node and raises `Size()` to 1, and after both calls `Remove(3)` erases the
node: the bound check accepts the frame id equal to the capacity. -/
theorem C18_capacity_accepted_as_frame_id :
    (LRUKReplacer.new 3 2).RecordAccess 3
      = some { node_store_ := [(3, { history_ := [0], kDistance := SIZE_INFINITY,
                                     is_evictable_ := false })],
               current_timestamp_ := 1, curr_size_ := 0, replacer_size_ := 3, k_ := 2 } ∧
    (LRUKReplacer.new 3 2).SetEvictable 3 true
      = { node_store_ := [(3, { history_ := [], kDistance := SIZE_INFINITY,
                                is_evictable_ := true })],
          current_timestamp_ := 0, curr_size_ := 1, replacer_size_ := 3, k_ := 2 } ∧
    ((LRUKReplacer.new 3 2).SetEvictable 3 true).Size = 1 ∧
    (((LRUKReplacer.new 3 2).SetEvictable 3 true).Remove 3).node_store_ = [] ∧
    (((LRUKReplacer.new 3 2).SetEvictable 3 true).Remove 3).Size = 0 ∧
    (LRUKReplacer.new 3 2).SetEvictable 4 true = LRUKReplacer.new 3 2 ∧
    (LRUKReplacer.new 3 2).Remove 4 = LRUKReplacer.new 3 2 ∧
    (LRUKReplacer.new 3 2).RecordAccess 4 = none := by
  decide

/-- C19 (every public operation releases the latch), evaluated at a failing
input.  On a fresh pool, `FlushAllPages` returns with the latch held; after it
none of the public operations returns. -/
theorem C19_FlushAllPages_keeps_the_latch :
    ∃ s, (BufferPoolManager.new 1 4 2).latch_ = false ∧
      (BufferPoolManager.new 1 4 2).FlushAllPages = some s ∧
      s.latch_ = true ∧
      s.NewPage = none ∧ s.FetchPage 0 = none ∧ s.UnpinPage 0 false = none ∧
      s.FlushPage 0 = none ∧ s.FlushAllPages = none ∧ s.DeletePage 0 = none :=
  ⟨_, rfl, rfl, by decide, by decide, by decide, by decide, by decide, by decide, by decide⟩

/-- C20 (pin counts are 0 or 1), evaluated at a failing input.  In a pool of
one frame the eight calls below are all defined and leave frame 0 with pin
count 2, holding page 2.  `UnpinPage(2, true)` then takes the path on which
the pin count is still positive after the decrement and returns its local
`result` unassigned. -/
theorem C20_pin_count_two_reachable :
    ∃ s s',
      BufferPoolManager.run
        [.NewPage, .UnpinPage 0 false, .FetchPage 1, .UnpinPage 1 false, .DeletePage 0,
         .DeletePage 1, .NewPage, .NewPage]
        (BufferPoolManager.new 1 4 2) = some s ∧
      s.pages_ = [{ data_ := [0, 0, 0, 0], page_id_ := 2, pin_count_ := 2,
                    is_dirty_ := false }] ∧
      s.page_table_ = [(2, 0), (1, 0)] ∧
      s.UnpinPage 2 true = some (none, s') ∧
      s'.pages_ = [{ data_ := [0, 0, 0, 0], page_id_ := 2, pin_count_ := 1,
                     is_dirty_ := true }] :=
  ⟨_, _, rfl, by decide, by decide, rfl, by decide⟩

end bustub

namespace bustub

/-- C17 (FlushPage is idempotent).  For every pool state whose latch is
released and in which the frame of `p`, if `p` is resident, is a frame of the
pool, and for every page id `p`: `FlushPage(p)` returns, and a second
`FlushPage(p)` right after it returns the same boolean and leaves the pool and
the disk exactly as the first call left them.  When `p` is resident in frame
`f` the call returns true, the disk then holds the bytes of the frame under
`p`, and the frame is as before except that `is_dirty` is false (pin count and
bytes unchanged); when `p` is not resident it returns false and changes
nothing. -/
theorem C17_FlushPage_idempotent (s : BufferPoolManager) (p : Int) (hl : s.latch_ = false)
    (hf : ∀ f, UMap.find s.page_table_ p = some f → f < s.pages_.length) :
    ∃ b s1, s.FlushPage p = some (b, s1) ∧ s1.FlushPage p = some (b, s1) ∧
      (∀ f page, UMap.find s.page_table_ p = some f → s.pages_[f]? = some page →
        b = true ∧ UMap.find s1.disk_manager_.pages p = some page.data_ ∧
        s1.pages_[f]? = some { page with is_dirty_ := false } ∧
        s1 = { s with disk_manager_ := s.disk_manager_.WritePage p page.data_,
                      pages_ := s.pages_.set f { page with is_dirty_ := false } }) ∧
      (UMap.find s.page_table_ p = none → b = false ∧ s1 = s) := by
  cases hres : UMap.find s.page_table_ p with
  | none =>
    have h1 := BufferPoolManager.FlushPage_absent hl hres
    refine ⟨false, s, h1, h1, ?_, fun _ => ⟨rfl, rfl⟩⟩
    intro f page hc
    cases hc
  | some f =>
    have hlt : f < s.pages_.length := hf f hres
    have hpage : s.pages_[f]? = some s.pages_[f] := List.getElem?_eq_getElem hlt
    have h1 := BufferPoolManager.FlushPage_resident hl hres hpage
    have hpage1 : (s.pages_.set f { s.pages_[f] with is_dirty_ := false })[f]?
        = some { s.pages_[f] with is_dirty_ := false } := List.getElem?_set_self hlt
    have h2 := BufferPoolManager.FlushPage_resident
      (s := { s with
        disk_manager_ := s.disk_manager_.WritePage p s.pages_[f].data_,
        pages_ := s.pages_.set f { s.pages_[f] with is_dirty_ := false } })
      hl hres hpage1
    refine ⟨true, _, h1, ?_, ?_, ?_⟩
    · rw [h2]
      simp only [DiskManager.WritePage, UMap.assign_idem, List.set_set]
    · intro g page hg hpg
      cases hg
      rw [hpage] at hpg
      cases hpg
      exact ⟨rfl, UMap.find_assign_self _ _ _, hpage1, rfl⟩
    · intro hc
      cases hc

/-- Witness for C17: page 0, resident and dirty in a pool of one frame. -/
theorem C17_FlushPage_idempotent_witness :
    ∃ s, BufferPoolManager.run [.NewPage, .UnpinPage 0 true] (BufferPoolManager.new 1 4 2)
        = some s ∧
      ∃ b s1, s.FlushPage 0 = some (b, s1) ∧ s1.FlushPage 0 = some (b, s1) ∧
        (∀ f page, UMap.find s.page_table_ 0 = some f → s.pages_[f]? = some page →
          b = true ∧ UMap.find s1.disk_manager_.pages 0 = some page.data_ ∧
          s1.pages_[f]? = some { page with is_dirty_ := false } ∧
          s1 = { s with disk_manager_ := s.disk_manager_.WritePage 0 page.data_,
                        pages_ := s.pages_.set f { page with is_dirty_ := false } }) ∧
        (UMap.find s.page_table_ 0 = none → b = false ∧ s1 = s) :=
  ⟨_, rfl, C17_FlushPage_idempotent _ 0 (by decide) (by decide)⟩

end bustub

namespace bustub

/-- C14 (Size() counts the evictable frames).  For every replacer state
reached from a fresh replacer by any sequence of `RecordAccess`,
`SetEvictable`, `Remove` and `Evict` calls (for every `k`, in fewer calls than
`size_t` has values, for every iteration order of the node store): the tracked
frame ids are pairwise different and `Size()` is the number of tracked frames
whose `is_evictable_` flag is true; `SetEvictable` on an accepted frame id
raises `Size()` by one when the flag goes from false to true (an untracked
frame counting as false), lowers it by one when the flag goes from true to
false, and leaves it alone when the flag does not change; a successful `Evict`
and a `Remove` of an evictable frame lower it by exactly one. -/
theorem C14_Size_counts_evictable_frames (num_frames k n : Nat) (r : LRUKReplacer)
    (hn : n < SIZE_MAX) (hr : LRUKReplacer.Reachable num_frames k n r) :
    (r.node_store_.map Prod.fst).Nodup ∧
    r.Size = r.node_store_.countP (fun e => e.2.is_evictable_) ∧
    (∀ f b, f ≤ r.replacer_size_ →
      (((UMap.find r.node_store_ f).getD LRUKNode.fresh).is_evictable_ = false → b = true →
        (r.SetEvictable f b).Size = r.Size + 1) ∧
      (((UMap.find r.node_store_ f).getD LRUKNode.fresh).is_evictable_ = true → b = false →
        (r.SetEvictable f b).Size + 1 = r.Size) ∧
      (((UMap.find r.node_store_ f).getD LRUKNode.fresh).is_evictable_ = b →
        (r.SetEvictable f b).Size = r.Size)) ∧
    (∀ f r', r.Evict = some (some f, r') → r'.Size + 1 = r.Size) ∧
    (∀ f nd, UMap.find r.node_store_ f = some nd → nd.is_evictable_ = true →
      (r.Remove f).Size + 1 = r.Size) := by
  have hc := hr.counted (le_of_lt hn)
  refine ⟨hc.keys, hc.size, fun f b hf => (hc.SetEvictable_in hn f b hf).2, ?_, ?_⟩
  · intro f r' he
    exact (hc.after_evict (le_of_lt hn) he).2 (by simp)
  · intro f nd hfind hev
    have hf : ¬ f > r.replacer_size_ := by
      have := hc.bound _ (UMap.find_some_mem hfind)
      simp only [] at this
      omega
    have hrem : r.Remove f =
        { r with node_store_ := UMap.erase r.node_store_ f,
                 curr_size_ := (r.curr_size_ + SIZE_MOD - 1) % SIZE_MOD } := by
      unfold LRUKReplacer.Remove
      rw [if_neg hf, hfind]
      exact if_pos hev
    exact (hc.after_erase (t := r.Remove f) (le_of_lt hn) hfind hev
      (by rw [hrem]) (by rw [hrem]) (by rw [hrem])).2

/-- Witness for C14: the replacer of scenario S6 with all three frames
evictable, where `Size()` is 3. -/
theorem C14_Size_counts_evictable_frames_witness :
    ∃ r, LRUKReplacer.run
        [.RecordAccess 0, .RecordAccess 1, .RecordAccess 2, .RecordAccess 0, .RecordAccess 1,
         .SetEvictable 0 true, .SetEvictable 1 true, .SetEvictable 2 true]
        (LRUKReplacer.new 3 2) = some r ∧ r.Size = 3 ∧
      ((r.node_store_.map Prod.fst).Nodup ∧
      r.Size = r.node_store_.countP (fun e => e.2.is_evictable_) ∧
      (∀ f b, f ≤ r.replacer_size_ →
        (((UMap.find r.node_store_ f).getD LRUKNode.fresh).is_evictable_ = false → b = true →
          (r.SetEvictable f b).Size = r.Size + 1) ∧
        (((UMap.find r.node_store_ f).getD LRUKNode.fresh).is_evictable_ = true → b = false →
          (r.SetEvictable f b).Size + 1 = r.Size) ∧
        (((UMap.find r.node_store_ f).getD LRUKNode.fresh).is_evictable_ = b →
          (r.SetEvictable f b).Size = r.Size)) ∧
      (∀ f r', r.Evict = some (some f, r') → r'.Size + 1 = r.Size) ∧
      (∀ f nd, UMap.find r.node_store_ f = some nd → nd.is_evictable_ = true →
        (r.Remove f).Size + 1 = r.Size)) :=
  ⟨_, rfl, by decide,
    C14_Size_counts_evictable_frames 3 2 8 _ (by decide)
      (LRUKReplacer.Reachable.fresh.run
        [.RecordAccess 0, .RecordAccess 1, .RecordAccess 2, .RecordAccess 0, .RecordAccess 1,
         .SetEvictable 0 true, .SetEvictable 1 true, .SetEvictable 2 true] rfl)⟩

end bustub

namespace bustub

/-! ## C13: pinned frames are not evictable -/

/-- C13 (a pinned frame is not evictable). In every state reached from a freshly
constructed pool by `n` calls of `NewPage`, `FetchPage`, `UnpinPage`,
`FlushPage` and `DeletePage` (with `k_ ≥ 1` and `2 * n` below `SIZE_MAX`, so
that the logical clock of the replacer has not wrapped), under every iteration
order of the node store: a frame whose pin count is positive is not marked
evictable in the replacer; equivalently every frame the replacer marks
evictable is a frame of the pool with pin count zero; and so a frame returned
by `Evict` in that state has pin count zero. -/
theorem C13_pinned_frames_not_evictable (pool_size page_size k n : Nat) (s : BufferPoolManager)
    (hk : 1 ≤ k) (hn : 2 * n ≤ SIZE_MAX)
    (hr : BufferPoolManager.Reachable pool_size page_size k n s) :
    (∀ f nd pg, UMap.find s.replacer_.node_store_ f = some nd → s.pages_[f]? = some pg →
      0 < pg.pin_count_ → nd.is_evictable_ = false) ∧
    (∀ f nd, UMap.find s.replacer_.node_store_ f = some nd → nd.is_evictable_ = true →
      ∃ pg, s.pages_[f]? = some pg ∧ pg.pin_count_ = 0) ∧
    (∀ f r', s.replacer_.Evict = some (some f, r') →
      ∃ pg, s.pages_[f]? = some pg ∧ pg.pin_count_ = 0) := by
  have hu : s.EvictableUnpinned := hr.evictable_unpinned hk hn
  have hwf := hr.pool_wf hk hn
  refine ⟨?_, hu, ?_⟩
  · intro f nd pg hfind hpg hpos
    cases hev : nd.is_evictable_ with
    | false => rfl
    | true =>
      obtain ⟨pg', hpg', hzero⟩ := hu f nd hfind hev
      rw [hpg] at hpg'
      cases hpg'
      omega
  · intro f r' he
    rcases LRUKReplacer.Evict_some he with ⟨hnone, _⟩ | ⟨e, hem, hev, hres, _⟩
    · cases hnone
    · cases hres
      exact hu e.1 e.2 (UMap.find_of_mem hwf.replacer.keys hem) hev

/-- C13 at a concrete state: a pool of two frames after `NewPage`, `NewPage`,
`UnpinPage(0, false)`. Frame 1 is pinned and not evictable, frame 0 is
evictable with pin count zero, and `Evict` returns frame 0. -/
theorem C13_pinned_frames_not_evictable_witness :
    ∃ s : BufferPoolManager,
      BufferPoolManager.run [.NewPage, .NewPage, .UnpinPage 0 false]
        (BufferPoolManager.new 2 2 2) = some s ∧
      (s.pages_.map (fun pg => pg.pin_count_) = [0, 1] ∧
        (s.replacer_.Evict).map Prod.fst = some (some 0)) ∧
      ((∀ f nd pg, UMap.find s.replacer_.node_store_ f = some nd → s.pages_[f]? = some pg →
        0 < pg.pin_count_ → nd.is_evictable_ = false) ∧
      (∀ f nd, UMap.find s.replacer_.node_store_ f = some nd → nd.is_evictable_ = true →
        ∃ pg, s.pages_[f]? = some pg ∧ pg.pin_count_ = 0) ∧
      (∀ f r', s.replacer_.Evict = some (some f, r') →
        ∃ pg, s.pages_[f]? = some pg ∧ pg.pin_count_ = 0)) :=
  ⟨_, rfl, by decide,
    C13_pinned_frames_not_evictable 2 2 2 3 _ (by decide) (by decide)
      (BufferPoolManager.Reachable.fresh.pool_run
        [.NewPage, .NewPage, .UnpinPage 0 false] rfl)⟩

end bustub

namespace bustub

/-! ## NewPage in a pool whose frames are all pinned -/

/-- C6 (NewPage returns null exactly when the pool is exhausted; with all
frames pinned it returns null, and after one unpin it succeeds), evaluated at
failing inputs in a pool of one frame.  After the seven calls below the only
frame is pinned (pin count 1, its node not evictable) while it is also on the
free list, and `NewPage` returns page 2 where the claim has null.  After that
eighth call the frame has pin count 2, the free list is empty and `Size()` is
zero: `NewPage` returns null and leaves the state unchanged, but after
`UnpinPage(2, false)` the frame is still pinned and `NewPage` returns null
again, where the claim has it succeed.  And after `FlushAllPages` on a fresh
pool the free list is not empty, yet `NewPage` does not return. -/
theorem C6_NewPage_with_all_frames_pinned :
    ∃ s s8 s9 t,
      BufferPoolManager.run
        [.NewPage, .UnpinPage 0 false, .FetchPage 1, .UnpinPage 1 false, .DeletePage 0,
         .DeletePage 1, .NewPage]
        (BufferPoolManager.new 1 4 2) = some s ∧
      s.pages_.map Page.pin_count_ = [1] ∧
      (UMap.find s.replacer_.node_store_ 0).map LRUKNode.is_evictable_ = some false ∧
      s.free_list_ = [0] ∧
      s.NewPage = some (some (2, 0), s8) ∧
      s8.pages_.map Page.pin_count_ = [2] ∧
      s8.free_list_ = [] ∧ s8.replacer_.Size = 0 ∧
      s8.NewPage = some (none, s8) ∧
      s8.UnpinPage 2 false = some (none, s9) ∧
      s9.pages_.map Page.pin_count_ = [1] ∧
      s9.NewPage = some (none, s9) ∧
      (BufferPoolManager.new 1 4 2).FlushAllPages = some t ∧
      t.free_list_ = [0] ∧
      t.NewPage = none :=
  ⟨_, _, _, _, rfl, by decide, by decide, by decide, rfl, by decide, by decide, by decide,
    by decide, rfl, by decide, by decide, rfl, by decide, by decide⟩

end bustub
